import Mathlib

/-!
# Groth16 trusted setup (gnark template `groth16_setup.go`) and the `div` test circuit

A shallow embedding of `Setup`, `setupABC`, `sampleToxicWaste`, `DummySetup`, the two
`IsDifferent` methods, `bitReverse` and the circuit of `div.go`, followed by the theorems
about them.

Conventions of the embedding.

* An `fr.Element` is modelled by the residue stored in its limbs, an element of the scalar
  field `F`.  The arithmetic of the field package works on the Montgomery form: an element
  of value `x` is stored as `x * mont`, where `mont` is the Montgomery radix.  `ToRegular` and
  `FromMont` are the Montgomery reduction, scalar multiplication of a curve point reads the
  stored residue as it is.  `fr.val` recovers the value of a Montgomery-form element.
* `Inverse` of zero is zero in the field package, so `Div` by zero yields zero; this is the
  convention of `Field` as well.
* The prime-order groups G1 and G2 are modules over the scalar field; the Miller loop and the
  final exponentiation are functions the curve supplies.
* A Go slice is a `List`; an index out of range or a negative length given to `make` is a
  run-time panic, modelled by `none` (by `Outcome.panicked` in `Setup`, which keeps the state
  of the keys at the panic).
* The constructor `fft.NewDomain` belongs to the fft package and is a parameter.  `Setup` and
  `DummySetup` take a constructor that returns a domain: they are the two functions from
  the point where the constructor has returned.  `Setup.call` and `DummySetup.call` take the
  constructor as a function that may panic, which it does when it has no domain for the
  number of constraints; they are the two functions from their first line.
-/

namespace Groth16

/-! ## The field package `fr` -/

namespace fr

variable {F : Type} [Field F]

/-- Value of an element held in Montgomery form. -/
def val (mont a : F) : F := a * mont⁻¹

/-- The element `One()`: the Montgomery form of 1. -/
def One (mont : F) : F := mont

/-- Sum `z = x + y`. -/
def Add (x y : F) : F := x + y

/-- Difference `z = x - y`. -/
def Sub (x y : F) : F := x - y

/-- Montgomery product `z = x * y * mont⁻¹`. -/
def Mul (mont x y : F) : F := x * y * mont⁻¹

/-- Montgomery inverse `z = mont² * x⁻¹`; the inverse of 0 is 0. -/
def Inverse (mont x : F) : F := mont * mont * x⁻¹

/-- Quotient `z = x * y⁻¹`: `Inverse` followed by `Mul`. -/
def Div (mont x y : F) : F := Mul mont x (Inverse mont y)

/-- Power `z = x ^ e`, by Montgomery products from `One()`. -/
def Exp (mont x : F) : Nat → F
  | 0 => One mont
  | e + 1 => Mul mont (Exp mont x e) x

/-- Conversion `ToRegular`: Montgomery reduction of the stored residue. -/
def ToRegular (mont x : F) : F := x * mont⁻¹

/-- Conversion `FromMont`, the in-place variant of `ToRegular`. -/
def FromMont (mont x : F) : F := x * mont⁻¹

end fr

/-! ## FFT domain and R1CS -/

/-- The fields of `fft.Domain` that the setup reads. -/
structure Domain (F : Type) where
  Cardinality : Nat
  Generator : F
  CardinalityInv : F

/-- A term of a linear expression: the wire it references (`ConstraintID()`) and its
coefficient, in Montgomery form. -/
structure Term (F : Type) where
  ConstraintID : Nat
  Coeff : F

/-- One rank-1 constraint `L * R = O`. -/
structure R1C (F : Type) where
  L : List (Term F)
  R : List (Term F)
  O : List (Term F)

/-- The fields of the R1CS that the setup reads. -/
structure R1CS (F : Type) where
  NbWires : Nat
  NbPublicWires : Nat
  NbConstraints : Nat
  Constraints : List (R1C F)
  PublicWires : List String

/-- The toxic waste: Montgomery forms and regular forms. -/
structure toxicWaste (F : Type) where
  t : F
  alpha : F
  beta : F
  gamma : F
  delta : F
  alphaReg : F
  betaReg : F
  gammaReg : F
  deltaReg : F

section Setup

variable {F : Type} [Field F]

/-- Modelled from the spec: `R1CS.AddTerm(&accumulator, term, λ)`, which is not part of the
sources at hand, "adds `coeff(term) · λ` into `accumulator`". -/
def AddTerm (mont acc : F) (t : Term F) (lam : F) : F :=
  fr.Add acc (fr.Mul mont t.Coeff lam)

/-- The statement `r1cs.AddTerm(&V[t.ConstraintID()], t, λ)`: indexing `V` out of range
panics. -/
def addTermAt (mont : F) (V : List F) (t : Term F) (lam : F) : Option (List F) :=
  if h : t.ConstraintID < V.length then
    some (V.set t.ConstraintID (AddTerm mont (V.get ⟨t.ConstraintID, h⟩) t lam))
  else none

/-- The loop `for _, t := range terms { r1cs.AddTerm(&V[t.ConstraintID()], t, λ) }`. -/
def addTerms (mont : F) (V : List F) (lam : F) : List (Term F) → Option (List F)
  | [] => some V
  | t :: ts => (addTermAt mont V t lam).bind (fun V1 => addTerms mont V1 lam ts)

/-- The variables of `setupABC` that its constraint loop updates. -/
structure ABCState (F : Type) where
  A : List F
  B : List F
  C : List F
  ithLagrangePolt : F
  wi : F

/-- One iteration of the constraint loop of `setupABC`. -/
def setupABCStep (mont w t : F) (s : ABCState F) (c : R1C F) : Option (ABCState F) :=
  (addTerms mont s.A s.ithLagrangePolt c.L).bind (fun A1 =>
  (addTerms mont s.B s.ithLagrangePolt c.R).bind (fun B1 =>
  (addTerms mont s.C s.ithLagrangePolt c.O).bind (fun C1 =>
    let l1 := fr.Mul mont s.ithLagrangePolt w
    let tmp1 := fr.Sub t s.wi
    let l2 := fr.Mul mont l1 tmp1
    let wi1 := fr.Mul mont s.wi w
    let tmp2 := fr.Sub t wi1
    let l3 := fr.Div mont l2 tmp2
    some { A := A1, B := B1, C := C1, ithLagrangePolt := l3, wi := wi1 })))

/-- The loop `for _, c := range r1cs.Constraints`. -/
def setupABCLoop (mont w t : F) (s : ABCState F) : List (R1C F) → Option (ABCState F)
  | [] => some s
  | c :: cs => (setupABCStep mont w t s c).bind (fun s1 => setupABCLoop mont w t s1 cs)

/-- The value `L0` that `setupABC` computes before its loop. -/
def setupL0 (mont : F) (g : Domain F) (t : F) : F :=
  let one := fr.One mont
  let l := fr.Sub (fr.Exp mont t g.Cardinality) one
  let tmp := fr.Sub t one
  fr.Mul mont (fr.Div mont l tmp) g.CardinalityInv

/-- The function `setupABC`. -/
def setupABC (mont : F) (r1cs : R1CS F) (g : Domain F) (tw : toxicWaste F) :
    Option (List F × List F × List F) :=
  let nbWires := r1cs.NbWires
  let s0 : ABCState F :=
    { A := List.replicate nbWires 0, B := List.replicate nbWires 0,
      C := List.replicate nbWires 0,
      ithLagrangePolt := setupL0 mont g tw.t, wi := fr.One mont }
  (setupABCLoop mont g.Generator tw.t s0 r1cs.Constraints).map
    (fun s => (s.A, s.B, s.C))

end Setup

/-! ## Bit reversal -/

/-- Reversal of the low `w` bits of `x`: bit `k` moves to bit `w - 1 - k`. -/
def revBits : Nat → Nat → Nat
  | 0, _ => 0
  | w + 1, x => (x % 2) * 2 ^ w + revBits w (x / 2)

/-- The constant `bits.UintSize` of a 64-bit platform. -/
def UintSize : Nat := 64

/-- The function `bits.Reverse` on a `uint`: the 64 bits in reversed order. -/
def Reverse (x : Nat) : Nat := revBits UintSize (x % 2 ^ UintSize)

/-- Number of trailing zero bits among the low `fuel` bits; `fuel` when they are all zero. -/
def trailingZerosAux : Nat → Nat → Nat
  | 0, _ => 0
  | fuel + 1, n => if n % 2 = 1 then 0 else 1 + trailingZerosAux fuel (n / 2)

/-- The function `bits.TrailingZeros` on a `uint`; it is `UintSize` for 0. -/
def TrailingZeros (n : Nat) : Nat := trailingZerosAux UintSize (n % 2 ^ UintSize)

/-- The statement `a[i], a[j] = a[j], a[i]`; an index out of range panics. -/
def swapAt {α : Type} (a : List α) (i j : Nat) : Option (List α) :=
  if h : i < a.length ∧ j < a.length then
    some ((a.set i (a.get ⟨j, h.2⟩)).set j (a.get ⟨i, h.1⟩))
  else none

/-- The body of the loop of `bitReverse` at index `i`. -/
def bitReverseStep {α : Type} (nn : Nat) (a : List α) (i : Nat) : Option (List α) :=
  let irev := (Reverse i) >>> nn
  if irev > i then swapAt a i irev else some a

/-- The function `bitReverse`, on the contents of the slice it is given. -/
def bitReverse {α : Type} (a : List α) : Option (List α) :=
  let n := a.length
  let nn := UintSize - TrailingZeros n
  (List.range n).foldlM (bitReverseStep nn) a

/-! ## Keys -/

/-- The field `G1` of a proving key. -/
structure ProvingKeyG1 (P1 : Type) where
  Alpha : P1
  Beta : P1
  Delta : P1
  A : List P1
  B : List P1
  Z : List P1
  K : List P1

/-- The field `G2` of a proving key. -/
structure ProvingKeyG2 (P2 : Type) where
  Beta : P2
  Delta : P2
  B : List P2

/-- The type `ProvingKey`. -/
structure ProvingKey (F P1 P2 : Type) where
  G1 : ProvingKeyG1 P1
  G2 : ProvingKeyG2 P2
  Domain : Domain F

/-- The field `G2` of a verifying key. -/
structure VerifyingKeyG2 (P2 : Type) where
  GammaNeg : P2
  DeltaNeg : P2

/-- The field `G1` of a verifying key. -/
structure VerifyingKeyG1 (P1 : Type) where
  K : List P1

/-- The type `VerifyingKey`. -/
structure VerifyingKey (P1 P2 GT : Type) where
  E : GT
  G2 : VerifyingKeyG2 P2
  G1 : VerifyingKeyG1 P1
  PublicInputs : List String

/-- What the curve package supplies: the generators, the Miller loop and the final
exponentiation. -/
structure Curve (P1 P2 GT : Type) where
  g1 : P1
  g2 : P2
  MillerLoop : P1 → P2 → GT
  FinalExponentiation : GT → GT

/-- The five results of `SetRandom` that `sampleToxicWaste` draws, in the order of the
calls. -/
structure Entropy (F : Type) where
  t : F
  alpha : F
  beta : F
  gamma : F
  delta : F

/-- How a call ends: it returns, or it panics; either way with the state of what the caller
passed by pointer. -/
inductive Outcome (σ : Type) where
  | returned (s : σ)
  | panicked (s : σ)

/-- Run the next statement on the state; a statement that panics leaves the state as it
was before it. -/
def Outcome.andThen {σ : Type} (o : Outcome σ) (f : σ → Option σ) : Outcome σ :=
  match o with
  | Outcome.returned s =>
    match f s with
    | some s1 => Outcome.returned s1
    | none => Outcome.panicked s
  | Outcome.panicked s => Outcome.panicked s

/-- Lift a function on the state over the two ways a call ends. -/
def Outcome.map {σ τ : Type} (f : σ → τ) : Outcome σ → Outcome τ
  | Outcome.returned s => Outcome.returned (f s)
  | Outcome.panicked s => Outcome.panicked (f s)

/-- The elements `l[lo], …, l[hi-1]`. -/
def sub {α : Type} (l : List α) (lo hi : Nat) : List α := (l.take hi).drop lo

/-- The slice expression `l[lo:hi]`; bounds out of range panic. -/
def slice {α : Type} (l : List α) (lo hi : Nat) : Option (List α) :=
  if lo ≤ hi ∧ hi ≤ l.length then some (sub l lo hi) else none

/-- The backing array `l` after the elements `l[lo], …, l[lo + z.length - 1]` have been
overwritten with `z` through a slice that starts at `lo`. -/
def writeBack {α : Type} (l : List α) (lo : Nat) (z : List α) : List α :=
  l.take lo ++ z ++ l.drop (lo + z.length)

/-! ## Setup -/

section SetupDef

variable {F P1 P2 GT : Type} [Field F] [AddCommGroup P1] [Module F P1]
  [AddCommGroup P2] [Module F P2]

/-- The function `sampleToxicWaste`, on the five results of `SetRandom`. -/
def sampleToxicWaste (mont : F) (rnd : Entropy F) : toxicWaste F :=
  { t := rnd.t, alpha := rnd.alpha, beta := rnd.beta, gamma := rnd.gamma, delta := rnd.delta,
    alphaReg := fr.ToRegular mont rnd.alpha, betaReg := fr.ToRegular mont rnd.beta,
    gammaReg := fr.ToRegular mont rnd.gamma, deltaReg := fr.ToRegular mont rnd.delta }

/-- The function `curve.BatchScalarMultiplicationG1` (and `G2`): one point per scalar, the
scalar read in regular form. -/
def BatchScalarMultiplication {P : Type} [AddCommGroup P] [Module F P] (g : P)
    (scalars : List F) : List P :=
  scalars.map (fun s => s • g)

/-- The scalar of wire `k` in the loops that fill `pkK` and `vkK`; `d` is `delta` or
`gamma`.  Indexing `A`, `B` or `C` out of range panics. -/
def kScalar (mont : F) (A B C : List F) (tw : toxicWaste F) (d : F) (k : Nat) : Option F :=
  (A.get? k).bind (fun a =>
  (B.get? k).bind (fun b =>
  (C.get? k).bind (fun c =>
    let t1 := fr.Mul mont a tw.beta
    let t0 := fr.Mul mont b tw.alpha
    let t1 := fr.Add t1 t0
    let t1 := fr.Add t1 c
    let t1 := fr.Div mont t1 d
    some (fr.ToRegular mont t1))))

/-- The loop `for i := 0; i < n; i++ { out[i] = scalar of wire i + off }`, by the number
of iterations left. -/
def kScalars (mont : F) (A B C : List F) (tw : toxicWaste F) (d : F) :
    Nat → Nat → Option (List F)
  | 0, _ => some []
  | n + 1, k => (kScalar mont A B C tw d k).bind (fun x =>
      (kScalars mont A B C tw d n (k + 1)).map (fun xs => x :: xs))

/-- The loop `for i := 0; i < n; i++ { V[i].FromMont() }`; indexing `V` out of range
panics. -/
def fromMontPrefix (mont : F) : Nat → List F → Option (List F)
  | 0, V => some V
  | _ + 1, [] => none
  | n + 1, x :: V => (fromMontPrefix mont n V).map (fun V1 => fr.FromMont mont x :: V1)

/-- The loop `for i := 0; i < n; i++ { Z[i] = zdt.ToRegular(); zdt.MulAssign(&t) }`. -/
def zScalars (mont t : F) : Nat → F → List F
  | 0, _ => []
  | n + 1, zdt => fr.ToRegular mont zdt :: zScalars mont t n (fr.Mul mont zdt t)

/-- The value of `zdt` before the loop that fills `Z`. -/
def zdt0 (mont : F) (tw : toxicWaste F) (N : Nat) : F :=
  fr.Div mont (fr.Sub (fr.Exp mont tw.t N) (fr.One mont)) tw.delta

/-- The scalar vectors `Setup` has built when it reaches the batch multiplications. -/
structure SetupScalars (F : Type) where
  A : List F
  B : List F
  pkK : List F
  vkK : List F
  Z : List F
  g1Scalars : List F
  g2Scalars : List F

/-- Lines 81 to 158 and 195 of `Setup`: everything up to the two batch scalar
multiplications.  Nothing here writes to the keys. -/
def setupScalars (mont : F) (r1cs : R1CS F) (domain : Domain F) (tw : toxicWaste F) :
    Option (SetupScalars F) :=
  let nbWires := r1cs.NbWires
  let nbPublicWires := r1cs.NbPublicWires
  (setupABC mont r1cs domain tw).bind (fun ABC =>
  -- `make([]fr.Element, nbPrivateWires)` panics on a negative length
  if nbWires < nbPublicWires then none else
  let nbPrivateWires := nbWires - nbPublicWires
  (kScalars mont ABC.1 ABC.2.1 ABC.2.2 tw tw.delta nbPrivateWires 0).bind (fun pkK =>
  (kScalars mont ABC.1 ABC.2.1 ABC.2.2 tw tw.gamma nbPublicWires nbPrivateWires).bind
    (fun vkK =>
  (fromMontPrefix mont nbWires ABC.1).bind (fun A =>
  (fromMontPrefix mont nbWires ABC.2.1).bind (fun B =>
  let Z := zScalars mont tw.t domain.Cardinality (zdt0 mont tw domain.Cardinality)
  some { A := A, B := B, pkK := pkK, vkK := vkK, Z := Z,
         g1Scalars := [tw.alphaReg, tw.betaReg, tw.deltaReg] ++ A ++ B ++ pkK ++ Z ++ vkK,
         g2Scalars := B ++ [tw.betaReg, tw.deltaReg, tw.gammaReg] })))))

/-- What the second half of `Setup` works on: the two keys and the array behind
`g1PointsAff`, which the slices `pk.G1.A`, `pk.G1.B`, `pk.G1.K` and `pk.G1.Z` share. -/
structure SetupState (F P1 P2 GT : Type) where
  pk : ProvingKey F P1 P2
  vk : VerifyingKey P1 P2 GT
  g1PointsAff : List P1

/-- The statement `bitReverse(pk.G1.Z)` at line 179: `pk.G1.Z` is the part of `g1PointsAff`
that starts at `off`, the permutation is written through it into the shared array, and the
slices of the proving key show the array as it is afterwards. -/
def bitReverseZ (nbWires nbPrivateWires off : Nat) (s : SetupState F P1 P2 GT) :
    Option (SetupState F P1 P2 GT) :=
  (bitReverse s.pk.G1.Z).map (fun z =>
    let mem := writeBack s.g1PointsAff off z
    { s with
      g1PointsAff := mem
      pk := { s.pk with G1 := { s.pk.G1 with
        A := sub mem 3 (3 + nbWires)
        B := sub mem (3 + nbWires) (3 + nbWires + nbWires)
        K := sub mem (3 + nbWires + nbWires) (3 + nbWires + nbWires + nbPrivateWires)
        Z := sub mem off (off + s.pk.G1.Z.length) } } })

/-- Lines 162 to 217 of `Setup`: the keys are filled from the outputs `g1PointsAff` and
`g2PointsAff` of the two batch scalar multiplications, one statement after the other. -/
def fillKeys (curve : Curve P1 P2 GT) (domain : Domain F) (nbWires nbPrivateWires : Nat)
    (g1PointsAff : List P1) (g2PointsAff : List P2)
    (pk : ProvingKey F P1 P2) (vk : VerifyingKey P1 P2 GT) :
    Outcome (ProvingKey F P1 P2 × VerifyingKey P1 P2 GT) :=
  let off1 := 3 + nbWires
  let off2 := off1 + nbWires
  let off3 := off2 + nbPrivateWires
  let off4 := off3 + domain.Cardinality
  let s0 : SetupState F P1 P2 GT := { pk := pk, vk := vk, g1PointsAff := g1PointsAff }
  Outcome.map (fun s => (s.pk, s.vk))
  (((((((((((((((((((Outcome.returned s0).andThen
    (fun s => (s.g1PointsAff.get? 0).map (fun p =>
      { s with pk := { s.pk with G1 := { s.pk.G1 with Alpha := p } } }))).andThen
    (fun s => (s.g1PointsAff.get? 1).map (fun p =>
      { s with pk := { s.pk with G1 := { s.pk.G1 with Beta := p } } }))).andThen
    (fun s => (s.g1PointsAff.get? 2).map (fun p =>
      { s with pk := { s.pk with G1 := { s.pk.G1 with Delta := p } } }))).andThen
    (fun s => (slice s.g1PointsAff 3 off1).map (fun l =>
      { s with pk := { s.pk with G1 := { s.pk.G1 with A := l } } }))).andThen
    (fun s => (slice s.g1PointsAff off1 off2).map (fun l =>
      { s with pk := { s.pk with G1 := { s.pk.G1 with B := l } } }))).andThen
    (fun s => (slice s.g1PointsAff off2 off3).map (fun l =>
      { s with pk := { s.pk with G1 := { s.pk.G1 with K := l } } }))).andThen
    (fun s => (slice s.g1PointsAff off3 off4).map (fun l =>
      { s with pk := { s.pk with G1 := { s.pk.G1 with Z := l } } }))).andThen
    (bitReverseZ nbWires nbPrivateWires off3)).andThen
    (fun s => (slice s.g1PointsAff off4 s.g1PointsAff.length).map (fun l =>
      { s with vk := { s.vk with G1 := { K := l } } }))).andThen
    (fun s => (slice g2PointsAff 0 nbWires).map (fun l =>
      { s with pk := { s.pk with G2 := { s.pk.G2 with B := l } } }))).andThen
    (fun s => (g2PointsAff.get? (nbWires + 0)).map (fun p =>
      { s with pk := { s.pk with G2 := { s.pk.G2 with Beta := p } } }))).andThen
    (fun s => (g2PointsAff.get? (nbWires + 1)).map (fun p =>
      { s with pk := { s.pk with G2 := { s.pk.G2 with Delta := p } } }))).andThen
    (fun s => (g2PointsAff.get? (nbWires + 1)).map (fun p =>
      { s with vk := { s.vk with G2 := { s.vk.G2 with DeltaNeg := p } } }))).andThen
    (fun s => (g2PointsAff.get? (nbWires + 2)).map (fun p =>
      { s with vk := { s.vk with G2 := { s.vk.G2 with GammaNeg := p } } }))).andThen
    (fun s => some
      { s with vk := { s.vk with G2 := { s.vk.G2 with DeltaNeg := - s.vk.G2.DeltaNeg } } })).andThen
    (fun s => some
      { s with vk := { s.vk with G2 := { s.vk.G2 with GammaNeg := - s.vk.G2.GammaNeg } } })).andThen
    (fun s => some
      { s with vk := { s.vk with
          E := curve.FinalExponentiation (curve.MillerLoop s.pk.G1.Alpha s.pk.G2.Beta) } })).andThen
    (fun s => some { s with pk := { s.pk with Domain := domain } }))

/-- The function `Setup`, for a constructor that returns.  `NewDomain` is `fft.NewDomain`,
`rnd` holds what `SetRandom` returns to `sampleToxicWaste`, `pk` and `vk` are the keys the
caller passes by pointer.  The panic of the constructor is in `Setup.call`. -/
def Setup (mont : F) (curve : Curve P1 P2 GT) (NewDomain : Nat → Domain F) (rnd : Entropy F)
    (r1cs : R1CS F) (pk : ProvingKey F P1 P2) (vk : VerifyingKey P1 P2 GT) :
    Outcome (ProvingKey F P1 P2 × VerifyingKey P1 P2 GT) :=
  let nbWires := r1cs.NbWires
  let nbPrivateWires := r1cs.NbWires - r1cs.NbPublicWires
  let nbConstraints := r1cs.NbConstraints
  let domain := NewDomain nbConstraints
  let vk0 : VerifyingKey P1 P2 GT := { vk with PublicInputs := r1cs.PublicWires }
  let tw := sampleToxicWaste mont rnd
  match setupScalars mont r1cs domain tw with
  | none => Outcome.panicked (pk, vk0)
  | some sc =>
    let g1PointsAff := BatchScalarMultiplication curve.g1 sc.g1Scalars
    let g2PointsAff := BatchScalarMultiplication curve.g2 sc.g2Scalars
    fillKeys curve domain nbWires nbPrivateWires g1PointsAff g2PointsAff pk vk0

/-- A call of `Setup` with the constructor `fft.NewDomain` as the fft package has it: it
panics when it has no domain for the number of constraints, `none` here.  The constructor is
called at line 72, after lines 66 to 69 have read four fields of the R1CS and ahead of every
write to the keys, the first of which is that of `vk.PublicInputs` at line 75.  So a panic in
the constructor leaves both keys as the caller passed them, and when the constructor
returns, the call goes on from line 75 as `Setup` does with the domain it returned. -/
def Setup.call (mont : F) (curve : Curve P1 P2 GT) (NewDomain : Nat → Option (Domain F))
    (rnd : Entropy F) (r1cs : R1CS F) (pk : ProvingKey F P1 P2) (vk : VerifyingKey P1 P2 GT) :
    Outcome (ProvingKey F P1 P2 × VerifyingKey P1 P2 GT) :=
  match NewDomain r1cs.NbConstraints with
  | none => Outcome.panicked (pk, vk)
  | some domain => Setup mont curve (fun _ => domain) rnd r1cs pk vk

end SetupDef

/-! ## DummySetup -/

section DummySetupDef

variable {F P1 P2 GT : Type} [Field F] [AddCommGroup P1] [Module F P1]
  [AddCommGroup P2] [Module F P2]

/-- The conversion `ToBigInt`: the residue stored in the limbs, read as an integer. -/
def fr.ToBigInt (x : F) : F := x

/-- The statement `V[i] = x`; an index out of range panics. -/
def setAt {α : Type} (V : List α) (i : Nat) (x : α) : Option (List α) :=
  if i < V.length then some (V.set i x) else none

/-- The body of the first loop of `DummySetup`, at index `i`: the three assignments
`pk.G1.A[i] = r1Aff`, `pk.G1.B[i] = r1Aff`, `pk.G2.B[i] = r2Aff`, one after the other. -/
def dummyFillStep (r1Aff : P1) (r2Aff : P2) (o : Outcome (ProvingKey F P1 P2)) (i : Nat) :
    Outcome (ProvingKey F P1 P2) :=
  ((o.andThen
    (fun pk => (setAt pk.G1.A i r1Aff).map (fun l =>
      { pk with G1 := { pk.G1 with A := l } }))).andThen
    (fun pk => (setAt pk.G1.B i r1Aff).map (fun l =>
      { pk with G1 := { pk.G1 with B := l } }))).andThen
    (fun pk => (setAt pk.G2.B i r2Aff).map (fun l =>
      { pk with G2 := { pk.G2 with B := l } }))

/-- The function `DummySetup`, for a constructor that returns (its panic is in
`DummySetup.call`).  `NewDomain` is `fft.NewDomain`, `rnd` holds what `SetRandom`
returns to `sampleToxicWaste`, `pk` is the key the caller passes by pointer.  The loops over
`pk.G1.Z` and `pk.G1.K` run up to the length of the slice they fill, so they cannot index out
of range: each sets every element of its slice. -/
def DummySetup (mont : F) (curve : Curve P1 P2 GT) (NewDomain : Nat → Domain F)
    (rnd : Entropy F) (r1cs : R1CS F) (pk : ProvingKey F P1 P2) :
    Outcome (ProvingKey F P1 P2) :=
  let nbWires := r1cs.NbWires
  let nbConstraints := r1cs.NbConstraints
  let domain := NewDomain nbConstraints
  let tw := sampleToxicWaste mont rnd
  let b := fr.ToBigInt tw.alphaReg
  let r1Aff := b • curve.g1
  let r2Aff := b • curve.g2
  let made := (((((Outcome.returned pk).andThen
    (fun pk => some { pk with G1 := { pk.G1 with A := List.replicate nbWires 0 } })).andThen
    (fun pk => some { pk with G1 := { pk.G1 with B := List.replicate nbWires 0 } })).andThen
    -- `make` panics on a negative length
    (fun pk => if r1cs.NbWires < r1cs.NbPublicWires then none else
      some { pk with G1 := { pk.G1 with
        K := List.replicate (r1cs.NbWires - r1cs.NbPublicWires) 0 } })).andThen
    (fun pk => some { pk with G1 := { pk.G1 with
      Z := List.replicate domain.Cardinality 0 } })).andThen
    (fun pk => some { pk with G2 := { pk.G2 with B := List.replicate nbWires 0 } })
  let filled := (List.range nbWires).foldl (dummyFillStep r1Aff r2Aff) made
  ((((((((filled.andThen
    (fun pk => some { pk with G1 := { pk.G1 with
      Z := List.replicate pk.G1.Z.length r1Aff } })).andThen
    (fun pk => some { pk with G1 := { pk.G1 with
      K := List.replicate pk.G1.K.length r1Aff } })).andThen
    (fun pk => some { pk with G1 := { pk.G1 with Alpha := r1Aff } })).andThen
    (fun pk => some { pk with G1 := { pk.G1 with Beta := r1Aff } })).andThen
    (fun pk => some { pk with G1 := { pk.G1 with Delta := r1Aff } })).andThen
    (fun pk => some { pk with G2 := { pk.G2 with Beta := r2Aff } })).andThen
    (fun pk => some { pk with G2 := { pk.G2 with Delta := r2Aff } })).andThen
    (fun pk => some { pk with Domain := domain }))

/-- A call of `DummySetup` with the constructor `fft.NewDomain` as the fft package has it,
`none` where it panics.  The constructor is called at line 311, ahead of every write to the
proving key; when it returns, the call goes on from line 314 as `DummySetup` does with the
domain it returned. -/
def DummySetup.call (mont : F) (curve : Curve P1 P2 GT) (NewDomain : Nat → Option (Domain F))
    (rnd : Entropy F) (r1cs : R1CS F) (pk : ProvingKey F P1 P2) :
    Outcome (ProvingKey F P1 P2) :=
  match NewDomain r1cs.NbConstraints with
  | none => Outcome.panicked pk
  | some domain => DummySetup mont curve (fun _ => domain) rnd r1cs pk

end DummySetupDef

/-! ## IsDifferent -/

section IsDifferentDef

variable {F P1 P2 GT : Type} [Zero P1] [DecidableEq P1]

/-- The loop of both `IsDifferent` methods over `K`, from index `i` on: an entry that is not
the point at infinity and equals the entry of the other key at the same index ends the loop
with `false`.  The other key is indexed only for an entry that is not at infinity; an index
out of its range panics. -/
def isDifferentK : List P1 → Nat → List P1 → Option Bool
  | [], _, _ => some true
  | x :: K, i, K2 =>
    if x = 0 then isDifferentK K (i + 1) K2
    else
      match K2.get? i with
      | none => none
      | some y => if x = y then some false else isDifferentK K (i + 1) K2

/-- The method `IsDifferent` of `VerifyingKey`. -/
def VerifyingKey.IsDifferent (vk vk2 : VerifyingKey P1 P2 GT) : Option Bool :=
  isDifferentK vk.G1.K 0 vk2.G1.K

/-- The method `IsDifferent` of `ProvingKey`. -/
def ProvingKey.IsDifferent (pk pk2 : ProvingKey F P1 P2) : Option Bool :=
  if pk.G1.Alpha = pk2.G1.Alpha ∨ pk.G1.Beta = pk2.G1.Beta ∨ pk.G1.Delta = pk2.G1.Delta then
    some false
  else isDifferentK pk.G1.K 0 pk2.G1.K

end IsDifferentDef

/-! ## The `div` test circuit -/

section DivCircuit

variable {F : Type} [Field F]

/-- Modelled from the spec: the constraint system of the frontend, which is not part of the
sources at hand.  A circuit is run on an assignment of its inputs; the system keeps the pairs
of values the circuit has asserted equal. -/
structure ConstraintSystem (F : Type) where
  assertions : List (F × F)

/-- Modelled from the spec: `cs.Mul(a, b)` is the wire of the product `a · b`. -/
def ConstraintSystem.Mul (_cs : ConstraintSystem F) (a b : F) : F := a * b

/-- Modelled from the spec: `cs.Div(a, b)` is the wire of the quotient `a / b`. -/
def ConstraintSystem.Div (_cs : ConstraintSystem F) (a b : F) : F := a / b

/-- Modelled from the spec: `cs.AssertIsEqual(a, b)` adds the constraint `a = b`. -/
def ConstraintSystem.AssertIsEqual (cs : ConstraintSystem F) (a b : F) : ConstraintSystem F :=
  { assertions := (a, b) :: cs.assertions }

/-- Modelled from the spec: an assignment satisfies the system when every asserted pair is a
pair of equal values. -/
def ConstraintSystem.satisfied (cs : ConstraintSystem F) : Prop :=
  ∀ p ∈ cs.assertions, p.1 = p.2

/-- The type `divCircuit`, its variables assigned. -/
structure divCircuit (F : Type) where
  X : F
  Y : F
  Z : F

/-- The method `Define` of `divCircuit`. -/
def divCircuit.Define (circuit : divCircuit F) (cs : ConstraintSystem F) : ConstraintSystem F :=
  let m := cs.Mul circuit.X circuit.X
  let d := cs.Div m circuit.Y
  cs.AssertIsEqual d circuit.Z

/-- The assignment `good` of `init`: `X = 6`, `Y = 12`, `Z = 3`. -/
def divCircuit.good : divCircuit F := { X := 6, Y := 12, Z := 3 }

/-- The assignment `bad` of `init`: `X = 4`, `Y = 10`, `Z = 3`. -/
def divCircuit.bad : divCircuit F := { X := 4, Y := 10, Z := 3 }

end DivCircuit

/-! ## Notions the statements use -/

section SpecDefs

variable {F : Type} [Field F]

/-- The closed form `ω^i (x^N - 1) / (N (x - ω^i))` that the recurrence of `setupABC`
follows. -/
def lagrangeClosed (N : Nat) (ω x : F) (i : Nat) : F :=
  ω ^ i * (x ^ N - 1) / ((N : F) * (x - ω ^ i))

/-- Sum of `coeff · lam` over the terms of `ts` that reference wire `w`, the coefficients
taken by value. -/
def termSum (mont : F) (w : Nat) (lam : F) (ts : List (Term F)) : F :=
  ((ts.filter (fun t => decide (t.ConstraintID = w))).map
    (fun t => fr.val mont t.Coeff * lam)).sum

/-- Every term of every constraint references a wire below `NbWires`. -/
def wiresInRange (r1cs : R1CS F) : Bool :=
  r1cs.Constraints.all (fun c =>
    c.L.all (fun t => decide (t.ConstraintID < r1cs.NbWires)) &&
    c.R.all (fun t => decide (t.ConstraintID < r1cs.NbWires)) &&
    c.O.all (fun t => decide (t.ConstraintID < r1cs.NbWires)))

/-- The scalar `(β·A[k] + α·B[k] + C[k]) · d⁻¹` of wire `k`, by value. -/
def kValue (mont : F) (A B C : List F) (tw : toxicWaste F) (d : F) (k : Nat) : F :=
  (fr.val mont tw.beta * fr.val mont (A.getD k 0) + fr.val mont tw.alpha * fr.val mont (B.getD k 0)
    + fr.val mont (C.getD k 0)) * (fr.val mont d)⁻¹

/-- The index `bitReverse` reads for position `k` of a slice of length `n`: the reversal of
the `TrailingZeros n` low bits of `k` when `k` has no other bits, `k` itself otherwise. -/
def bitReverseIndex (n k : Nat) : Nat :=
  if k < 2 ^ TrailingZeros n then revBits (TrailingZeros n) k else k

end SpecDefs

/-! ## A small instance

Over the rationals, with Montgomery radix 2: three wires, the last one public, two
constraints, the domain `{1, -1}`.  Every stored element is twice its value. -/

/-- An R1CS with three wires and two constraints. -/
def exR1CS : R1CS ℚ :=
  { NbWires := 3, NbPublicWires := 1, NbConstraints := 2,
    Constraints := [ { L := [⟨0, 2⟩], R := [⟨1, 4⟩], O := [⟨2, 6⟩] },
                     { L := [⟨2, 2⟩, ⟨0, 10⟩], R := [⟨1, 2⟩], O := [⟨0, 2⟩] } ],
    PublicWires := ["Z"] }

/-- The domain of cardinality 2: generator `-1`, inverse of the cardinality `1/2`. -/
def exDomain : Domain ℚ := { Cardinality := 2, Generator := -2, CardinalityInv := 1 }

/-- Sampled elements of values `t = 3`, `α = 2`, `β = 5`, `γ = 7`, `δ = 11`. -/
def exEntropy : Entropy ℚ := { t := 6, alpha := 4, beta := 10, gamma := 14, delta := 22 }

/-- A curve whose groups are the rationals, with generator 1. -/
def exCurve : Curve ℚ ℚ ℚ :=
  { g1 := 1, g2 := 1, MillerLoop := fun a b => a * b, FinalExponentiation := fun x => x }

/-- A proving key before `Setup`. -/
def exPk : ProvingKey ℚ ℚ ℚ :=
  { G1 := { Alpha := 0, Beta := 0, Delta := 0, A := [], B := [], Z := [], K := [] },
    G2 := { Beta := 0, Delta := 0, B := [] },
    Domain := { Cardinality := 0, Generator := 0, CardinalityInv := 0 } }

/-- A verifying key before `Setup`. -/
def exVk : VerifyingKey ℚ ℚ ℚ :=
  { E := 0, G2 := { GammaNeg := 0, DeltaNeg := 0 }, G1 := { K := [] }, PublicInputs := [] }

/-- The domain constructor of the instance: the domain of cardinality 2. -/
def exNewDomain : Nat → Domain ℚ := fun _ => exDomain

/-- Sampled elements that are degenerate: `α = 0`; the other values are those of
`exEntropy`, so no denominator vanishes. -/
def exDegenerate : Entropy ℚ := { t := 6, alpha := 0, beta := 10, gamma := 14, delta := 22 }

/-- The instance with a declared number of constraints, 5, that is not the length of its
list of constraints, 2. -/
def exMiscounted : R1CS ℚ := { exR1CS with NbConstraints := 5 }

/-- An R1CS with three wires whose only term references wire 7. -/
def exBadWire : R1CS ℚ :=
  { NbWires := 3, NbPublicWires := 1, NbConstraints := 1,
    Constraints := [ { L := [⟨7, 2⟩], R := [], O := [] } ],
    PublicWires := ["Z"] }

/-- A verifying key over the integers, with `K = (1, 2)`. -/
def exVkA : VerifyingKey ℤ ℤ ℤ :=
  { E := 0, G2 := { GammaNeg := 0, DeltaNeg := 0 }, G1 := { K := [1, 2] }, PublicInputs := [] }

/-- A verifying key over the integers, with `K = (1, 3)`. -/
def exVkB : VerifyingKey ℤ ℤ ℤ :=
  { E := 0, G2 := { GammaNeg := 0, DeltaNeg := 0 }, G1 := { K := [1, 3] }, PublicInputs := [] }

/-- A proving key over the integers. -/
def exPkA : ProvingKey ℚ ℤ ℤ :=
  { G1 := { Alpha := 1, Beta := 2, Delta := 3, A := [], B := [], Z := [], K := [4, 0] },
    G2 := { Beta := 0, Delta := 0, B := [] },
    Domain := { Cardinality := 0, Generator := 0, CardinalityInv := 0 } }

/-- Another proving key over the integers, which differs from `exPkA` in `Alpha`, `Beta`,
`Delta` and in the first entry of `K`. -/
def exPkB : ProvingKey ℚ ℤ ℤ :=
  { G1 := { Alpha := 5, Beta := 6, Delta := 7, A := [], B := [], Z := [], K := [8, 0] },
    G2 := { Beta := 0, Delta := 0, B := [] },
    Domain := { Cardinality := 0, Generator := 0, CardinalityInv := 0 } }

/-- A domain of cardinality 4 over the rationals; `Setup` reads its cardinality only. -/
def exDomain4 : Domain ℚ := { Cardinality := 4, Generator := 0, CardinalityInv := 0 }

/-- The domain constructor that gives the domain of cardinality 4. -/
def exNewDomain4 : Nat → Domain ℚ := fun _ => exDomain4

/-- The domain of cardinality 1: generator `1`, inverse of the cardinality `1`. -/
def exDomain1 : Domain ℚ := { Cardinality := 1, Generator := 2, CardinalityInv := 2 }

/-- The constructor `fft.NewDomain` over the rationals.  The roots of unity of the rationals
are `1` and `-1`, so there is a domain for 1 constraint and one for 2 constraints; the
constructor panics on 0 constraints and on more than 2. -/
def exFftNewDomain : Nat → Option (Domain ℚ)
  | 1 => some exDomain1
  | 2 => some exDomain
  | _ => none

/-- Sampled elements that are degenerate in `t`: `t = -1`, the point `ω^1` of the domain of
cardinality 2; `α`, `β`, `γ`, `δ` are those of `exEntropy`. -/
def exOnDomain : Entropy ℚ := { t := -2, alpha := 4, beta := 10, gamma := 14, delta := 22 }

/-- An R1CS with three wires, the last one public, and no constraint. -/
def exEmpty : R1CS ℚ :=
  { NbWires := 3, NbPublicWires := 1, NbConstraints := 0, Constraints := [],
    PublicWires := ["Z"] }

/-- A proving key that holds the points of an earlier setup. -/
def exPkOld : ProvingKey ℚ ℚ ℚ :=
  { G1 := { Alpha := 1, Beta := 2, Delta := 3, A := [4, 5], B := [6], Z := [7, 8], K := [9] },
    G2 := { Beta := 10, Delta := 11, B := [12] },
    Domain := exDomain }

/-- A verifying key that holds the points of an earlier setup and the name `old` of its
public input. -/
def exVkOld : VerifyingKey ℚ ℚ ℚ :=
  { E := 13, G2 := { GammaNeg := 14, DeltaNeg := 15 }, G1 := { K := [16] },
    PublicInputs := ["old"] }

/-! # Theorems -/

/-! ## Values of Montgomery-form elements -/

namespace fr

variable {F : Type} [Field F] {mont : F}

theorem val_One (h : mont ≠ 0) : val mont (One mont) = 1 := by
  simp [val, One, h]

theorem val_Add (x y : F) : val mont (Add x y) = val mont x + val mont y := by
  simp [val, Add, add_mul]

theorem val_Sub (x y : F) : val mont (Sub x y) = val mont x - val mont y := by
  simp [val, Sub, sub_mul]

theorem val_Mul (x y : F) : val mont (Mul mont x y) = val mont x * val mont y := by
  simp only [val, Mul]
  ring

theorem val_Inverse (x : F) : val mont (Inverse mont x) = (val mont x)⁻¹ := by
  by_cases h : mont = 0
  · simp [val, Inverse, h]
  · by_cases hx : x = 0
    · simp [val, Inverse, hx]
    · simp only [val, Inverse, mul_inv, inv_inv]
      field_simp
      ring

theorem val_Div (x y : F) : val mont (Div mont x y) = val mont x / val mont y := by
  rw [Div, val_Mul, val_Inverse, div_eq_mul_inv]

theorem val_Exp (h : mont ≠ 0) (x : F) (e : Nat) :
    val mont (Exp mont x e) = val mont x ^ e := by
  induction e with
  | zero => simp [Exp, val_One h]
  | succ e ih => rw [Exp, val_Mul, ih, pow_succ]

theorem ToRegular_eq_val (x : F) : ToRegular mont x = val mont x := rfl

theorem FromMont_eq_val (x : F) : FromMont mont x = val mont x := rfl

theorem val_zero : val mont (0 : F) = 0 := by simp [val]

end fr

/-! ## The Lagrange basis over the powers of a primitive root -/

section Lagrange

open Polynomial

variable {F : Type} [Field F]

theorem nodal_range_pow {ω : F} {N : ℕ} (hω : IsPrimitiveRoot ω N) (hN : 0 < N) :
    Lagrange.nodal (Finset.range N) (fun j => ω ^ j) = X ^ N - 1 := by
  have h : degree (1 : F[X]) < degree ((X : F[X]) ^ N) := by simp [hN]
  apply Polynomial.eq_of_degree_le_of_eval_index_eq (v := fun j => ω ^ j) (Finset.range N)
  · intro a ha b hb hab
    exact hω.pow_inj (by simpa using ha) (by simpa using hb) hab
  · simp [Lagrange.degree_nodal]
  · rw [degree_sub_eq_left_of_degree_lt h, Lagrange.degree_nodal, Finset.card_range, degree_pow,
      degree_X, nsmul_eq_mul, mul_one]
  · rw [Lagrange.nodal_monic, leadingCoeff_sub_of_degree_lt h, monic_X_pow]
  · intro i hi
    rw [Lagrange.eval_nodal_at_node hi]
    simp only [eval_sub, eval_pow, eval_X, eval_one]
    rw [← pow_mul, mul_comm, pow_mul, hω.pow_eq_one, one_pow, sub_self]

theorem basis_range_pow {ω : F} {N : ℕ} (hω : IsPrimitiveRoot ω N)
    {i : ℕ} (hi : i < N) {x : F} (hx : x ≠ ω ^ i) :
    eval x (Lagrange.basis (Finset.range N) (fun j => ω ^ j) i) = lagrangeClosed N ω x i := by
  have hNpos : 0 < N := by omega
  have hmem : i ∈ Finset.range N := Finset.mem_range.mpr hi
  have hω0 : ω ≠ 0 := hω.ne_zero (by omega)
  have hωi : ω ^ i ≠ 0 := pow_ne_zero _ hω0
  rw [Lagrange.eval_basis_not_at_node hmem hx, Lagrange.nodalWeight_eq_eval_nodal_derative hmem,
    nodal_range_pow hω hNpos]
  have hpow : (ω ^ i) ^ (N - 1) = (ω ^ i)⁻¹ := by
    apply eq_inv_of_mul_eq_one_left
    rw [← pow_succ, Nat.sub_add_cancel hNpos, ← pow_mul, mul_comm, pow_mul, hω.pow_eq_one, one_pow]
  simp only [derivative_sub, derivative_X_pow, derivative_one, sub_zero, eval_mul, eval_pow,
    eval_X, eval_sub, eval_one, eval_C, eval_natCast, hpow, lagrangeClosed]
  have hxs : x - ω ^ i ≠ 0 := sub_ne_zero.mpr hx
  by_cases hN : (N : F) = 0
  · simp [hN]
  · field_simp
    ring

theorem pow_mod_of_pow_eq_one {ω : F} {N : ℕ} (h : ω ^ N = 1) (i : ℕ) :
    ω ^ (i % N) = ω ^ i := by
  conv_rhs => rw [← Nat.mod_add_div i N]
  rw [pow_add, pow_mul, h, one_pow, mul_one]

theorem lagrangeClosed_mod {ω : F} {N : ℕ} (h : ω ^ N = 1) (x : F) (i : ℕ) :
    lagrangeClosed N ω x (i % N) = lagrangeClosed N ω x i := by
  simp only [lagrangeClosed, pow_mod_of_pow_eq_one h]

theorem lagrangeClosed_succ {ω : F} (N : ℕ) {x : F} {i : ℕ} (hx : x ≠ ω ^ i) :
    lagrangeClosed N ω x i * ω * (x - ω ^ i) / (x - ω ^ i * ω) = lagrangeClosed N ω x (i + 1) := by
  have hxs : x - ω ^ i ≠ 0 := sub_ne_zero.mpr hx
  simp only [lagrangeClosed, pow_succ]
  by_cases hN : (N : F) = 0
  · simp [hN]
  by_cases hx1 : x - ω ^ i * ω = 0
  · simp [hx1]
  · field_simp
    ring

end Lagrange

/-! ## The Lagrange evaluator `setupABC` -/

section SetupABCProofs

variable {F : Type} [Field F]

theorem termSum_nil (mont : F) (w : Nat) (lam : F) : termSum mont w lam [] = 0 := by
  simp [termSum]

theorem termSum_cons (mont : F) (w : Nat) (lam : F) (t : Term F) (ts : List (Term F)) :
    termSum mont w lam (t :: ts)
      = (if t.ConstraintID = w then fr.val mont t.Coeff * lam else 0) + termSum mont w lam ts := by
  by_cases h : t.ConstraintID = w <;> simp [termSum, List.filter_cons, h]

theorem getD_set_eq {α : Type} (V : List α) (i w : Nat) (x d : α) (hi : i < V.length) :
    (V.set i x).getD w d = if i = w then x else V.getD w d := by
  by_cases h : i = w
  · subst h
    simp [List.getD_eq_getElem?_getD, List.getElem?_set, hi]
  · simp [List.getD_eq_getElem?_getD, List.getElem?_set, h]

theorem addTerms_spec (mont lam : F) (ts : List (Term F)) :
    ∀ (V : List F), (∀ t ∈ ts, t.ConstraintID < V.length) →
      ∃ V1, addTerms mont V lam ts = some V1 ∧ V1.length = V.length ∧
        ∀ w, fr.val mont (V1.getD w 0)
          = fr.val mont (V.getD w 0) + termSum mont w (fr.val mont lam) ts := by
  induction ts with
  | nil =>
    intro V _
    exact ⟨V, rfl, rfl, fun w => by simp [termSum_nil]⟩
  | cons t ts ih =>
    intro V h
    have ht : t.ConstraintID < V.length := h t (List.mem_cons_self _ _)
    obtain ⟨V1, h1, h2, h3⟩ := ih (V.set t.ConstraintID
      (AddTerm mont (V.get ⟨t.ConstraintID, ht⟩) t lam))
      (by intro u hu; simpa using h u (List.mem_cons_of_mem _ hu))
    refine ⟨V1, ?_, by simpa using h2, fun w => ?_⟩
    · rw [addTerms, addTermAt, dif_pos ht, Option.some_bind]
      exact h1
    · rw [h3 w, termSum_cons, getD_set_eq _ _ _ _ _ ht]
      by_cases hw : t.ConstraintID = w
      · subst hw
        simp only [if_true, AddTerm, fr.val_Add, fr.val_Mul]
        rw [List.getD_eq_getElem _ _ ht, List.get_eq_getElem]
        exact add_assoc _ _ _
      · simp [hw]

theorem setupABCLoop_spec (mont wG t : F) (N n : Nat)
    (ht : ∀ j, fr.val mont t ≠ fr.val mont wG ^ j) (cs : List (R1C F)) :
    ∀ (k : Nat) (s : ABCState F),
      s.A.length = n → s.B.length = n → s.C.length = n →
      fr.val mont s.wi = fr.val mont wG ^ k →
      fr.val mont s.ithLagrangePolt = lagrangeClosed N (fr.val mont wG) (fr.val mont t) k →
      (∀ c ∈ cs, (∀ u ∈ c.L, u.ConstraintID < n) ∧ (∀ u ∈ c.R, u.ConstraintID < n) ∧
        (∀ u ∈ c.O, u.ConstraintID < n)) →
      ∃ s1, setupABCLoop mont wG t s cs = some s1 ∧
        s1.A.length = n ∧ s1.B.length = n ∧ s1.C.length = n ∧
        ∀ w,
          fr.val mont (s1.A.getD w 0) = fr.val mont (s.A.getD w 0) +
            ((cs.enumFrom k).map (fun ic => termSum mont w
              (lagrangeClosed N (fr.val mont wG) (fr.val mont t) ic.1) ic.2.L)).sum ∧
          fr.val mont (s1.B.getD w 0) = fr.val mont (s.B.getD w 0) +
            ((cs.enumFrom k).map (fun ic => termSum mont w
              (lagrangeClosed N (fr.val mont wG) (fr.val mont t) ic.1) ic.2.R)).sum ∧
          fr.val mont (s1.C.getD w 0) = fr.val mont (s.C.getD w 0) +
            ((cs.enumFrom k).map (fun ic => termSum mont w
              (lagrangeClosed N (fr.val mont wG) (fr.val mont t) ic.1) ic.2.O)).sum := by
  induction cs with
  | nil =>
    intro k s hA hB hC _ _ _
    exact ⟨s, rfl, hA, hB, hC, fun w => by simp⟩
  | cons c cs ih =>
    intro k s hA hB hC hwi hl hcs
    obtain ⟨hL, hR, hO⟩ := hcs c (List.mem_cons_self _ _)
    obtain ⟨A1, hA1, hA1len, hA1val⟩ :=
      addTerms_spec mont s.ithLagrangePolt c.L s.A (by rw [hA]; exact hL)
    obtain ⟨B1, hB1, hB1len, hB1val⟩ :=
      addTerms_spec mont s.ithLagrangePolt c.R s.B (by rw [hB]; exact hR)
    obtain ⟨C1, hC1, hC1len, hC1val⟩ :=
      addTerms_spec mont s.ithLagrangePolt c.O s.C (by rw [hC]; exact hO)
    have hstep : setupABCStep mont wG t s c = some
        { A := A1, B := B1, C := C1,
          ithLagrangePolt := fr.Div mont (fr.Mul mont (fr.Mul mont s.ithLagrangePolt wG)
            (fr.Sub t s.wi)) (fr.Sub t (fr.Mul mont s.wi wG)),
          wi := fr.Mul mont s.wi wG } := by
      simp [setupABCStep, hA1, hB1, hC1]
    obtain ⟨s1, hs1, h1A, h1B, h1C, h1val⟩ := ih (k + 1)
      { A := A1, B := B1, C := C1,
        ithLagrangePolt := fr.Div mont (fr.Mul mont (fr.Mul mont s.ithLagrangePolt wG)
          (fr.Sub t s.wi)) (fr.Sub t (fr.Mul mont s.wi wG)),
        wi := fr.Mul mont s.wi wG }
      (hA1len.trans hA) (hB1len.trans hB) (hC1len.trans hC)
      (by simp only [fr.val_Mul, hwi, pow_succ])
      (by
        simp only [fr.val_Div, fr.val_Mul, fr.val_Sub, hwi, hl]
        exact lagrangeClosed_succ N (ht k))
      (fun c1 hc1 => hcs c1 (List.mem_cons_of_mem _ hc1))
    refine ⟨s1, ?_, h1A, h1B, h1C, fun w => ?_⟩
    · simp [setupABCLoop, hstep, hs1]
    · obtain ⟨hwA, hwB, hwC⟩ := h1val w
      simp only [List.enumFrom_cons, List.map_cons, List.sum_cons]
      refine ⟨?_, ?_, ?_⟩
      · rw [hwA, hA1val w, hl, add_assoc]
      · rw [hwB, hB1val w, hl, add_assoc]
      · rw [hwC, hC1val w, hl, add_assoc]

theorem setupL0_val {mont : F} (hm : mont ≠ 0) (g : Domain F) (t : F)
    (hinv : (g.Cardinality : F) * fr.val mont g.CardinalityInv = 1) :
    fr.val mont (setupL0 mont g t)
      = lagrangeClosed g.Cardinality (fr.val mont g.Generator) (fr.val mont t) 0 := by
  have hN : (g.Cardinality : F) ≠ 0 := left_ne_zero_of_mul_eq_one hinv
  have hinv1 : fr.val mont g.CardinalityInv = (g.Cardinality : F)⁻¹ :=
    eq_inv_of_mul_eq_one_right hinv
  simp only [setupL0, fr.val_Mul, fr.val_Div, fr.val_Sub, fr.val_Exp hm, fr.val_One hm, hinv1,
    lagrangeClosed, pow_zero, one_mul]
  rw [div_eq_mul_inv, div_eq_mul_inv, mul_inv]
  ring

omit [Field F] in
theorem wiresInRange_iff (r1cs : R1CS F) :
    wiresInRange r1cs = true ↔
      ∀ c ∈ r1cs.Constraints, (∀ u ∈ c.L, u.ConstraintID < r1cs.NbWires) ∧
        (∀ u ∈ c.R, u.ConstraintID < r1cs.NbWires) ∧
        (∀ u ∈ c.O, u.ConstraintID < r1cs.NbWires) := by
  simp [wiresInRange, List.all_eq_true, and_assoc]

/-- What `setupABC` returns on an R1CS whose terms reference wires in range: three vectors of
length `NbWires` that hold the sums of `coeff · closed form`. -/
theorem setupABC_closed {mont : F} (hm : mont ≠ 0) (r1cs : R1CS F) (g : Domain F)
    (tw : toxicWaste F) (hwires : wiresInRange r1cs = true)
    (hinv : (g.Cardinality : F) * fr.val mont g.CardinalityInv = 1)
    (ht : ∀ j, fr.val mont tw.t ≠ fr.val mont g.Generator ^ j) :
    ∃ A B C, setupABC mont r1cs g tw = some (A, B, C) ∧
      A.length = r1cs.NbWires ∧ B.length = r1cs.NbWires ∧ C.length = r1cs.NbWires ∧
      ∀ w,
        fr.val mont (A.getD w 0) = ((r1cs.Constraints.enum).map (fun ic => termSum mont w
          (lagrangeClosed g.Cardinality (fr.val mont g.Generator) (fr.val mont tw.t) ic.1)
            ic.2.L)).sum ∧
        fr.val mont (B.getD w 0) = ((r1cs.Constraints.enum).map (fun ic => termSum mont w
          (lagrangeClosed g.Cardinality (fr.val mont g.Generator) (fr.val mont tw.t) ic.1)
            ic.2.R)).sum ∧
        fr.val mont (C.getD w 0) = ((r1cs.Constraints.enum).map (fun ic => termSum mont w
          (lagrangeClosed g.Cardinality (fr.val mont g.Generator) (fr.val mont tw.t) ic.1)
            ic.2.O)).sum := by
  obtain ⟨s1, hs1, hA, hB, hC, hval⟩ := setupABCLoop_spec mont g.Generator tw.t g.Cardinality
    r1cs.NbWires ht r1cs.Constraints 0
    { A := List.replicate r1cs.NbWires 0, B := List.replicate r1cs.NbWires 0,
      C := List.replicate r1cs.NbWires 0,
      ithLagrangePolt := setupL0 mont g tw.t, wi := fr.One mont }
    (by simp) (by simp) (by simp) (by simp [fr.val_One hm]) (setupL0_val hm g tw.t hinv)
    ((wiresInRange_iff r1cs).mp hwires)
  refine ⟨s1.A, s1.B, s1.C, ?_, hA, hB, hC, fun w => ?_⟩
  · simp [setupABC, hs1]
  · have hz : fr.val mont ((List.replicate r1cs.NbWires (0 : F)).getD w 0) = 0 := by
      by_cases h : w < r1cs.NbWires <;>
        simp [List.getD_eq_getElem?_getD, List.getElem?_replicate, fr.val, h]
    obtain ⟨h1, h2, h3⟩ := hval w
    simp only [hz, zero_add] at h1 h2 h3
    exact ⟨h1, h2, h3⟩

end SetupABCProofs

/-! ## C1 -/

section C1

open Polynomial

variable {F : Type} [Field F]

theorem ne_pow_of_ne_pow_lt {ω x : F} {N : ℕ} (hN : 0 < N) (h1 : ω ^ N = 1)
    (h : ∀ j < N, x ≠ ω ^ j) (j : ℕ) : x ≠ ω ^ j := by
  rw [← pow_mod_of_pow_eq_one h1 j]
  exact h _ (Nat.mod_lt _ hN)

theorem lagrangeClosed_eq_basis {ω x : F} {N : ℕ} (hω : IsPrimitiveRoot ω N) (hN : 0 < N)
    (h : ∀ j < N, x ≠ ω ^ j) (i : ℕ) :
    lagrangeClosed N ω x i
      = eval x (Lagrange.basis (Finset.range N) (fun j => ω ^ j) (i % N)) := by
  rw [basis_range_pow hω (Nat.mod_lt _ hN) (h _ (Nat.mod_lt _ hN)),
    lagrangeClosed_mod hω.pow_eq_one]

/-- C1: on an R1CS whose terms all reference wires below `NbWires`, for a domain whose
generator is a primitive `N`-th root of unity and whose `CardinalityInv` is `N⁻¹`, and for `t`
outside the domain, `setupABC` returns three vectors of length `NbWires`, and the value of
`A[w]` is the sum, over the constraints `i` and the terms of `c_i.L` that reference `w`, of
`coeff · L_i(t)`, with `L_i` the Lagrange basis polynomial of the nodes `ω^0, …, ω^(N-1)`
(`Lagrange.basis`, the polynomial of degree `N - 1` that is 1 at `ω^i` and 0 at the other
nodes); likewise `B` from `c_i.R` and `C` from `c_i.O`.  The index of the basis polynomial is
written `i % N`: it is `i` for every constraint the domain has a node for, and the
recurrence of the code wraps around beyond. -/
theorem setupABC_lagrange_basis (mont : F) (hm : mont ≠ 0) (r1cs : R1CS F) (g : Domain F)
    (tw : toxicWaste F) (hwires : wiresInRange r1cs = true)
    (hω : IsPrimitiveRoot (fr.val mont g.Generator) g.Cardinality)
    (hinv : (g.Cardinality : F) * fr.val mont g.CardinalityInv = 1)
    (ht : ∀ j < g.Cardinality, fr.val mont tw.t ≠ fr.val mont g.Generator ^ j) :
    ∃ A B C, setupABC mont r1cs g tw = some (A, B, C) ∧
      A.length = r1cs.NbWires ∧ B.length = r1cs.NbWires ∧ C.length = r1cs.NbWires ∧
      ∀ w, w < r1cs.NbWires →
        fr.val mont (A.getD w 0) = ((r1cs.Constraints.enum).map (fun ic => termSum mont w
          (eval (fr.val mont tw.t) (Lagrange.basis (Finset.range g.Cardinality)
            (fun j => fr.val mont g.Generator ^ j) (ic.1 % g.Cardinality))) ic.2.L)).sum ∧
        fr.val mont (B.getD w 0) = ((r1cs.Constraints.enum).map (fun ic => termSum mont w
          (eval (fr.val mont tw.t) (Lagrange.basis (Finset.range g.Cardinality)
            (fun j => fr.val mont g.Generator ^ j) (ic.1 % g.Cardinality))) ic.2.R)).sum ∧
        fr.val mont (C.getD w 0) = ((r1cs.Constraints.enum).map (fun ic => termSum mont w
          (eval (fr.val mont tw.t) (Lagrange.basis (Finset.range g.Cardinality)
            (fun j => fr.val mont g.Generator ^ j) (ic.1 % g.Cardinality))) ic.2.O)).sum := by
  have hNF : (g.Cardinality : F) ≠ 0 := left_ne_zero_of_mul_eq_one hinv
  have hN : 0 < g.Cardinality := by
    rcases Nat.eq_zero_or_pos g.Cardinality with h0 | h0
    · exact absurd (by simp [h0]) hNF
    · exact h0
  obtain ⟨A, B, C, hABC, hA, hB, hC, hval⟩ := setupABC_closed hm r1cs g tw hwires hinv
    (ne_pow_of_ne_pow_lt hN hω.pow_eq_one ht)
  refine ⟨A, B, C, hABC, hA, hB, hC, fun w _ => ?_⟩
  have h := hval w
  simp only [lagrangeClosed_eq_basis hω hN ht] at h
  exact h

theorem exDomain_primitive : IsPrimitiveRoot (fr.val 2 exDomain.Generator) exDomain.Cardinality := by
  have h : fr.val (2 : ℚ) exDomain.Generator = -1 := by norm_num [fr.val, exDomain]
  rw [h]
  exact IsPrimitiveRoot.neg_one 0 (by norm_num)

/-- Witness of C1: the instance over the rationals. -/
theorem setupABC_lagrange_basis_witness :
    ∃ A B C, setupABC 2 exR1CS exDomain (sampleToxicWaste 2 exEntropy) = some (A, B, C) ∧
      A.length = 3 ∧ B.length = 3 ∧ C.length = 3 ∧
      ∀ w, w < 3 →
        fr.val 2 (A.getD w 0) = ((exR1CS.Constraints.enum).map (fun ic => termSum 2 w
          (eval (3 : ℚ) (Lagrange.basis (Finset.range 2)
            (fun j => (-1 : ℚ) ^ j) (ic.1 % 2))) ic.2.L)).sum ∧
        fr.val 2 (B.getD w 0) = ((exR1CS.Constraints.enum).map (fun ic => termSum 2 w
          (eval (3 : ℚ) (Lagrange.basis (Finset.range 2)
            (fun j => (-1 : ℚ) ^ j) (ic.1 % 2))) ic.2.R)).sum ∧
        fr.val 2 (C.getD w 0) = ((exR1CS.Constraints.enum).map (fun ic => termSum 2 w
          (eval (3 : ℚ) (Lagrange.basis (Finset.range 2)
            (fun j => (-1 : ℚ) ^ j) (ic.1 % 2))) ic.2.O)).sum := by
  have h := setupABC_lagrange_basis (2 : ℚ) (by norm_num) exR1CS exDomain
    (sampleToxicWaste 2 exEntropy) (by decide) exDomain_primitive
    (by norm_num [fr.val, exDomain])
    (by
      intro j hj
      have hj2 : j < 2 := hj
      interval_cases j <;> norm_num [fr.val, exDomain, sampleToxicWaste, exEntropy])
  have e1 : fr.val (2 : ℚ) (sampleToxicWaste 2 exEntropy).t = 3 := by
    norm_num [fr.val, sampleToxicWaste, exEntropy]
  have e2 : fr.val (2 : ℚ) exDomain.Generator = -1 := by norm_num [fr.val, exDomain]
  have e3 : exDomain.Cardinality = 2 := rfl
  have e4 : exR1CS.NbWires = 3 := rfl
  simpa only [e1, e2, e3, e4] using h

end C1

/-! ## Bit reversal: arithmetic -/

section RevBits

theorem revBits_lt (w x : Nat) : revBits w x < 2 ^ w := by
  induction w generalizing x with
  | zero => simp [revBits]
  | succ w ih =>
    have h1 := ih (x / 2)
    have h2 : x % 2 < 2 := Nat.mod_lt _ (by decide)
    have h3 : x % 2 * 2 ^ w ≤ 1 * 2 ^ w := Nat.mul_le_mul_right _ (by omega)
    rw [revBits, pow_succ]
    omega

theorem revBits_shift (a b x : Nat) : revBits (a + b) x / 2 ^ b = revBits a x := by
  induction a generalizing x with
  | zero =>
    rw [Nat.zero_add, revBits]
    exact Nat.div_eq_of_lt (revBits_lt b x)
  | succ a ih =>
    have hpos : 0 < 2 ^ b := Nat.pow_pos (by decide)
    rw [Nat.add_right_comm, revBits, revBits, pow_add, ← Nat.mul_assoc, Nat.add_comm,
      Nat.add_mul_div_right _ _ hpos, ih, Nat.add_comm]

theorem revBits_mod (w v x : Nat) (h : w ≤ v) : revBits w (x % 2 ^ v) = revBits w x := by
  induction w generalizing x v with
  | zero => simp [revBits]
  | succ w ih =>
    obtain ⟨v1, rfl⟩ : ∃ v1, v = v1 + 1 := ⟨v - 1, by omega⟩
    have h1 : x % 2 ^ (v1 + 1) % 2 = x % 2 :=
      Nat.mod_mod_of_dvd _ (Dvd.intro_left (2 ^ v1) (by rw [pow_succ]))
    have h2 : x % 2 ^ (v1 + 1) / 2 = x / 2 % 2 ^ v1 := by
      rw [pow_succ, Nat.mul_comm, Nat.mod_mul_right_div_self]
    rw [revBits, revBits, h1, h2, ih _ _ (by omega)]

theorem revBits_succ_top (w x : Nat) :
    revBits (w + 1) x = 2 * revBits w x + x / 2 ^ w % 2 := by
  induction w generalizing x with
  | zero => simp [revBits]
  | succ w ih =>
    rw [revBits, ih (x / 2), revBits, Nat.div_div_eq_div_mul, ← pow_succ', pow_succ 2 w]
    ring

theorem revBits_revBits (w x : Nat) (hx : x < 2 ^ w) : revBits w (revBits w x) = x := by
  induction w generalizing x with
  | zero =>
    simp only [pow_zero, Nat.lt_one_iff] at hx
    simp [revBits, hx]
  | succ w ih =>
    have hr : revBits w (x / 2) < 2 ^ w := revBits_lt _ _
    have hx2 : x / 2 < 2 ^ w := by
      rw [pow_succ] at hx
      omega
    have hpos : 0 < 2 ^ w := Nat.pow_pos (by decide)
    have hdiv : (x % 2 * 2 ^ w + revBits w (x / 2)) / 2 ^ w = x % 2 := by
      rw [Nat.add_comm, Nat.add_mul_div_right _ _ hpos, Nat.div_eq_of_lt hr, Nat.zero_add]
    have hmod : (x % 2 * 2 ^ w + revBits w (x / 2)) % 2 ^ w = revBits w (x / 2) := by
      rw [Nat.add_comm, Nat.add_mul_mod_self_right, Nat.mod_eq_of_lt hr]
    rw [revBits_succ_top, revBits, hdiv, ← revBits_mod w w _ (Nat.le_refl _), hmod, ih _ hx2]
    omega

theorem Reverse_shift (T i : Nat) (hT : T ≤ UintSize) :
    Reverse i >>> (UintSize - T) = revBits T i := by
  rw [Nat.shiftRight_eq_div_pow, Reverse]
  have h := revBits_shift T (UintSize - T) (i % 2 ^ UintSize)
  rw [Nat.add_sub_cancel' hT] at h
  rw [h, revBits_mod T UintSize i hT]

theorem trailingZerosAux_le (fuel n : Nat) : trailingZerosAux fuel n ≤ fuel := by
  induction fuel generalizing n with
  | zero => simp [trailingZerosAux]
  | succ fuel ih =>
    rw [trailingZerosAux]
    split
    · omega
    · have := ih (n / 2)
      omega

theorem trailingZerosAux_dvd (fuel n : Nat) : 2 ^ trailingZerosAux fuel n ∣ n := by
  induction fuel generalizing n with
  | zero => simp [trailingZerosAux]
  | succ fuel ih =>
    rw [trailingZerosAux]
    split
    · simp
    · rename_i h
      have h2 : n % 2 = 0 := by omega
      obtain ⟨c, hc⟩ := ih (n / 2)
      refine ⟨c, ?_⟩
      rw [Nat.add_comm, pow_succ, Nat.mul_right_comm, ← hc]
      omega

theorem trailingZerosAux_pow (fuel m : Nat) (h : m < fuel) :
    trailingZerosAux fuel (2 ^ m) = m := by
  induction m generalizing fuel with
  | zero =>
    obtain ⟨f, rfl⟩ : ∃ f, fuel = f + 1 := ⟨fuel - 1, by omega⟩
    simp [trailingZerosAux]
  | succ m ih =>
    obtain ⟨f, rfl⟩ : ∃ f, fuel = f + 1 := ⟨fuel - 1, by omega⟩
    have h1 : 2 ^ (m + 1) % 2 = 0 := by rw [pow_succ]; omega
    have h2 : 2 ^ (m + 1) / 2 = 2 ^ m := by rw [pow_succ]; omega
    rw [trailingZerosAux, if_neg (by omega), h2, ih f (by omega)]
    omega

theorem TrailingZeros_le (n : Nat) : TrailingZeros n ≤ UintSize :=
  trailingZerosAux_le _ _

theorem TrailingZeros_pow (m : Nat) (h : m < UintSize) : TrailingZeros (2 ^ m) = m := by
  rw [TrailingZeros, Nat.mod_eq_of_lt (Nat.pow_lt_pow_right (by decide) h)]
  exact trailingZerosAux_pow _ _ h

theorem two_pow_TrailingZeros_le (n : Nat) (hn : 0 < n) : 2 ^ TrailingZeros n ≤ n := by
  have h1 : 2 ^ TrailingZeros n ∣ n % 2 ^ UintSize := trailingZerosAux_dvd _ _
  have h2 : 2 ^ TrailingZeros n ∣ 2 ^ UintSize := pow_dvd_pow 2 (TrailingZeros_le n)
  have h3 : 2 ^ TrailingZeros n ∣ n % 2 ^ UintSize + 2 ^ UintSize * (n / 2 ^ UintSize) :=
    Dvd.dvd.add h1 (Dvd.dvd.mul_right h2 _)
  rw [Nat.mod_add_div n (2 ^ UintSize)] at h3
  exact Nat.le_of_dvd hn h3

end RevBits

/-! ## Bit reversal: the loop -/

section BitReverseLoop

variable {α : Type}

theorem swapAt_spec (a : List α) (i j : Nat) (hi : i < a.length) (hj : j < a.length) :
    ∃ b, swapAt a i j = some b ∧ b.length = a.length ∧
      ∀ k, b[k]? = if k = j then a[i]? else if k = i then a[j]? else a[k]? := by
  refine ⟨(a.set i (a.get ⟨j, hj⟩)).set j (a.get ⟨i, hi⟩), ?_, by simp, fun k => ?_⟩
  · rw [swapAt, dif_pos ⟨hi, hj⟩]
  · by_cases h1 : k = j
    · subst h1
      simp [List.getElem?_set, hj, List.getElem?_eq_getElem hi]
    · by_cases h2 : k = i
      · subst h2
        simp [List.getElem?_set, hi, List.getElem?_eq_getElem hj, Ne.symm h1, h1]
      · simp [List.getElem?_set, h1, h2, Ne.symm h1, Ne.symm h2]

theorem foldlM_range_succ (f : List α → Nat → Option (List α)) (a : List α) (j : Nat) :
    (List.range (j + 1)).foldlM f a = ((List.range j).foldlM f a).bind (fun b => f b j) := by
  rw [List.range_succ, List.foldlM_append]
  cases (List.range j).foldlM f a <;> simp [List.foldlM]

theorem bitReverse_fold_total (a : List α) (nn : Nat)
    (hr : ∀ i, i < a.length → Reverse i >>> nn < a.length) :
    ∀ j, j ≤ a.length →
      ∃ b, (List.range j).foldlM (bitReverseStep nn) a = some b ∧ b.length = a.length := by
  intro j
  induction j with
  | zero => intro _; exact ⟨a, rfl, rfl⟩
  | succ j ih =>
    intro hj
    obtain ⟨b, hb, hlen⟩ := ih (by omega)
    rw [foldlM_range_succ, hb, Option.some_bind, bitReverseStep]
    by_cases hgt : Reverse j >>> nn > j
    · obtain ⟨b1, hb1, hlen1, _⟩ := swapAt_spec b j (Reverse j >>> nn) (by omega)
        (by rw [hlen]; exact hr j (by omega))
      exact ⟨b1, by simp only [if_pos hgt, hb1], hlen1.trans hlen⟩
    · exact ⟨b, by simp only [if_neg hgt], hlen⟩

theorem bitReverse_total (a : List α) : ∃ b, bitReverse a = some b ∧ b.length = a.length := by
  have hT := TrailingZeros_le a.length
  exact bitReverse_fold_total a _ (fun i hi => by
    rw [Reverse_shift _ i hT]
    exact Nat.lt_of_lt_of_le (revBits_lt _ _) (two_pow_TrailingZeros_le _ (by omega)))
    a.length (Nat.le_refl _)

theorem bitReverse_fold_pow2 (m : Nat) (a : List α) (ha : a.length = 2 ^ m) (nn : Nat)
    (hnn : ∀ i, Reverse i >>> nn = revBits m i) :
    ∀ j, j ≤ 2 ^ m →
      ∃ b, (List.range j).foldlM (bitReverseStep nn) a = some b ∧ b.length = 2 ^ m ∧
        ∀ k, k < 2 ^ m →
          b[k]? = if k < j ∨ revBits m k < j then a[revBits m k]? else a[k]? := by
  intro j
  induction j with
  | zero => intro _; exact ⟨a, rfl, ha, fun k _ => by simp⟩
  | succ j ih =>
    intro hj
    obtain ⟨b, hb, hlen, hval⟩ := ih (by omega)
    have hjlt : j < 2 ^ m := by omega
    have hrj : revBits m j < 2 ^ m := revBits_lt _ _
    have hrrj : revBits m (revBits m j) = j := revBits_revBits _ _ hjlt
    rw [foldlM_range_succ, hb, Option.some_bind, bitReverseStep, hnn]
    by_cases hgt : revBits m j > j
    · obtain ⟨b1, hb1, hlen1, hval1⟩ := swapAt_spec b j (revBits m j) (by omega) (by omega)
      refine ⟨b1, by simp only [if_pos hgt, hb1], hlen1.trans hlen, fun k hk => ?_⟩
      have hrrk : revBits m (revBits m k) = k := revBits_revBits _ _ hk
      rw [hval1 k]
      by_cases h1 : k = revBits m j
      · rw [if_pos h1, hval j hjlt, if_neg (by omega), h1, hrrj, if_pos (by omega)]
      · rw [if_neg h1]
        by_cases h2 : k = j
        · rw [if_pos h2, hval _ hrj, hrrj, if_neg (by omega), h2, if_pos (by omega)]
        · rw [if_neg h2, hval k hk]
          have h3 : revBits m k ≠ j := by
            intro h
            rw [h] at hrrk
            exact h1 hrrk.symm
          by_cases hc : k < j ∨ revBits m k < j
          · rw [if_pos hc, if_pos (by omega)]
          · rw [if_neg hc, if_neg (by omega)]
    · refine ⟨b, by simp only [if_neg hgt], hlen, fun k hk => ?_⟩
      have hrrk : revBits m (revBits m k) = k := revBits_revBits _ _ hk
      rw [hval k hk]
      by_cases hc : k < j ∨ revBits m k < j
      · rw [if_pos hc, if_pos (by omega)]
      · by_cases h2 : k = j
        · subst h2
          have h4 : revBits m k = k := by omega
          rw [if_neg hc, if_pos (by omega), h4]
        · have h3 : revBits m k ≠ j := by
            intro h
            rw [h] at hrrk
            omega
          rw [if_neg hc, if_neg (by omega)]

/-- On a slice of length `2^m`, `bitReverse` returns, and it moves the element at index `k`
to index `revBits m k`. -/
theorem bitReverse_pow2 (m : Nat) (hm : m < UintSize) (a : List α) (ha : a.length = 2 ^ m) :
    ∃ b, bitReverse a = some b ∧ b.length = 2 ^ m ∧
      ∀ k, k < 2 ^ m → b[revBits m k]? = a[k]? := by
  have hnn : ∀ i, Reverse i >>> (UintSize - TrailingZeros a.length) = revBits m i := by
    intro i
    rw [ha, TrailingZeros_pow m hm]
    exact Reverse_shift m i (by omega)
  obtain ⟨b, hb, hlen, hval⟩ := bitReverse_fold_pow2 m a ha _ hnn (2 ^ m) (Nat.le_refl _)
  refine ⟨b, ?_, hlen, fun k hk => ?_⟩
  · rw [bitReverse, ha]
    rw [ha] at hb
    exact hb
  · rw [hval _ (revBits_lt _ _), if_pos (Or.inl (revBits_lt _ _)), revBits_revBits _ _ hk]

end BitReverseLoop

/-! ## Slices of the batch outputs -/

section Slices

variable {α : Type}

theorem sub_mid (l1 l2 l3 : List α) (lo hi : Nat) (hlo : lo = l1.length)
    (hhi : hi = lo + l2.length) : sub (l1 ++ (l2 ++ l3)) lo hi = l2 := by
  subst hlo hhi
  rw [sub, List.take_append, List.drop_left, List.take_left]

theorem slice_mid (l1 l2 l3 : List α) (lo hi : Nat) (hlo : lo = l1.length)
    (hhi : hi = lo + l2.length) : slice (l1 ++ (l2 ++ l3)) lo hi = some l2 := by
  rw [slice, if_pos, sub_mid l1 l2 l3 lo hi hlo hhi]
  subst hlo hhi
  simp only [List.length_append]
  omega

theorem writeBack_mid (l1 l2 l3 z : List α) (lo : Nat) (hlo : lo = l1.length)
    (hz : z.length = l2.length) : writeBack (l1 ++ (l2 ++ l3)) lo z = l1 ++ (z ++ l3) := by
  subst hlo
  rw [writeBack, List.take_left, hz, List.drop_append, List.drop_left, List.append_assoc]

end Slices

section FillKeys

variable {F P1 P2 GT : Type} [Field F] [AddCommGroup P1] [Module F P1]
  [AddCommGroup P2] [Module F P2]

omit [Field F] [AddCommGroup P1] [Module F P1] [Module F P2] in
/-- The keys after the second half of `Setup`, when the batch outputs have the layout
`[α, β, δ | A | B | pk.K | Z | vk.K]` and `[B | β, δ, γ]`. -/
theorem fillKeys_eq (curve : Curve P1 P2 GT) (domain : Domain F) (w priv : Nat)
    (a0 a1 a2 : P1) (PA PB PK PZ PVK zrev : List P1) (PB2 : List P2) (b d g : P2)
    (pk : ProvingKey F P1 P2) (vk : VerifyingKey P1 P2 GT)
    (hA : PA.length = w) (hB : PB.length = w) (hK : PK.length = priv)
    (hZ : PZ.length = domain.Cardinality) (hB2 : PB2.length = w)
    (hz : bitReverse PZ = some zrev) (hzlen : zrev.length = PZ.length) :
    fillKeys curve domain w priv (a0 :: a1 :: a2 :: (PA ++ (PB ++ (PK ++ (PZ ++ PVK)))))
        (PB2 ++ [b, d, g]) pk vk
      = Outcome.returned
          ({ G1 := { Alpha := a0, Beta := a1, Delta := a2, A := PA, B := PB, Z := zrev, K := PK },
             G2 := { Beta := b, Delta := d, B := PB2 },
             Domain := domain },
           { E := curve.FinalExponentiation (curve.MillerLoop a0 b),
             G2 := { GammaNeg := -g, DeltaNeg := -d },
             G1 := { K := PVK },
             PublicInputs := vk.PublicInputs }) := by
  have e0 : ∀ R : List P1, a0 :: a1 :: a2 :: R = [a0, a1, a2] ++ R := fun _ => rfl
  have sA : ∀ X : List P1, slice (a0 :: a1 :: a2 :: (PA ++ (PB ++ (PK ++ (X ++ PVK))))) 3 (3 + w)
      = some PA := fun X => by
    rw [e0]
    exact slice_mid _ _ _ _ _ rfl (by rw [hA])
  have sB : ∀ X : List P1, slice (a0 :: a1 :: a2 :: (PA ++ (PB ++ (PK ++ (X ++ PVK))))) (3 + w)
      (3 + w + w) = some PB := fun X => by
    rw [e0, ← List.append_assoc]
    exact slice_mid _ _ _ _ _ (by simp [hA]; omega) (by rw [hB])
  have sK : ∀ X : List P1, slice (a0 :: a1 :: a2 :: (PA ++ (PB ++ (PK ++ (X ++ PVK)))))
      (3 + w + w) (3 + w + w + priv) = some PK := fun X => by
    rw [e0, ← List.append_assoc, ← List.append_assoc]
    exact slice_mid _ _ _ _ _ (by simp [hA, hB]; omega) (by rw [hK])
  have sZ : slice (a0 :: a1 :: a2 :: (PA ++ (PB ++ (PK ++ (PZ ++ PVK)))))
      (3 + w + w + priv) (3 + w + w + priv + domain.Cardinality) = some PZ := by
    rw [e0, ← List.append_assoc, ← List.append_assoc, ← List.append_assoc]
    exact slice_mid _ _ _ _ _ (by simp [hA, hB, hK]; omega) (by rw [hZ])
  have wb : writeBack (a0 :: a1 :: a2 :: (PA ++ (PB ++ (PK ++ (PZ ++ PVK)))))
      (3 + w + w + priv) zrev = a0 :: a1 :: a2 :: (PA ++ (PB ++ (PK ++ (zrev ++ PVK)))) := by
    rw [e0, ← List.append_assoc, ← List.append_assoc, ← List.append_assoc,
      writeBack_mid _ PZ _ zrev _ (by simp [hA, hB, hK]; omega) hzlen]
    simp
  have uA : sub (a0 :: a1 :: a2 :: (PA ++ (PB ++ (PK ++ (zrev ++ PVK))))) 3 (3 + w) = PA := by
    have h := sA zrev
    rw [slice] at h
    split at h
    · exact Option.some.inj h
    · exact absurd h (by simp)
  have uB : sub (a0 :: a1 :: a2 :: (PA ++ (PB ++ (PK ++ (zrev ++ PVK))))) (3 + w)
      (3 + w + w) = PB := by
    have h := sB zrev
    rw [slice] at h
    split at h
    · exact Option.some.inj h
    · exact absurd h (by simp)
  have uK : sub (a0 :: a1 :: a2 :: (PA ++ (PB ++ (PK ++ (zrev ++ PVK))))) (3 + w + w)
      (3 + w + w + priv) = PK := by
    have h := sK zrev
    rw [slice] at h
    split at h
    · exact Option.some.inj h
    · exact absurd h (by simp)
  have uZ : sub (a0 :: a1 :: a2 :: (PA ++ (PB ++ (PK ++ (zrev ++ PVK))))) (3 + w + w + priv)
      (3 + w + w + priv + PZ.length) = zrev := by
    rw [e0, ← List.append_assoc, ← List.append_assoc, ← List.append_assoc]
    exact sub_mid _ _ _ _ _ (by simp [hA, hB, hK]; omega) (by rw [hzlen])
  have sV : slice (a0 :: a1 :: a2 :: (PA ++ (PB ++ (PK ++ (zrev ++ PVK)))))
      (3 + w + w + priv + domain.Cardinality)
      (a0 :: a1 :: a2 :: (PA ++ (PB ++ (PK ++ (zrev ++ PVK))))).length = some PVK := by
    have h := slice_mid ([a0, a1, a2] ++ PA ++ PB ++ PK ++ zrev) PVK []
      (3 + w + w + priv + domain.Cardinality)
      (a0 :: a1 :: a2 :: (PA ++ (PB ++ (PK ++ (zrev ++ PVK))))).length
      (by simp [hA, hB, hK, hZ, hzlen]; omega) (by simp [hA, hB, hK, hZ, hzlen]; omega)
    simpa using h
  have s2 : slice (PB2 ++ [b, d, g]) 0 w = some PB2 := by
    have h := slice_mid [] PB2 [b, d, g] 0 w rfl (by simp [hB2])
    simpa using h
  have g0 : (PB2 ++ [b, d, g]).get? (w + 0) = some b := by
    rw [← hB2, List.get?_eq_getElem?, List.getElem?_append_right (by omega)]
    simp
  have g1 : (PB2 ++ [b, d, g]).get? (w + 1) = some d := by
    rw [← hB2, List.get?_eq_getElem?, List.getElem?_append_right (by omega)]
    simp
  have g2 : (PB2 ++ [b, d, g]).get? (w + 2) = some g := by
    rw [← hB2, List.get?_eq_getElem?, List.getElem?_append_right (by omega)]
    simp
  simp only [fillKeys, Outcome.andThen, Outcome.map, List.get?_cons_zero, List.get?_cons_succ,
    Option.map_some', sA, sB, sK, sZ, bitReverseZ, hz, wb, uA, uB, uK, uZ, sV, s2, g0, g1, g2]

end FillKeys

/-! ## The scalars of `Setup` -/

section SetupScalarsProofs

variable {F : Type} [Field F]

theorem addTerms_length (mont lam : F) (ts : List (Term F)) (V : List F)
    (h : ∀ t ∈ ts, t.ConstraintID < V.length) :
    ∃ V1, addTerms mont V lam ts = some V1 ∧ V1.length = V.length := by
  obtain ⟨V1, h1, h2, _⟩ := addTerms_spec mont lam ts V h
  exact ⟨V1, h1, h2⟩

theorem setupABCLoop_length (mont wG t : F) (n : Nat) (cs : List (R1C F)) :
    ∀ (s : ABCState F), s.A.length = n → s.B.length = n → s.C.length = n →
      (∀ c ∈ cs, (∀ u ∈ c.L, u.ConstraintID < n) ∧ (∀ u ∈ c.R, u.ConstraintID < n) ∧
        (∀ u ∈ c.O, u.ConstraintID < n)) →
      ∃ s1, setupABCLoop mont wG t s cs = some s1 ∧
        s1.A.length = n ∧ s1.B.length = n ∧ s1.C.length = n := by
  induction cs with
  | nil =>
    intro s hA hB hC _
    exact ⟨s, rfl, hA, hB, hC⟩
  | cons c cs ih =>
    intro s hA hB hC hcs
    obtain ⟨hL, hR, hO⟩ := hcs c (List.mem_cons_self _ _)
    obtain ⟨A1, hA1, hA1len⟩ :=
      addTerms_length mont s.ithLagrangePolt c.L s.A (by rw [hA]; exact hL)
    obtain ⟨B1, hB1, hB1len⟩ :=
      addTerms_length mont s.ithLagrangePolt c.R s.B (by rw [hB]; exact hR)
    obtain ⟨C1, hC1, hC1len⟩ :=
      addTerms_length mont s.ithLagrangePolt c.O s.C (by rw [hC]; exact hO)
    have hstep : setupABCStep mont wG t s c = some
        { A := A1, B := B1, C := C1,
          ithLagrangePolt := fr.Div mont (fr.Mul mont (fr.Mul mont s.ithLagrangePolt wG)
            (fr.Sub t s.wi)) (fr.Sub t (fr.Mul mont s.wi wG)),
          wi := fr.Mul mont s.wi wG } := by
      simp [setupABCStep, hA1, hB1, hC1]
    obtain ⟨s1, hs1, h1A, h1B, h1C⟩ := ih
      { A := A1, B := B1, C := C1,
        ithLagrangePolt := fr.Div mont (fr.Mul mont (fr.Mul mont s.ithLagrangePolt wG)
          (fr.Sub t s.wi)) (fr.Sub t (fr.Mul mont s.wi wG)),
        wi := fr.Mul mont s.wi wG }
      (hA1len.trans hA) (hB1len.trans hB) (hC1len.trans hC)
      (fun c1 hc1 => hcs c1 (List.mem_cons_of_mem _ hc1))
    exact ⟨s1, by simp [setupABCLoop, hstep, hs1], h1A, h1B, h1C⟩

/-- On an R1CS whose terms reference wires in range, `setupABC` returns three vectors of
length `NbWires`, whatever the domain and the toxic waste. -/
theorem setupABC_some (mont : F) (r1cs : R1CS F) (g : Domain F) (tw : toxicWaste F)
    (hwires : wiresInRange r1cs = true) :
    ∃ A B C, setupABC mont r1cs g tw = some (A, B, C) ∧
      A.length = r1cs.NbWires ∧ B.length = r1cs.NbWires ∧ C.length = r1cs.NbWires := by
  obtain ⟨s1, hs1, hA, hB, hC⟩ := setupABCLoop_length mont g.Generator tw.t r1cs.NbWires
    r1cs.Constraints
    { A := List.replicate r1cs.NbWires 0, B := List.replicate r1cs.NbWires 0,
      C := List.replicate r1cs.NbWires 0,
      ithLagrangePolt := setupL0 mont g tw.t, wi := fr.One mont }
    (by simp) (by simp) (by simp) ((wiresInRange_iff r1cs).mp hwires)
  exact ⟨s1.A, s1.B, s1.C, by simp [setupABC, hs1], hA, hB, hC⟩

theorem kScalar_eq (mont : F) (A B C : List F) (tw : toxicWaste F) (d : F) (k : Nat)
    (hA : k < A.length) (hB : k < B.length) (hC : k < C.length) :
    kScalar mont A B C tw d k = some (kValue mont A B C tw d k) := by
  simp only [kScalar, List.get?_eq_getElem?, List.getElem?_eq_getElem hA,
    List.getElem?_eq_getElem hB, List.getElem?_eq_getElem hC, Option.some_bind, kValue,
    fr.ToRegular_eq_val, fr.val_Div, fr.val_Add, fr.val_Mul, List.getD_eq_getElem _ _ hA,
    List.getD_eq_getElem _ _ hB, List.getD_eq_getElem _ _ hC, div_eq_mul_inv]
  congr 1
  ring

theorem kScalars_spec (mont : F) (A B C : List F) (tw : toxicWaste F) (d : F) :
    ∀ n k, k + n ≤ A.length → k + n ≤ B.length → k + n ≤ C.length →
      ∃ l, kScalars mont A B C tw d n k = some l ∧ l.length = n ∧
        ∀ i, i < n → l[i]? = some (kValue mont A B C tw d (k + i)) := by
  intro n
  induction n with
  | zero =>
    intro k _ _ _
    exact ⟨[], rfl, rfl, fun i hi => absurd hi (Nat.not_lt_zero _)⟩
  | succ n ih =>
    intro k hA hB hC
    obtain ⟨l, hl, hlen, hval⟩ := ih (k + 1) (by omega) (by omega) (by omega)
    refine ⟨kValue mont A B C tw d k :: l, ?_, by simp [hlen], fun i hi => ?_⟩
    · rw [kScalars, kScalar_eq mont A B C tw d k (by omega) (by omega) (by omega),
        Option.some_bind, hl, Option.map_some']
    · cases i with
      | zero => simp
      | succ i =>
        rw [List.getElem?_cons_succ, hval i (by omega)]
        congr 2
        omega

theorem fromMontPrefix_spec (mont : F) (V : List F) :
    fromMontPrefix mont V.length V = some (V.map (fr.FromMont mont)) := by
  induction V with
  | nil => rfl
  | cons x V ih => simp [fromMontPrefix, ih]

theorem zScalars_length (mont t : F) (n : Nat) (z : F) : (zScalars mont t n z).length = n := by
  induction n generalizing z with
  | zero => rfl
  | succ n ih => simp [zScalars, ih]

theorem zScalars_getElem? (mont t : F) (n : Nat) (z : F) (i : Nat) (hi : i < n) :
    (zScalars mont t n z)[i]? = some (fr.val mont z * fr.val mont t ^ i) := by
  induction n generalizing z i with
  | zero => exact absurd hi (Nat.not_lt_zero _)
  | succ n ih =>
    cases i with
    | zero => simp [zScalars, fr.ToRegular_eq_val]
    | succ i =>
      rw [zScalars, List.getElem?_cons_succ, ih _ i (by omega), fr.val_Mul, pow_succ]
      congr 1
      ring

theorem zdt0_val {mont : F} (hm : mont ≠ 0) (tw : toxicWaste F) (N : Nat) :
    fr.val mont (zdt0 mont tw N) = (fr.val mont tw.t ^ N - 1) / fr.val mont tw.delta := by
  rw [zdt0, fr.val_Div, fr.val_Sub, fr.val_Exp hm, fr.val_One hm]

/-- The scalar vectors of `Setup` on an R1CS on which `setupABC` returns and that has no more
public wires than wires. -/
theorem setupScalars_spec (mont : F) (r1cs : R1CS F) (domain : Domain F) (tw : toxicWaste F)
    (A B C : List F) (hABC : setupABC mont r1cs domain tw = some (A, B, C))
    (hA : A.length = r1cs.NbWires) (hB : B.length = r1cs.NbWires)
    (hC : C.length = r1cs.NbWires) (hp : r1cs.NbPublicWires ≤ r1cs.NbWires) :
    ∃ pkK vkK,
      setupScalars mont r1cs domain tw = some
        { A := A.map (fr.FromMont mont), B := B.map (fr.FromMont mont), pkK := pkK, vkK := vkK,
          Z := zScalars mont tw.t domain.Cardinality (zdt0 mont tw domain.Cardinality),
          g1Scalars := [tw.alphaReg, tw.betaReg, tw.deltaReg] ++ A.map (fr.FromMont mont)
            ++ B.map (fr.FromMont mont) ++ pkK
            ++ zScalars mont tw.t domain.Cardinality (zdt0 mont tw domain.Cardinality) ++ vkK,
          g2Scalars := B.map (fr.FromMont mont) ++ [tw.betaReg, tw.deltaReg, tw.gammaReg] } ∧
      pkK.length = r1cs.NbWires - r1cs.NbPublicWires ∧ vkK.length = r1cs.NbPublicWires ∧
      (∀ i, i < r1cs.NbWires - r1cs.NbPublicWires →
        pkK[i]? = some (kValue mont A B C tw tw.delta i)) ∧
      (∀ j, j < r1cs.NbPublicWires →
        vkK[j]? = some (kValue mont A B C tw tw.gamma (r1cs.NbWires - r1cs.NbPublicWires + j))) := by
  obtain ⟨pkK, h1, h1len, h1val⟩ := kScalars_spec mont A B C tw tw.delta
    (r1cs.NbWires - r1cs.NbPublicWires) 0 (by omega) (by omega) (by omega)
  obtain ⟨vkK, h2, h2len, h2val⟩ := kScalars_spec mont A B C tw tw.gamma
    r1cs.NbPublicWires (r1cs.NbWires - r1cs.NbPublicWires) (by omega) (by omega) (by omega)
  have hfA := fromMontPrefix_spec mont A
  have hfB := fromMontPrefix_spec mont B
  rw [hA] at hfA
  rw [hB] at hfB
  refine ⟨pkK, vkK, ?_, h1len, h2len, fun i hi => ?_, h2val⟩
  · simp only [setupScalars, hABC, Option.some_bind, if_neg (Nat.not_lt.mpr hp), h1, h2, hfA, hfB]
  · have h := h1val i hi
    rw [Nat.zero_add] at h
    exact h

end SetupScalarsProofs

/-! ## What `Setup` returns -/

section SetupProofs

variable {F P1 P2 GT : Type} [Field F] [AddCommGroup P1] [Module F P1]
  [AddCommGroup P2] [Module F P2]

/-- On an R1CS whose terms reference wires in range and that has no more public wires than
wires, `Setup` returns, and its keys are the points of the scalar vectors it has built, the
`Z` points permuted by `bitReverse`. -/
theorem Setup_spec (mont : F) (curve : Curve P1 P2 GT) (NewDomain : Nat → Domain F)
    (rnd : Entropy F) (r1cs : R1CS F) (pk : ProvingKey F P1 P2) (vk : VerifyingKey P1 P2 GT)
    (hwires : wiresInRange r1cs = true) (hp : r1cs.NbPublicWires ≤ r1cs.NbWires) :
    ∃ A B C pkK vkK zrev,
      setupABC mont r1cs (NewDomain r1cs.NbConstraints) (sampleToxicWaste mont rnd)
        = some (A, B, C) ∧
      A.length = r1cs.NbWires ∧ B.length = r1cs.NbWires ∧ C.length = r1cs.NbWires ∧
      pkK.length = r1cs.NbWires - r1cs.NbPublicWires ∧ vkK.length = r1cs.NbPublicWires ∧
      (∀ i, i < r1cs.NbWires - r1cs.NbPublicWires →
        pkK[i]? = some (kValue mont A B C (sampleToxicWaste mont rnd) rnd.delta i)) ∧
      (∀ j, j < r1cs.NbPublicWires →
        vkK[j]? = some (kValue mont A B C (sampleToxicWaste mont rnd) rnd.gamma
          (r1cs.NbWires - r1cs.NbPublicWires + j))) ∧
      setupScalars mont r1cs (NewDomain r1cs.NbConstraints) (sampleToxicWaste mont rnd) = some
        { A := A.map (fr.FromMont mont), B := B.map (fr.FromMont mont), pkK := pkK, vkK := vkK,
          Z := zScalars mont rnd.t (NewDomain r1cs.NbConstraints).Cardinality
            (zdt0 mont (sampleToxicWaste mont rnd) (NewDomain r1cs.NbConstraints).Cardinality),
          g1Scalars := [fr.ToRegular mont rnd.alpha, fr.ToRegular mont rnd.beta,
              fr.ToRegular mont rnd.delta] ++ A.map (fr.FromMont mont)
            ++ B.map (fr.FromMont mont) ++ pkK
            ++ zScalars mont rnd.t (NewDomain r1cs.NbConstraints).Cardinality
              (zdt0 mont (sampleToxicWaste mont rnd) (NewDomain r1cs.NbConstraints).Cardinality)
            ++ vkK,
          g2Scalars := B.map (fr.FromMont mont) ++ [fr.ToRegular mont rnd.beta,
            fr.ToRegular mont rnd.delta, fr.ToRegular mont rnd.gamma] } ∧
      bitReverse ((zScalars mont rnd.t (NewDomain r1cs.NbConstraints).Cardinality
          (zdt0 mont (sampleToxicWaste mont rnd) (NewDomain r1cs.NbConstraints).Cardinality)).map
            (fun s => s • curve.g1)) = some zrev ∧
      zrev.length = (NewDomain r1cs.NbConstraints).Cardinality ∧
      Setup mont curve NewDomain rnd r1cs pk vk = Outcome.returned
        ({ G1 := { Alpha := fr.val mont rnd.alpha • curve.g1,
                   Beta := fr.val mont rnd.beta • curve.g1,
                   Delta := fr.val mont rnd.delta • curve.g1,
                   A := (A.map (fr.FromMont mont)).map (fun s => s • curve.g1),
                   B := (B.map (fr.FromMont mont)).map (fun s => s • curve.g1),
                   Z := zrev,
                   K := pkK.map (fun s => s • curve.g1) },
           G2 := { Beta := fr.val mont rnd.beta • curve.g2,
                   Delta := fr.val mont rnd.delta • curve.g2,
                   B := (B.map (fr.FromMont mont)).map (fun s => s • curve.g2) },
           Domain := NewDomain r1cs.NbConstraints },
         { E := curve.FinalExponentiation (curve.MillerLoop (fr.val mont rnd.alpha • curve.g1)
             (fr.val mont rnd.beta • curve.g2)),
           G2 := { GammaNeg := -(fr.val mont rnd.gamma • curve.g2),
                   DeltaNeg := -(fr.val mont rnd.delta • curve.g2) },
           G1 := { K := vkK.map (fun s => s • curve.g1) },
           PublicInputs := r1cs.PublicWires }) := by
  obtain ⟨A, B, C, hABC, hA, hB, hC⟩ := setupABC_some mont r1cs (NewDomain r1cs.NbConstraints)
    (sampleToxicWaste mont rnd) hwires
  obtain ⟨pkK, vkK, hsc, hpk, hvk, hpkv, hvkv⟩ := setupScalars_spec mont r1cs
    (NewDomain r1cs.NbConstraints) (sampleToxicWaste mont rnd) A B C hABC hA hB hC hp
  obtain ⟨zrev, hz, hzlen⟩ := bitReverse_total
    ((zScalars mont rnd.t (NewDomain r1cs.NbConstraints).Cardinality
      (zdt0 mont (sampleToxicWaste mont rnd) (NewDomain r1cs.NbConstraints).Cardinality)).map
        (fun s => s • curve.g1))
  have hzl : ((zScalars mont rnd.t (NewDomain r1cs.NbConstraints).Cardinality
      (zdt0 mont (sampleToxicWaste mont rnd) (NewDomain r1cs.NbConstraints).Cardinality)).map
        (fun s => s • curve.g1)).length = (NewDomain r1cs.NbConstraints).Cardinality := by
    rw [List.length_map, zScalars_length]
  refine ⟨A, B, C, pkK, vkK, zrev, hABC, hA, hB, hC, hpk, hvk, hpkv, hvkv, hsc, hz,
    hzlen.trans hzl, ?_⟩
  have hfill := fillKeys_eq curve (NewDomain r1cs.NbConstraints) r1cs.NbWires
    (r1cs.NbWires - r1cs.NbPublicWires)
    (fr.val mont rnd.alpha • curve.g1) (fr.val mont rnd.beta • curve.g1)
    (fr.val mont rnd.delta • curve.g1)
    ((A.map (fr.FromMont mont)).map (fun s => s • curve.g1))
    ((B.map (fr.FromMont mont)).map (fun s => s • curve.g1))
    (pkK.map (fun s => s • curve.g1))
    ((zScalars mont rnd.t (NewDomain r1cs.NbConstraints).Cardinality
      (zdt0 mont (sampleToxicWaste mont rnd) (NewDomain r1cs.NbConstraints).Cardinality)).map
        (fun s => s • curve.g1))
    (vkK.map (fun s => s • curve.g1)) zrev
    ((B.map (fr.FromMont mont)).map (fun s => s • curve.g2))
    (fr.val mont rnd.beta • curve.g2) (fr.val mont rnd.delta • curve.g2)
    (fr.val mont rnd.gamma • curve.g2) pk { vk with PublicInputs := r1cs.PublicWires }
    (by simp [hA]) (by simp [hB]) (by simp [hpk]) hzl (by simp [hB]) hz hzlen
  simp only [Setup]
  rw [hsc]
  simp only [BatchScalarMultiplication, List.map_append, List.map_cons, List.map_nil,
    List.append_assoc, List.cons_append, List.nil_append, fr.ToRegular_eq_val]
  exact hfill

/-- A call of `Setup` in which `fft.NewDomain` panics: the call panics with both keys as the
caller passed them. -/
theorem Setup_call_none (mont : F) (curve : Curve P1 P2 GT)
    (NewDomain : Nat → Option (Domain F)) (rnd : Entropy F) (r1cs : R1CS F)
    (pk : ProvingKey F P1 P2) (vk : VerifyingKey P1 P2 GT)
    (hdom : NewDomain r1cs.NbConstraints = none) :
    Setup.call mont curve NewDomain rnd r1cs pk vk = Outcome.panicked (pk, vk) := by
  simp only [Setup.call, hdom]

/-- A call of `Setup` in which `fft.NewDomain` returns a domain goes on as `Setup` does with
that domain. -/
theorem Setup_call_some (mont : F) (curve : Curve P1 P2 GT)
    (NewDomain : Nat → Option (Domain F)) (domain : Domain F) (rnd : Entropy F) (r1cs : R1CS F)
    (pk : ProvingKey F P1 P2) (vk : VerifyingKey P1 P2 GT)
    (hdom : NewDomain r1cs.NbConstraints = some domain) :
    Setup.call mont curve NewDomain rnd r1cs pk vk
      = Setup mont curve (fun _ => domain) rnd r1cs pk vk := by
  simp only [Setup.call, hdom]

end SetupProofs

/-! ## C2 to C8: the keys -/

section Keys

variable {F P1 P2 GT : Type} [Field F] [AddCommGroup P1] [Module F P1]
  [AddCommGroup P2] [Module F P2]

theorem getElem?_eq_some_getD {α : Type} (l : List α) (i : Nat) (d : α) (h : i < l.length) :
    l[i]? = some (l.getD i d) := by
  rw [List.getElem?_eq_getElem h, List.getD_eq_getElem _ _ h]

/-- C2: on an R1CS on which `Setup` returns (terms reference wires in range, no more public
wires than wires), with `δ ≠ 0`, the proving key has one `K` point per private wire and, for
every private wire `i`, `pk.G1.K[i] = ((β·A[i] + α·B[i] + C[i]) · δ⁻¹) · g1`, where `A`, `B`,
`C` are the vectors `setupABC` returns and `α`, `β`, `δ` the values of the toxic waste. -/
theorem Setup_pk_K (mont : F) (curve : Curve P1 P2 GT) (NewDomain : Nat → Domain F)
    (rnd : Entropy F) (r1cs : R1CS F) (pk : ProvingKey F P1 P2) (vk : VerifyingKey P1 P2 GT)
    (hwires : wiresInRange r1cs = true) (hp : r1cs.NbPublicWires ≤ r1cs.NbWires)
    (_hδ : fr.val mont rnd.delta ≠ 0) :
    ∃ pk1 vk1 A B C,
      Setup mont curve NewDomain rnd r1cs pk vk = Outcome.returned (pk1, vk1) ∧
      setupABC mont r1cs (NewDomain r1cs.NbConstraints) (sampleToxicWaste mont rnd)
        = some (A, B, C) ∧
      pk1.G1.K.length = r1cs.NbWires - r1cs.NbPublicWires ∧
      ∀ i, i < r1cs.NbWires - r1cs.NbPublicWires →
        pk1.G1.K[i]? = some (((fr.val mont rnd.beta * fr.val mont (A.getD i 0)
          + fr.val mont rnd.alpha * fr.val mont (B.getD i 0) + fr.val mont (C.getD i 0))
            * (fr.val mont rnd.delta)⁻¹) • curve.g1) := by
  obtain ⟨A, B, C, pkK, vkK, zrev, hABC, _, _, _, hpk, _, hpkv, _, _, _, _, hS⟩ :=
    Setup_spec mont curve NewDomain rnd r1cs pk vk hwires hp
  refine ⟨_, _, A, B, C, hS, hABC, by simp [hpk], fun i hi => ?_⟩
  simp only [List.getElem?_map, hpkv i hi, Option.map_some', kValue, sampleToxicWaste]

/-- C3: on an R1CS on which `Setup` returns, with `γ ≠ 0`, `vk.G1.K`, the tail of the G1 batch
output, has exactly `NbPublicWires` entries and, for every `j` below `NbPublicWires`, with
`k = j + nbPrivateWires`, `vk.G1.K[j] = ((β·A[k] + α·B[k] + C[k]) · γ⁻¹) · g1`. -/
theorem Setup_vk_K (mont : F) (curve : Curve P1 P2 GT) (NewDomain : Nat → Domain F)
    (rnd : Entropy F) (r1cs : R1CS F) (pk : ProvingKey F P1 P2) (vk : VerifyingKey P1 P2 GT)
    (hwires : wiresInRange r1cs = true) (hp : r1cs.NbPublicWires ≤ r1cs.NbWires)
    (_hγ : fr.val mont rnd.gamma ≠ 0) :
    ∃ pk1 vk1 A B C,
      Setup mont curve NewDomain rnd r1cs pk vk = Outcome.returned (pk1, vk1) ∧
      setupABC mont r1cs (NewDomain r1cs.NbConstraints) (sampleToxicWaste mont rnd)
        = some (A, B, C) ∧
      vk1.G1.K.length = r1cs.NbPublicWires ∧
      ∀ j, j < r1cs.NbPublicWires →
        vk1.G1.K[j]? = some (((fr.val mont rnd.beta
            * fr.val mont (A.getD (j + (r1cs.NbWires - r1cs.NbPublicWires)) 0)
          + fr.val mont rnd.alpha
            * fr.val mont (B.getD (j + (r1cs.NbWires - r1cs.NbPublicWires)) 0)
          + fr.val mont (C.getD (j + (r1cs.NbWires - r1cs.NbPublicWires)) 0))
            * (fr.val mont rnd.gamma)⁻¹) • curve.g1) := by
  obtain ⟨A, B, C, pkK, vkK, zrev, hABC, _, _, _, _, hvk, _, hvkv, _, _, _, hS⟩ :=
    Setup_spec mont curve NewDomain rnd r1cs pk vk hwires hp
  refine ⟨_, _, A, B, C, hS, hABC, by simp [hvk], fun j hj => ?_⟩
  simp only [List.getElem?_map, hvkv j hj, Option.map_some', kValue, sampleToxicWaste,
    Nat.add_comm j]

theorem batch_segments {α : Type} (w priv N : Nat) (a0 a1 a2 : α) (PA PB PK PZ PVK : List α)
    (hA : PA.length = w) (hB : PB.length = w) (hK : PK.length = priv) (hZ : PZ.length = N) :
    sub (a0 :: a1 :: a2 :: (PA ++ (PB ++ (PK ++ (PZ ++ PVK))))) 3 (3 + w) = PA ∧
    sub (a0 :: a1 :: a2 :: (PA ++ (PB ++ (PK ++ (PZ ++ PVK))))) (3 + w) (3 + w + w) = PB ∧
    sub (a0 :: a1 :: a2 :: (PA ++ (PB ++ (PK ++ (PZ ++ PVK))))) (3 + w + w)
      (3 + w + w + priv) = PK ∧
    sub (a0 :: a1 :: a2 :: (PA ++ (PB ++ (PK ++ (PZ ++ PVK))))) (3 + w + w + priv)
      (3 + w + w + priv + N) = PZ ∧
    sub (a0 :: a1 :: a2 :: (PA ++ (PB ++ (PK ++ (PZ ++ PVK))))) (3 + w + w + priv + N)
      (a0 :: a1 :: a2 :: (PA ++ (PB ++ (PK ++ (PZ ++ PVK))))).length = PVK := by
  have e0 : ∀ R : List α, a0 :: a1 :: a2 :: R = [a0, a1, a2] ++ R := fun _ => rfl
  refine ⟨?_, ?_, ?_, ?_, ?_⟩
  · rw [e0]
    exact sub_mid _ _ _ _ _ rfl (by rw [hA])
  · rw [e0, ← List.append_assoc]
    exact sub_mid _ _ _ _ _ (by simp [hA]; omega) (by rw [hB])
  · rw [e0, ← List.append_assoc, ← List.append_assoc]
    exact sub_mid _ _ _ _ _ (by simp [hA, hB]; omega) (by rw [hK])
  · rw [e0, ← List.append_assoc, ← List.append_assoc, ← List.append_assoc]
    exact sub_mid _ _ _ _ _ (by simp [hA, hB, hK]; omega) (by rw [hZ])
  · have h := sub_mid ([a0, a1, a2] ++ PA ++ PB ++ PK ++ PZ) PVK []
      (3 + w + w + priv + N)
      (a0 :: a1 :: a2 :: (PA ++ (PB ++ (PK ++ (PZ ++ PVK))))).length
      (by simp [hA, hB, hK, hZ]; omega) (by simp [hA, hB, hK, hZ]; omega)
    simpa using h

/-- C4: on an R1CS on which `Setup` returns, with a domain of cardinality `N = 2^m` (a machine
integer, so `m < 64`) and `δ ≠ 0`, `pk.G1.Z` is the bit-reversed arrangement of the geometric
sequence: for every `k < N`, `pk.G1.Z[rev_m(k)] = ((t^N − 1)·t^k / δ) · g1`; and the in-place
bit reversal leaves the other segments of the G1 batch output as they were: `pk.G1.A`,
`pk.G1.B`, `pk.G1.K` and `vk.G1.K` are the segments of the batch output at their offsets. -/
theorem Setup_Z_bitReversed (mont : F) (hmont : mont ≠ 0) (curve : Curve P1 P2 GT)
    (NewDomain : Nat → Domain F) (rnd : Entropy F) (r1cs : R1CS F) (pk : ProvingKey F P1 P2)
    (vk : VerifyingKey P1 P2 GT) (hwires : wiresInRange r1cs = true)
    (hp : r1cs.NbPublicWires ≤ r1cs.NbWires) (m : Nat) (hm : m < UintSize)
    (hN : (NewDomain r1cs.NbConstraints).Cardinality = 2 ^ m)
    (_hδ : fr.val mont rnd.delta ≠ 0) :
    ∃ pk1 vk1 sc,
      Setup mont curve NewDomain rnd r1cs pk vk = Outcome.returned (pk1, vk1) ∧
      setupScalars mont r1cs (NewDomain r1cs.NbConstraints) (sampleToxicWaste mont rnd)
        = some sc ∧
      (∀ k, k < 2 ^ m →
        pk1.G1.Z[revBits m k]? = some (((fr.val mont rnd.t ^ 2 ^ m - 1) * fr.val mont rnd.t ^ k
          / fr.val mont rnd.delta) • curve.g1)) ∧
      pk1.G1.A = sub (BatchScalarMultiplication curve.g1 sc.g1Scalars) 3 (3 + r1cs.NbWires) ∧
      pk1.G1.B = sub (BatchScalarMultiplication curve.g1 sc.g1Scalars) (3 + r1cs.NbWires)
        (3 + r1cs.NbWires + r1cs.NbWires) ∧
      pk1.G1.K = sub (BatchScalarMultiplication curve.g1 sc.g1Scalars)
        (3 + r1cs.NbWires + r1cs.NbWires)
        (3 + r1cs.NbWires + r1cs.NbWires + (r1cs.NbWires - r1cs.NbPublicWires)) ∧
      vk1.G1.K = sub (BatchScalarMultiplication curve.g1 sc.g1Scalars)
        (3 + r1cs.NbWires + r1cs.NbWires + (r1cs.NbWires - r1cs.NbPublicWires) + 2 ^ m)
        (BatchScalarMultiplication curve.g1 sc.g1Scalars).length := by
  obtain ⟨A, B, C, pkK, vkK, zrev, hABC, hA, hB, _, hpk, _, _, _, hsc, hz, _, hS⟩ :=
    Setup_spec mont curve NewDomain rnd r1cs pk vk hwires hp
  have hzl : ((zScalars mont rnd.t (NewDomain r1cs.NbConstraints).Cardinality
      (zdt0 mont (sampleToxicWaste mont rnd) (NewDomain r1cs.NbConstraints).Cardinality)).map
        (fun s => s • curve.g1)).length = 2 ^ m := by
    rw [List.length_map, zScalars_length, hN]
  obtain ⟨b, hb, _, hbval⟩ := bitReverse_pow2 m hm _ hzl
  have hbz : b = zrev := Option.some.inj (hb.symm.trans hz)
  obtain ⟨sA, sB, sK, _, sV⟩ := batch_segments r1cs.NbWires
    (r1cs.NbWires - r1cs.NbPublicWires) (2 ^ m)
    (fr.val mont rnd.alpha • curve.g1) (fr.val mont rnd.beta • curve.g1)
    (fr.val mont rnd.delta • curve.g1)
    ((A.map (fr.FromMont mont)).map (fun s => s • curve.g1))
    ((B.map (fr.FromMont mont)).map (fun s => s • curve.g1))
    (pkK.map (fun s => s • curve.g1))
    ((zScalars mont rnd.t (NewDomain r1cs.NbConstraints).Cardinality
      (zdt0 mont (sampleToxicWaste mont rnd) (NewDomain r1cs.NbConstraints).Cardinality)).map
        (fun s => s • curve.g1))
    (vkK.map (fun s => s • curve.g1))
    (by simp [hA]) (by simp [hB]) (by simp [hpk]) hzl
  refine ⟨_, _, _, hS, hsc, fun k hk => ?_, ?_, ?_, ?_, ?_⟩
  · have h := hbval k hk
    rw [hbz] at h
    have hkN : k < (NewDomain r1cs.NbConstraints).Cardinality := by rw [hN]; exact hk
    rw [h, List.getElem?_map, zScalars_getElem? _ _ _ _ _ hkN, Option.map_some',
      zdt0_val hmont, hN, div_mul_eq_mul_div]
    rfl
  · simp only [BatchScalarMultiplication, List.map_append, List.map_cons, List.map_nil,
      List.append_assoc, List.cons_append, List.nil_append, fr.ToRegular_eq_val]
    exact sA.symm
  · simp only [BatchScalarMultiplication, List.map_append, List.map_cons, List.map_nil,
      List.append_assoc, List.cons_append, List.nil_append, fr.ToRegular_eq_val]
    exact sB.symm
  · simp only [BatchScalarMultiplication, List.map_append, List.map_cons, List.map_nil,
      List.append_assoc, List.cons_append, List.nil_append, fr.ToRegular_eq_val]
    exact sK.symm
  · simp only [BatchScalarMultiplication, List.map_append, List.map_cons, List.map_nil,
      List.append_assoc, List.cons_append, List.nil_append, fr.ToRegular_eq_val]
    exact sV.symm

/-- C5: on an R1CS with `NbWires = w`, `NbPublicWires = p ≤ w` and `NbConstraints = c` on
which `Setup` returns, `|pk.G1.A| = |pk.G1.B| = |pk.G2.B| = w`, `|pk.G1.K| = w − p`,
`|vk.G1.K| = p`, `|pk.G1.Z|` is the cardinality of `NewDomain(c)`, `pk.Domain` is that
domain, and `vk.PublicInputs` is `r1cs.PublicWires`. -/
theorem Setup_shapes (mont : F) (curve : Curve P1 P2 GT) (NewDomain : Nat → Domain F)
    (rnd : Entropy F) (r1cs : R1CS F) (pk : ProvingKey F P1 P2) (vk : VerifyingKey P1 P2 GT)
    (hwires : wiresInRange r1cs = true) (hp : r1cs.NbPublicWires ≤ r1cs.NbWires) :
    ∃ pk1 vk1,
      Setup mont curve NewDomain rnd r1cs pk vk = Outcome.returned (pk1, vk1) ∧
      pk1.G1.A.length = r1cs.NbWires ∧ pk1.G1.B.length = r1cs.NbWires ∧
      pk1.G2.B.length = r1cs.NbWires ∧
      pk1.G1.K.length = r1cs.NbWires - r1cs.NbPublicWires ∧
      vk1.G1.K.length = r1cs.NbPublicWires ∧
      pk1.G1.Z.length = (NewDomain r1cs.NbConstraints).Cardinality ∧
      pk1.Domain = NewDomain r1cs.NbConstraints ∧
      vk1.PublicInputs = r1cs.PublicWires := by
  obtain ⟨A, B, C, pkK, vkK, zrev, _, hA, hB, _, hpk, hvk, _, _, _, _, hzl, hS⟩ :=
    Setup_spec mont curve NewDomain rnd r1cs pk vk hwires hp
  exact ⟨_, _, hS, by simp [hA], by simp [hB], by simp [hB], by simp [hpk], by simp [hvk],
    hzl, rfl, rfl⟩

/-- C6: on an R1CS on which `Setup` returns, `pk.G1.Alpha = α·g1`, `pk.G1.Beta = β·g1`,
`pk.G1.Delta = δ·g1`, `pk.G2.Beta = β·g2`, `pk.G2.Delta = δ·g2`, and for every wire `i`,
`pk.G1.A[i] = A[i]·g1`, `pk.G1.B[i] = B[i]·g1` and `pk.G2.B[i] = B[i]·g2`, with `A`, `B` the
vectors `setupABC` returns. -/
theorem Setup_pk_points (mont : F) (curve : Curve P1 P2 GT) (NewDomain : Nat → Domain F)
    (rnd : Entropy F) (r1cs : R1CS F) (pk : ProvingKey F P1 P2) (vk : VerifyingKey P1 P2 GT)
    (hwires : wiresInRange r1cs = true) (hp : r1cs.NbPublicWires ≤ r1cs.NbWires) :
    ∃ pk1 vk1 A B C,
      Setup mont curve NewDomain rnd r1cs pk vk = Outcome.returned (pk1, vk1) ∧
      setupABC mont r1cs (NewDomain r1cs.NbConstraints) (sampleToxicWaste mont rnd)
        = some (A, B, C) ∧
      pk1.G1.Alpha = fr.val mont rnd.alpha • curve.g1 ∧
      pk1.G1.Beta = fr.val mont rnd.beta • curve.g1 ∧
      pk1.G1.Delta = fr.val mont rnd.delta • curve.g1 ∧
      pk1.G2.Beta = fr.val mont rnd.beta • curve.g2 ∧
      pk1.G2.Delta = fr.val mont rnd.delta • curve.g2 ∧
      ∀ i, i < r1cs.NbWires →
        pk1.G1.A[i]? = some (fr.val mont (A.getD i 0) • curve.g1) ∧
        pk1.G1.B[i]? = some (fr.val mont (B.getD i 0) • curve.g1) ∧
        pk1.G2.B[i]? = some (fr.val mont (B.getD i 0) • curve.g2) := by
  obtain ⟨A, B, C, pkK, vkK, zrev, hABC, hA, hB, _, _, _, _, _, _, _, _, hS⟩ :=
    Setup_spec mont curve NewDomain rnd r1cs pk vk hwires hp
  refine ⟨_, _, A, B, C, hS, hABC, rfl, rfl, rfl, rfl, rfl, fun i hi => ?_⟩
  have hAi := getElem?_eq_some_getD A i 0 (by rw [hA]; exact hi)
  have hBi := getElem?_eq_some_getD B i 0 (by rw [hB]; exact hi)
  simp only [List.getElem?_map, hAi, hBi, Option.map_some', fr.FromMont_eq_val, and_self]

/-- C7: on an R1CS on which `Setup` returns, the verifying key stores the negated G2 points:
`vk.G2.GammaNeg = −(γ·g2)` and `vk.G2.DeltaNeg = −(δ·g2) = −pk.G2.Delta`, so that
`vk.G2.GammaNeg + γ·g2 = 0` and `vk.G2.DeltaNeg + pk.G2.Delta = 0`. -/
theorem Setup_vk_G2_negated (mont : F) (curve : Curve P1 P2 GT) (NewDomain : Nat → Domain F)
    (rnd : Entropy F) (r1cs : R1CS F) (pk : ProvingKey F P1 P2) (vk : VerifyingKey P1 P2 GT)
    (hwires : wiresInRange r1cs = true) (hp : r1cs.NbPublicWires ≤ r1cs.NbWires) :
    ∃ pk1 vk1,
      Setup mont curve NewDomain rnd r1cs pk vk = Outcome.returned (pk1, vk1) ∧
      vk1.G2.GammaNeg = -(fr.val mont rnd.gamma • curve.g2) ∧
      vk1.G2.DeltaNeg = -(fr.val mont rnd.delta • curve.g2) ∧
      vk1.G2.DeltaNeg = -pk1.G2.Delta ∧
      vk1.G2.GammaNeg + fr.val mont rnd.gamma • curve.g2 = 0 ∧
      vk1.G2.DeltaNeg + pk1.G2.Delta = 0 := by
  obtain ⟨A, B, C, pkK, vkK, zrev, _, _, _, _, _, _, _, _, _, _, _, hS⟩ :=
    Setup_spec mont curve NewDomain rnd r1cs pk vk hwires hp
  exact ⟨_, _, hS, rfl, rfl, rfl, neg_add_cancel _, neg_add_cancel _⟩

/-- C8: on an R1CS on which `Setup` returns,
`vk.E = FinalExponentiation(MillerLoop(pk.G1.Alpha, pk.G2.Beta))`, which is the pairing of
`α·g1` and `β·g2`, the Miller loop and the final exponentiation being the functions the
curve supplies. -/
theorem Setup_vk_E (mont : F) (curve : Curve P1 P2 GT) (NewDomain : Nat → Domain F)
    (rnd : Entropy F) (r1cs : R1CS F) (pk : ProvingKey F P1 P2) (vk : VerifyingKey P1 P2 GT)
    (hwires : wiresInRange r1cs = true) (hp : r1cs.NbPublicWires ≤ r1cs.NbWires) :
    ∃ pk1 vk1,
      Setup mont curve NewDomain rnd r1cs pk vk = Outcome.returned (pk1, vk1) ∧
      vk1.E = curve.FinalExponentiation (curve.MillerLoop pk1.G1.Alpha pk1.G2.Beta) ∧
      vk1.E = curve.FinalExponentiation (curve.MillerLoop (fr.val mont rnd.alpha • curve.g1)
        (fr.val mont rnd.beta • curve.g2)) := by
  obtain ⟨A, B, C, pkK, vkK, zrev, _, _, _, _, _, _, _, _, _, _, _, hS⟩ :=
    Setup_spec mont curve NewDomain rnd r1cs pk vk hwires hp
  exact ⟨_, _, hS, rfl, rfl⟩

end Keys

/-! ## C9 and C10 -/

section LayoutAndToxicWaste

variable {F P1 P2 GT : Type} [Field F] [AddCommGroup P1] [Module F P1]
  [AddCommGroup P2] [Module F P2]

theorem g1Scalars_length (mont : F) (r1cs : R1CS F) (domain : Domain F) (tw : toxicWaste F)
    (hwires : wiresInRange r1cs = true) (hp : r1cs.NbPublicWires ≤ r1cs.NbWires) :
    ∃ sc, setupScalars mont r1cs domain tw = some sc ∧
      sc.g1Scalars.length = 3 + r1cs.NbWires + r1cs.NbWires
        + (r1cs.NbWires - r1cs.NbPublicWires) + domain.Cardinality + r1cs.NbPublicWires := by
  obtain ⟨A, B, C, hABC, hA, hB, hC⟩ := setupABC_some mont r1cs domain tw hwires
  obtain ⟨pkK, vkK, hsc, hpk, hvk, _, _⟩ :=
    setupScalars_spec mont r1cs domain tw A B C hABC hA hB hC hp
  refine ⟨_, hsc, ?_⟩
  simp only [List.length_append, List.length_cons, List.length_nil, List.length_map, hA, hB,
    hpk, hvk, zScalars_length]

/-- C9, as the code has it: on an R1CS on which `Setup` gets as far as the batch
multiplications, the flat G1 scalar vector `(α, β, δ, A, B, pkK, Z, vkK)` has total length
`3 + 2·nbWires + nbPrivateWires + N + nbPublicWires`, which is `3 + 3·nbWires + N`. -/
theorem Setup_g1Scalars_length (mont : F) (NewDomain : Nat → Domain F) (rnd : Entropy F)
    (r1cs : R1CS F) (hwires : wiresInRange r1cs = true)
    (hp : r1cs.NbPublicWires ≤ r1cs.NbWires) :
    ∃ sc, setupScalars mont r1cs (NewDomain r1cs.NbConstraints) (sampleToxicWaste mont rnd)
        = some sc ∧
      sc.g1Scalars.length = 3 + 2 * r1cs.NbWires + (r1cs.NbWires - r1cs.NbPublicWires)
        + (NewDomain r1cs.NbConstraints).Cardinality + r1cs.NbPublicWires ∧
      sc.g1Scalars.length = 3 + 3 * r1cs.NbWires + (NewDomain r1cs.NbConstraints).Cardinality := by
  obtain ⟨sc, hsc, hlen⟩ := g1Scalars_length mont r1cs (NewDomain r1cs.NbConstraints)
    (sampleToxicWaste mont rnd) hwires hp
  exact ⟨sc, hsc, by omega, by omega⟩

/-- Witness of C9 as the code has it: the instance over the rationals. -/
theorem Setup_g1Scalars_length_witness :
    ∃ sc, setupScalars (2 : ℚ) exR1CS (exNewDomain exR1CS.NbConstraints)
        (sampleToxicWaste 2 exEntropy) = some sc ∧
      sc.g1Scalars.length = 3 + 2 * exR1CS.NbWires + (exR1CS.NbWires - exR1CS.NbPublicWires)
        + (exNewDomain exR1CS.NbConstraints).Cardinality + exR1CS.NbPublicWires ∧
      sc.g1Scalars.length
        = 3 + 3 * exR1CS.NbWires + (exNewDomain exR1CS.NbConstraints).Cardinality :=
  Setup_g1Scalars_length 2 exNewDomain exEntropy exR1CS (by decide) (by decide)

/-- Counterexample to C9 as stated: on the instance (3 wires, 1 public, domain of
cardinality 2) the G1 scalar vector has 14 entries, not
`3 + 3·nbWires + nbPrivateWires + N + nbPublicWires = 17`. -/
theorem g1Scalars_length_counterexample :
    ∃ sc, setupScalars (2 : ℚ) exR1CS (exNewDomain exR1CS.NbConstraints)
        (sampleToxicWaste 2 exEntropy) = some sc ∧
      sc.g1Scalars.length = 14 ∧
      sc.g1Scalars.length ≠ 3 + 3 * exR1CS.NbWires + (exR1CS.NbWires - exR1CS.NbPublicWires)
        + (exNewDomain exR1CS.NbConstraints).Cardinality + exR1CS.NbPublicWires := by
  obtain ⟨sc, hsc, hlen⟩ := g1Scalars_length (2 : ℚ) exR1CS (exNewDomain exR1CS.NbConstraints)
    (sampleToxicWaste 2 exEntropy) (by decide) (by decide)
  have h14 : sc.g1Scalars.length = 14 := hlen
  refine ⟨sc, hsc, h14, ?_⟩
  rw [h14]
  decide

/-- C10, as the code has it: `Setup` does not check the toxic waste it samples and has no
error for it.  On an R1CS for which `fft.NewDomain` returns a domain, whose terms reference
wires in range and that has no more public wires than wires, a call of `Setup` returns keys
for every toxic waste, also when `t` is a point of the domain or one of `α`, `β`, `γ`, `δ`
is 0 (a division by zero yields 0). -/
theorem Setup_returns_for_every_toxicWaste (mont : F) (curve : Curve P1 P2 GT)
    (NewDomain : Nat → Option (Domain F)) (domain : Domain F) (rnd : Entropy F) (r1cs : R1CS F)
    (pk : ProvingKey F P1 P2) (vk : VerifyingKey P1 P2 GT)
    (hdom : NewDomain r1cs.NbConstraints = some domain)
    (hwires : wiresInRange r1cs = true) (hp : r1cs.NbPublicWires ≤ r1cs.NbWires) :
    ∃ pk1 vk1,
      Setup.call mont curve NewDomain rnd r1cs pk vk = Outcome.returned (pk1, vk1) := by
  obtain ⟨A, B, C, pkK, vkK, zrev, _, _, _, _, _, _, _, _, _, _, _, hS⟩ :=
    Setup_spec mont curve (fun _ => domain) rnd r1cs pk vk hwires hp
  exact ⟨_, _, (Setup_call_some mont curve NewDomain domain rnd r1cs pk vk hdom).trans hS⟩

/-- Witness of C10 as the code has it: the instance, on keys that hold an earlier setup, with
a toxic waste in which `α = 0` and with one in which `t = -1` is the point `ω^1` of the
domain. -/
theorem Setup_returns_for_every_toxicWaste_witness :
    (fr.val 2 exDegenerate.alpha = 0 ∧
      ∃ pk1 vk1, Setup.call (2 : ℚ) exCurve exFftNewDomain exDegenerate exR1CS exPkOld exVkOld
        = Outcome.returned (pk1, vk1)) ∧
    (fr.val 2 exOnDomain.t = fr.val 2 exDomain.Generator ^ 1 ∧
      ∃ pk1 vk1, Setup.call (2 : ℚ) exCurve exFftNewDomain exOnDomain exR1CS exPkOld exVkOld
        = Outcome.returned (pk1, vk1)) :=
  ⟨⟨by norm_num [fr.val, exDegenerate],
      Setup_returns_for_every_toxicWaste 2 exCurve exFftNewDomain exDomain exDegenerate exR1CS
        exPkOld exVkOld rfl (by decide) (by decide)⟩,
    ⟨by norm_num [fr.val, exOnDomain, exDomain],
      Setup_returns_for_every_toxicWaste 2 exCurve exFftNewDomain exDomain exOnDomain exR1CS
        exPkOld exVkOld rfl (by decide) (by decide)⟩⟩

/-- Counterexample to C10 as stated: with `α = 0` (and no vanishing denominator), `Setup`
returns keys, in which `pk.G1.Alpha` is the zero of G1. -/
theorem Setup_degenerate_counterexample :
    fr.val 2 exDegenerate.alpha = 0 ∧
    ∃ pk1 vk1, Setup (2 : ℚ) exCurve exNewDomain exDegenerate exR1CS exPk exVk
      = Outcome.returned (pk1, vk1) ∧ pk1.G1.Alpha = 0 := by
  refine ⟨by norm_num [fr.val, exDegenerate], ?_⟩
  obtain ⟨A, B, C, pkK, vkK, zrev, _, _, _, _, _, _, _, _, _, _, _, hS⟩ :=
    Setup_spec (2 : ℚ) exCurve exNewDomain exDegenerate exR1CS exPk exVk (by decide) (by decide)
  exact ⟨_, _, hS, by norm_num [fr.val, exDegenerate]⟩

end LayoutAndToxicWaste

/-! ## Witnesses of C2 to C8 -/

section Witnesses

/-- Witness of C2: the instance over the rationals. -/
theorem Setup_pk_K_witness :
    ∃ pk1 vk1 A B C,
      Setup (2 : ℚ) exCurve exNewDomain exEntropy exR1CS exPk exVk
        = Outcome.returned (pk1, vk1) ∧
      setupABC 2 exR1CS (exNewDomain exR1CS.NbConstraints) (sampleToxicWaste 2 exEntropy)
        = some (A, B, C) ∧
      pk1.G1.K.length = exR1CS.NbWires - exR1CS.NbPublicWires ∧
      ∀ i, i < exR1CS.NbWires - exR1CS.NbPublicWires →
        pk1.G1.K[i]? = some (((fr.val 2 exEntropy.beta * fr.val 2 (A.getD i 0)
          + fr.val 2 exEntropy.alpha * fr.val 2 (B.getD i 0) + fr.val 2 (C.getD i 0))
            * (fr.val 2 exEntropy.delta)⁻¹) • exCurve.g1) :=
  Setup_pk_K 2 exCurve exNewDomain exEntropy exR1CS exPk exVk (by decide) (by decide)
    (by norm_num [fr.val, exEntropy])

/-- Witness of C3: the instance over the rationals. -/
theorem Setup_vk_K_witness :
    ∃ pk1 vk1 A B C,
      Setup (2 : ℚ) exCurve exNewDomain exEntropy exR1CS exPk exVk
        = Outcome.returned (pk1, vk1) ∧
      setupABC 2 exR1CS (exNewDomain exR1CS.NbConstraints) (sampleToxicWaste 2 exEntropy)
        = some (A, B, C) ∧
      vk1.G1.K.length = exR1CS.NbPublicWires ∧
      ∀ j, j < exR1CS.NbPublicWires →
        vk1.G1.K[j]? = some (((fr.val 2 exEntropy.beta
            * fr.val 2 (A.getD (j + (exR1CS.NbWires - exR1CS.NbPublicWires)) 0)
          + fr.val 2 exEntropy.alpha
            * fr.val 2 (B.getD (j + (exR1CS.NbWires - exR1CS.NbPublicWires)) 0)
          + fr.val 2 (C.getD (j + (exR1CS.NbWires - exR1CS.NbPublicWires)) 0))
            * (fr.val 2 exEntropy.gamma)⁻¹) • exCurve.g1) :=
  Setup_vk_K 2 exCurve exNewDomain exEntropy exR1CS exPk exVk (by decide) (by decide)
    (by norm_num [fr.val, exEntropy])

/-- Witness of C4: the instance over the rationals, whose domain has cardinality `2^1`. -/
theorem Setup_Z_bitReversed_witness :
    ∃ pk1 vk1 sc,
      Setup (2 : ℚ) exCurve exNewDomain exEntropy exR1CS exPk exVk
        = Outcome.returned (pk1, vk1) ∧
      setupScalars 2 exR1CS (exNewDomain exR1CS.NbConstraints) (sampleToxicWaste 2 exEntropy)
        = some sc ∧
      (∀ k, k < 2 ^ 1 →
        pk1.G1.Z[revBits 1 k]? = some (((fr.val 2 exEntropy.t ^ 2 ^ 1 - 1)
          * fr.val 2 exEntropy.t ^ k / fr.val 2 exEntropy.delta) • exCurve.g1)) ∧
      pk1.G1.A = sub (BatchScalarMultiplication exCurve.g1 sc.g1Scalars) 3
        (3 + exR1CS.NbWires) ∧
      pk1.G1.B = sub (BatchScalarMultiplication exCurve.g1 sc.g1Scalars) (3 + exR1CS.NbWires)
        (3 + exR1CS.NbWires + exR1CS.NbWires) ∧
      pk1.G1.K = sub (BatchScalarMultiplication exCurve.g1 sc.g1Scalars)
        (3 + exR1CS.NbWires + exR1CS.NbWires)
        (3 + exR1CS.NbWires + exR1CS.NbWires + (exR1CS.NbWires - exR1CS.NbPublicWires)) ∧
      vk1.G1.K = sub (BatchScalarMultiplication exCurve.g1 sc.g1Scalars)
        (3 + exR1CS.NbWires + exR1CS.NbWires + (exR1CS.NbWires - exR1CS.NbPublicWires) + 2 ^ 1)
        (BatchScalarMultiplication exCurve.g1 sc.g1Scalars).length :=
  Setup_Z_bitReversed (2 : ℚ) (by norm_num) exCurve exNewDomain exEntropy exR1CS
    exPk exVk (by decide) (by decide) 1 (by decide) rfl (by norm_num [fr.val, exEntropy])

/-- Witness of C5: the instance over the rationals. -/
theorem Setup_shapes_witness :
    ∃ pk1 vk1,
      Setup (2 : ℚ) exCurve exNewDomain exEntropy exR1CS exPk exVk
        = Outcome.returned (pk1, vk1) ∧
      pk1.G1.A.length = exR1CS.NbWires ∧ pk1.G1.B.length = exR1CS.NbWires ∧
      pk1.G2.B.length = exR1CS.NbWires ∧
      pk1.G1.K.length = exR1CS.NbWires - exR1CS.NbPublicWires ∧
      vk1.G1.K.length = exR1CS.NbPublicWires ∧
      pk1.G1.Z.length = (exNewDomain exR1CS.NbConstraints).Cardinality ∧
      pk1.Domain = exNewDomain exR1CS.NbConstraints ∧
      vk1.PublicInputs = exR1CS.PublicWires :=
  Setup_shapes 2 exCurve exNewDomain exEntropy exR1CS exPk exVk (by decide) (by decide)

/-- Witness of C6: the instance over the rationals. -/
theorem Setup_pk_points_witness :
    ∃ pk1 vk1 A B C,
      Setup (2 : ℚ) exCurve exNewDomain exEntropy exR1CS exPk exVk
        = Outcome.returned (pk1, vk1) ∧
      setupABC 2 exR1CS (exNewDomain exR1CS.NbConstraints) (sampleToxicWaste 2 exEntropy)
        = some (A, B, C) ∧
      pk1.G1.Alpha = fr.val 2 exEntropy.alpha • exCurve.g1 ∧
      pk1.G1.Beta = fr.val 2 exEntropy.beta • exCurve.g1 ∧
      pk1.G1.Delta = fr.val 2 exEntropy.delta • exCurve.g1 ∧
      pk1.G2.Beta = fr.val 2 exEntropy.beta • exCurve.g2 ∧
      pk1.G2.Delta = fr.val 2 exEntropy.delta • exCurve.g2 ∧
      ∀ i, i < exR1CS.NbWires →
        pk1.G1.A[i]? = some (fr.val 2 (A.getD i 0) • exCurve.g1) ∧
        pk1.G1.B[i]? = some (fr.val 2 (B.getD i 0) • exCurve.g1) ∧
        pk1.G2.B[i]? = some (fr.val 2 (B.getD i 0) • exCurve.g2) :=
  Setup_pk_points 2 exCurve exNewDomain exEntropy exR1CS exPk exVk (by decide) (by decide)

/-- Witness of C7: the instance over the rationals. -/
theorem Setup_vk_G2_negated_witness :
    ∃ pk1 vk1,
      Setup (2 : ℚ) exCurve exNewDomain exEntropy exR1CS exPk exVk
        = Outcome.returned (pk1, vk1) ∧
      vk1.G2.GammaNeg = -(fr.val 2 exEntropy.gamma • exCurve.g2) ∧
      vk1.G2.DeltaNeg = -(fr.val 2 exEntropy.delta • exCurve.g2) ∧
      vk1.G2.DeltaNeg = -pk1.G2.Delta ∧
      vk1.G2.GammaNeg + fr.val 2 exEntropy.gamma • exCurve.g2 = 0 ∧
      vk1.G2.DeltaNeg + pk1.G2.Delta = 0 :=
  Setup_vk_G2_negated 2 exCurve exNewDomain exEntropy exR1CS exPk exVk (by decide) (by decide)

/-- Witness of C8: the instance over the rationals. -/
theorem Setup_vk_E_witness :
    ∃ pk1 vk1,
      Setup (2 : ℚ) exCurve exNewDomain exEntropy exR1CS exPk exVk
        = Outcome.returned (pk1, vk1) ∧
      vk1.E = exCurve.FinalExponentiation (exCurve.MillerLoop pk1.G1.Alpha pk1.G2.Beta) ∧
      vk1.E = exCurve.FinalExponentiation (exCurve.MillerLoop
        (fr.val 2 exEntropy.alpha • exCurve.g1) (fr.val 2 exEntropy.beta • exCurve.g2)) :=
  Setup_vk_E 2 exCurve exNewDomain exEntropy exR1CS exPk exVk (by decide) (by decide)

end Witnesses

/-! ## C11 and C12: the failures of `Setup` -/

section SetupFailures

variable {F P1 P2 GT : Type} [Field F] [AddCommGroup P1] [Module F P1]
  [AddCommGroup P2] [Module F P2]

theorem addTerms_some_inv (mont lam : F) (ts : List (Term F)) :
    ∀ (V V1 : List F), addTerms mont V lam ts = some V1 →
      (∀ t ∈ ts, t.ConstraintID < V.length) ∧ V1.length = V.length := by
  induction ts with
  | nil =>
    intro V V1 h
    rw [addTerms] at h
    exact ⟨fun t ht => absurd ht (List.not_mem_nil t), by rw [← Option.some.inj h]⟩
  | cons t ts ih =>
    intro V V1 h
    rw [addTerms, addTermAt] at h
    by_cases ht : t.ConstraintID < V.length
    · rw [dif_pos ht, Option.some_bind] at h
      obtain ⟨h1, h2⟩ := ih _ _ h
      rw [List.length_set] at h1 h2
      refine ⟨fun u hu => ?_, h2⟩
      rcases List.mem_cons.mp hu with rfl | hu
      · exact ht
      · exact h1 u hu
    · rw [dif_neg ht] at h
      exact absurd h (by simp)

theorem setupABCStep_some_inv (mont wG t : F) (s s1 : ABCState F) (c : R1C F)
    (h : setupABCStep mont wG t s c = some s1) :
    ((∀ u ∈ c.L, u.ConstraintID < s.A.length) ∧ (∀ u ∈ c.R, u.ConstraintID < s.B.length) ∧
      (∀ u ∈ c.O, u.ConstraintID < s.C.length)) ∧
    s1.A.length = s.A.length ∧ s1.B.length = s.B.length ∧ s1.C.length = s.C.length := by
  rw [setupABCStep] at h
  cases hA : addTerms mont s.A s.ithLagrangePolt c.L with
  | none => rw [hA] at h; exact absurd h (by simp)
  | some A1 =>
    cases hB : addTerms mont s.B s.ithLagrangePolt c.R with
    | none => rw [hA, hB] at h; exact absurd h (by simp)
    | some B1 =>
      cases hC : addTerms mont s.C s.ithLagrangePolt c.O with
      | none => rw [hA, hB, hC] at h; exact absurd h (by simp)
      | some C1 =>
        rw [hA, hB, hC] at h
        simp only [Option.some_bind] at h
        have hs := Option.some.inj h
        obtain ⟨a1, a2⟩ := addTerms_some_inv _ _ _ _ _ hA
        obtain ⟨b1, b2⟩ := addTerms_some_inv _ _ _ _ _ hB
        obtain ⟨c1, c2⟩ := addTerms_some_inv _ _ _ _ _ hC
        rw [← hs]
        exact ⟨⟨a1, b1, c1⟩, a2, b2, c2⟩

theorem setupABCLoop_some_inv (mont wG t : F) (n : Nat) (cs : List (R1C F)) :
    ∀ (s s1 : ABCState F), s.A.length = n → s.B.length = n → s.C.length = n →
      setupABCLoop mont wG t s cs = some s1 →
      ∀ c ∈ cs, (∀ u ∈ c.L, u.ConstraintID < n) ∧ (∀ u ∈ c.R, u.ConstraintID < n) ∧
        (∀ u ∈ c.O, u.ConstraintID < n) := by
  induction cs with
  | nil =>
    intro s s1 _ _ _ _ c hc
    exact absurd hc (List.not_mem_nil c)
  | cons c cs ih =>
    intro s s1 hA hB hC h c1 hc1
    rw [setupABCLoop] at h
    cases hstep : setupABCStep mont wG t s c with
    | none => rw [hstep] at h; exact absurd h (by simp)
    | some s2 =>
      rw [hstep, Option.some_bind] at h
      obtain ⟨hin, h2A, h2B, h2C⟩ := setupABCStep_some_inv mont wG t s s2 c hstep
      rw [hA, hB, hC] at hin
      rcases List.mem_cons.mp hc1 with rfl | hc1
      · exact hin
      · exact ih s2 s1 (h2A.trans hA) (h2B.trans hB) (h2C.trans hC) h c1 hc1

/-- When `setupABC` returns, every term of the R1CS references a wire in range. -/
theorem setupABC_some_inv (mont : F) (r1cs : R1CS F) (g : Domain F) (tw : toxicWaste F)
    (x : List F × List F × List F) (h : setupABC mont r1cs g tw = some x) :
    wiresInRange r1cs = true := by
  rw [setupABC] at h
  cases hl : setupABCLoop mont g.Generator tw.t
      { A := List.replicate r1cs.NbWires 0, B := List.replicate r1cs.NbWires 0,
        C := List.replicate r1cs.NbWires 0,
        ithLagrangePolt := setupL0 mont g tw.t, wi := fr.One mont } r1cs.Constraints with
  | none =>
    simp only [hl, Option.map_none'] at h
    exact absurd h (by simp)
  | some s1 =>
    exact (wiresInRange_iff r1cs).mpr
      (setupABCLoop_some_inv mont g.Generator tw.t r1cs.NbWires r1cs.Constraints _ s1
        (by simp) (by simp) (by simp) hl)

theorem setupScalars_some_inv (mont : F) (r1cs : R1CS F) (domain : Domain F)
    (tw : toxicWaste F) (sc : SetupScalars F) (h : setupScalars mont r1cs domain tw = some sc) :
    wiresInRange r1cs = true ∧ r1cs.NbPublicWires ≤ r1cs.NbWires := by
  rw [setupScalars] at h
  cases hABC : setupABC mont r1cs domain tw with
  | none =>
    rw [hABC] at h
    exact absurd h (by simp)
  | some x =>
    refine ⟨setupABC_some_inv mont r1cs domain tw x hABC, ?_⟩
    rw [hABC, Option.some_bind] at h
    by_contra hlt
    rw [if_pos (Nat.lt_of_not_le hlt)] at h
    exact absurd h (by simp)

omit [Field F] in
theorem mem_out_of_range_of_wiresInRange_false (r1cs : R1CS F)
    (h : ∃ c ∈ r1cs.Constraints, ∃ u ∈ c.L ++ c.R ++ c.O, r1cs.NbWires ≤ u.ConstraintID) :
    ¬ wiresInRange r1cs = true := by
  intro hw
  obtain ⟨c, hc, u, hu, hge⟩ := h
  obtain ⟨hL, hR, hO⟩ := (wiresInRange_iff r1cs).mp hw c hc
  rcases List.mem_append.mp hu with hu | hu
  · rcases List.mem_append.mp hu with hu | hu
    · exact absurd (hL u hu) (Nat.not_lt.mpr hge)
    · exact absurd (hR u hu) (Nat.not_lt.mpr hge)
  · exact absurd (hO u hu) (Nat.not_lt.mpr hge)

/-- The two ways `Setup` panics, and the state of the keys then: the proving key as it was,
the verifying key with `PublicInputs` already set. -/
theorem Setup_panics (mont : F) (curve : Curve P1 P2 GT) (NewDomain : Nat → Domain F)
    (rnd : Entropy F) (r1cs : R1CS F) (pk : ProvingKey F P1 P2) (vk : VerifyingKey P1 P2 GT)
    (h : ¬ wiresInRange r1cs = true ∨ r1cs.NbWires < r1cs.NbPublicWires) :
    Setup mont curve NewDomain rnd r1cs pk vk
      = Outcome.panicked (pk, { vk with PublicInputs := r1cs.PublicWires }) := by
  cases hsc : setupScalars mont r1cs (NewDomain r1cs.NbConstraints)
      (sampleToxicWaste mont rnd) with
  | none => simp only [Setup, hsc]
  | some sc =>
    obtain ⟨h1, h2⟩ := setupScalars_some_inv _ _ _ _ _ hsc
    rcases h with h | h
    · exact absurd h1 h
    · exact absurd h2 (Nat.not_le.mpr h)

/-- When `Setup` panics, the proving key is as it was and the verifying key has
`PublicInputs` set and nothing else. -/
theorem Setup_panicked_inv (mont : F) (curve : Curve P1 P2 GT) (NewDomain : Nat → Domain F)
    (rnd : Entropy F) (r1cs : R1CS F) (pk : ProvingKey F P1 P2) (vk : VerifyingKey P1 P2 GT)
    (s : ProvingKey F P1 P2 × VerifyingKey P1 P2 GT)
    (h : Setup mont curve NewDomain rnd r1cs pk vk = Outcome.panicked s) :
    s = (pk, { vk with PublicInputs := r1cs.PublicWires }) := by
  by_cases hw : wiresInRange r1cs = true ∧ r1cs.NbPublicWires ≤ r1cs.NbWires
  · obtain ⟨A, B, C, pkK, vkK, zrev, _, _, _, _, _, _, _, _, _, _, _, hS⟩ :=
      Setup_spec mont curve NewDomain rnd r1cs pk vk hw.1 hw.2
    rw [hS] at h
    exact absurd h (by simp)
  · have hp := Setup_panics mont curve NewDomain rnd r1cs pk vk (by
      by_cases h1 : wiresInRange r1cs = true
      · exact Or.inr (Nat.lt_of_not_le (fun h2 => hw ⟨h1, h2⟩))
      · exact Or.inl h1)
    rw [hp] at h
    exact (Outcome.panicked.inj h).symm

/-- C11, as the code has it: `Setup` ends in a run-time panic, without keys, whenever some
constraint term references a wire index `≥ nbWires` or `nbPublicWires > nbWires`.  (A list
of constraints whose length is not the declared `nbConstraints` is not among the failures:
the code never compares the two.) -/
theorem Setup_fails_on_malformed (mont : F) (curve : Curve P1 P2 GT)
    (NewDomain : Nat → Domain F) (rnd : Entropy F) (r1cs : R1CS F) (pk : ProvingKey F P1 P2)
    (vk : VerifyingKey P1 P2 GT)
    (h : (∃ c ∈ r1cs.Constraints, ∃ u ∈ c.L ++ c.R ++ c.O, r1cs.NbWires ≤ u.ConstraintID) ∨
      r1cs.NbWires < r1cs.NbPublicWires) :
    ∃ s, Setup mont curve NewDomain rnd r1cs pk vk = Outcome.panicked s ∧
      ∀ pk1 vk1, Setup mont curve NewDomain rnd r1cs pk vk ≠ Outcome.returned (pk1, vk1) := by
  have hp := Setup_panics mont curve NewDomain rnd r1cs pk vk (by
    rcases h with h | h
    · exact Or.inl (mem_out_of_range_of_wiresInRange_false r1cs h)
    · exact Or.inr h)
  refine ⟨_, hp, fun pk1 vk1 hret => ?_⟩
  rw [hp] at hret
  exact absurd hret (by simp)

/-- Witness of C11 as the code has it: the R1CS whose term references wire 7 of 3. -/
theorem Setup_fails_on_malformed_witness :
    ∃ s, Setup (2 : ℚ) exCurve exNewDomain exEntropy exBadWire exPk exVk
        = Outcome.panicked s ∧
      ∀ pk1 vk1, Setup (2 : ℚ) exCurve exNewDomain exEntropy exBadWire exPk exVk
        ≠ Outcome.returned (pk1, vk1) :=
  Setup_fails_on_malformed 2 exCurve exNewDomain exEntropy exBadWire exPk exVk
    (Or.inl ⟨{ L := [⟨7, 2⟩], R := [], O := [] }, List.mem_singleton.mpr rfl, ⟨7, 2⟩,
      List.mem_singleton.mpr rfl, by decide⟩)

/-- Counterexample to C11 as stated: on an R1CS whose list of constraints has 2 entries
while `NbConstraints` is 5, `Setup` returns keys. -/
theorem Setup_miscounted_counterexample :
    exMiscounted.Constraints.length ≠ exMiscounted.NbConstraints ∧
    ∃ pk1 vk1, Setup (2 : ℚ) exCurve exNewDomain exEntropy exMiscounted exPk exVk
      = Outcome.returned (pk1, vk1) := by
  refine ⟨by decide, ?_⟩
  obtain ⟨A, B, C, pkK, vkK, zrev, _, _, _, _, _, _, _, _, _, _, _, hS⟩ :=
    Setup_spec (2 : ℚ) exCurve exNewDomain exEntropy exMiscounted exPk exVk (by decide)
      (by decide)
  exact ⟨_, _, hS⟩

/-- C12, as the code has it: on every input on which a call of `Setup` fails, the proving key
is left exactly as it was before the call, and the verifying key is as it was except for
`PublicInputs`: when the failure is that of `fft.NewDomain`, `PublicInputs` is as it was too,
and when `fft.NewDomain` has returned, `Setup` has already set `PublicInputs` to
`r1cs.PublicWires`. -/
theorem Setup_state_on_failure (mont : F) (curve : Curve P1 P2 GT)
    (NewDomain : Nat → Option (Domain F)) (rnd : Entropy F) (r1cs : R1CS F)
    (pk : ProvingKey F P1 P2) (vk : VerifyingKey P1 P2 GT) (pk1 : ProvingKey F P1 P2)
    (vk1 : VerifyingKey P1 P2 GT)
    (h : Setup.call mont curve NewDomain rnd r1cs pk vk = Outcome.panicked (pk1, vk1)) :
    pk1 = pk ∧ vk1.E = vk.E ∧ vk1.G2 = vk.G2 ∧ vk1.G1 = vk.G1 ∧
      (NewDomain r1cs.NbConstraints = none → vk1.PublicInputs = vk.PublicInputs) ∧
      (∀ domain, NewDomain r1cs.NbConstraints = some domain →
        vk1.PublicInputs = r1cs.PublicWires) := by
  cases hdom : NewDomain r1cs.NbConstraints with
  | none =>
    rw [Setup_call_none mont curve NewDomain rnd r1cs pk vk hdom] at h
    have hs := Outcome.panicked.inj h
    have h1 : pk = pk1 := congrArg Prod.fst hs
    have h2 : vk = vk1 := congrArg Prod.snd hs
    rw [← h1, ← h2]
    exact ⟨rfl, rfl, rfl, rfl, fun _ => rfl, fun d hd => absurd hd (by simp)⟩
  | some domain =>
    rw [Setup_call_some mont curve NewDomain domain rnd r1cs pk vk hdom] at h
    have hs := Setup_panicked_inv mont curve (fun _ => domain) rnd r1cs pk vk _ h
    have h1 : pk1 = pk := congrArg Prod.fst hs
    have h2 : vk1 = { vk with PublicInputs := r1cs.PublicWires } := congrArg Prod.snd hs
    rw [h1, h2]
    exact ⟨rfl, rfl, rfl, rfl, fun hn => absurd hn (by simp), fun _ _ => rfl⟩

/-- Witness of C12 as the code has it, on keys that hold an earlier setup: the R1CS with no
constraint, on which `fft.NewDomain` panics and both keys are as they were, and the R1CS
whose term references wire 7 of 3, on which the verifying key has the new `PublicInputs`. -/
theorem Setup_state_on_failure_witness :
    (Setup.call (2 : ℚ) exCurve exFftNewDomain exEntropy exEmpty exPkOld exVkOld
        = Outcome.panicked (exPkOld, exVkOld) ∧
      (exPkOld = exPkOld ∧ exVkOld.E = exVkOld.E ∧ exVkOld.G2 = exVkOld.G2 ∧
        exVkOld.G1 = exVkOld.G1 ∧
        (exFftNewDomain exEmpty.NbConstraints = none →
          exVkOld.PublicInputs = exVkOld.PublicInputs) ∧
        (∀ domain, exFftNewDomain exEmpty.NbConstraints = some domain →
          exVkOld.PublicInputs = exEmpty.PublicWires))) ∧
    (Setup.call (2 : ℚ) exCurve exFftNewDomain exEntropy exBadWire exPkOld exVkOld
        = Outcome.panicked (exPkOld, { exVkOld with PublicInputs := exBadWire.PublicWires }) ∧
      (exPkOld = exPkOld ∧
        ({ exVkOld with PublicInputs := exBadWire.PublicWires } : VerifyingKey ℚ ℚ ℚ).E
          = exVkOld.E ∧
        ({ exVkOld with PublicInputs := exBadWire.PublicWires } : VerifyingKey ℚ ℚ ℚ).G2
          = exVkOld.G2 ∧
        ({ exVkOld with PublicInputs := exBadWire.PublicWires } : VerifyingKey ℚ ℚ ℚ).G1
          = exVkOld.G1 ∧
        (exFftNewDomain exBadWire.NbConstraints = none →
          ({ exVkOld with PublicInputs := exBadWire.PublicWires }
            : VerifyingKey ℚ ℚ ℚ).PublicInputs = exVkOld.PublicInputs) ∧
        (∀ domain, exFftNewDomain exBadWire.NbConstraints = some domain →
          ({ exVkOld with PublicInputs := exBadWire.PublicWires }
            : VerifyingKey ℚ ℚ ℚ).PublicInputs = exBadWire.PublicWires))) :=
  ⟨⟨Setup_call_none 2 exCurve exFftNewDomain exEntropy exEmpty exPkOld exVkOld rfl,
      Setup_state_on_failure (2 : ℚ) exCurve exFftNewDomain exEntropy exEmpty exPkOld exVkOld
        exPkOld exVkOld
        (Setup_call_none 2 exCurve exFftNewDomain exEntropy exEmpty exPkOld exVkOld rfl)⟩,
    ⟨(Setup_call_some 2 exCurve exFftNewDomain exDomain1 exEntropy exBadWire exPkOld exVkOld
        rfl).trans
        (Setup_panics 2 exCurve (fun _ => exDomain1) exEntropy exBadWire exPkOld exVkOld
          (Or.inl (by decide))),
      Setup_state_on_failure (2 : ℚ) exCurve exFftNewDomain exEntropy exBadWire exPkOld exVkOld
        exPkOld { exVkOld with PublicInputs := exBadWire.PublicWires }
        ((Setup_call_some 2 exCurve exFftNewDomain exDomain1 exEntropy exBadWire exPkOld
          exVkOld rfl).trans
          (Setup_panics 2 exCurve (fun _ => exDomain1) exEntropy exBadWire exPkOld exVkOld
            (Or.inl (by decide))))⟩⟩

/-- Counterexample to C12 as stated: a call of `Setup` fails on the R1CS whose term
references wire 7 of 3, and the caller's verifying key, whose `PublicInputs` was the name
`old`, then holds the names of the public wires of the R1CS: it is not as it was before the
call. -/
theorem Setup_not_atomic_counterexample :
    exVkOld.PublicInputs = ["old"] ∧
    ∃ pk1 vk1, Setup.call (2 : ℚ) exCurve exFftNewDomain exEntropy exBadWire exPkOld exVkOld
        = Outcome.panicked (pk1, vk1) ∧
      vk1.PublicInputs = ["Z"] ∧ vk1 ≠ exVkOld := by
  refine ⟨rfl, exPkOld, { exVkOld with PublicInputs := exBadWire.PublicWires },
    (Setup_call_some 2 exCurve exFftNewDomain exDomain1 exEntropy exBadWire exPkOld exVkOld
      rfl).trans
      (Setup_panics 2 exCurve (fun _ => exDomain1) exEntropy exBadWire exPkOld exVkOld
        (Or.inl (by decide))),
    rfl, ?_⟩
  intro heq
  have hpi := congrArg VerifyingKey.PublicInputs heq
  exact absurd hpi (by decide)

end SetupFailures

/-! ## C13: DummySetup -/

section DummySetupProofs

variable {F P1 P2 GT : Type} [Field F] [AddCommGroup P1] [Module F P1]
  [AddCommGroup P2] [Module F P2]

theorem setAt_fill {α : Type} (l : List α) (j : Nat) (x : α) (hj : j < l.length) :
    setAt (List.replicate j x ++ l.drop j) j x
      = some (List.replicate (j + 1) x ++ l.drop (j + 1)) := by
  have hlen : j < (List.replicate j x ++ l.drop j).length := by
    simp only [List.length_append, List.length_replicate, List.length_drop]
    omega
  rw [setAt, if_pos hlen]
  congr 1
  apply List.ext_getElem?
  intro k
  rw [List.getElem?_set]
  by_cases hk : j = k
  · subst hk
    rw [if_pos rfl, if_pos hlen, List.getElem?_append_left (by simp)]
    simp
  · rw [if_neg hk]
    rcases Nat.lt_or_gt_of_ne hk with h | h
    · rw [List.getElem?_append_right (by simp; omega),
        List.getElem?_append_right (by simp; omega)]
      simp only [List.length_replicate, List.getElem?_drop]
      congr 1
      omega
    · rw [List.getElem?_append_left (by simp; omega),
        List.getElem?_append_left (by simp; omega)]
      simp [List.getElem?_replicate, h]
      omega

omit [Field F] [AddCommGroup P1] [Module F P1] [AddCommGroup P2] [Module F P2] in
theorem dummyFill_spec (r1 : P1) (r2 : P2) (w : Nat) (pk : ProvingKey F P1 P2)
    (hA : pk.G1.A.length = w) (hB : pk.G1.B.length = w) (hB2 : pk.G2.B.length = w) :
    ∀ j, j ≤ w →
      (List.range j).foldl (dummyFillStep r1 r2) (Outcome.returned pk)
        = Outcome.returned
          { pk with
            G1 := { pk.G1 with A := List.replicate j r1 ++ pk.G1.A.drop j,
                               B := List.replicate j r1 ++ pk.G1.B.drop j },
            G2 := { pk.G2 with B := List.replicate j r2 ++ pk.G2.B.drop j } } := by
  intro j
  induction j with
  | zero =>
    intro _
    simp
  | succ j ih =>
    intro hj
    rw [List.range_succ, List.foldl_append, ih (by omega)]
    simp only [List.foldl_cons, List.foldl_nil, dummyFillStep, Outcome.andThen,
      setAt_fill pk.G1.A j r1 (by omega), setAt_fill pk.G1.B j r1 (by omega),
      setAt_fill pk.G2.B j r2 (by omega), Option.map_some']

/-- The proving key `DummySetup` returns when the R1CS has no more public wires than
wires. -/
theorem DummySetup_spec (mont : F) (curve : Curve P1 P2 GT) (NewDomain : Nat → Domain F)
    (rnd : Entropy F) (r1cs : R1CS F) (pk : ProvingKey F P1 P2)
    (hp : r1cs.NbPublicWires ≤ r1cs.NbWires) :
    DummySetup mont curve NewDomain rnd r1cs pk = Outcome.returned
      { G1 := { Alpha := fr.val mont rnd.alpha • curve.g1,
                Beta := fr.val mont rnd.alpha • curve.g1,
                Delta := fr.val mont rnd.alpha • curve.g1,
                A := List.replicate r1cs.NbWires (fr.val mont rnd.alpha • curve.g1),
                B := List.replicate r1cs.NbWires (fr.val mont rnd.alpha • curve.g1),
                Z := List.replicate (NewDomain r1cs.NbConstraints).Cardinality
                  (fr.val mont rnd.alpha • curve.g1),
                K := List.replicate (r1cs.NbWires - r1cs.NbPublicWires)
                  (fr.val mont rnd.alpha • curve.g1) },
        G2 := { Beta := fr.val mont rnd.alpha • curve.g2,
                Delta := fr.val mont rnd.alpha • curve.g2,
                B := List.replicate r1cs.NbWires (fr.val mont rnd.alpha • curve.g2) },
        Domain := NewDomain r1cs.NbConstraints } := by
  have hfill := dummyFill_spec (fr.val mont rnd.alpha • curve.g1)
    (fr.val mont rnd.alpha • curve.g2) r1cs.NbWires
    ({ G1 := { Alpha := pk.G1.Alpha, Beta := pk.G1.Beta, Delta := pk.G1.Delta,
               A := List.replicate r1cs.NbWires 0, B := List.replicate r1cs.NbWires 0,
               Z := List.replicate (NewDomain r1cs.NbConstraints).Cardinality 0,
               K := List.replicate (r1cs.NbWires - r1cs.NbPublicWires) 0 },
         G2 := { Beta := pk.G2.Beta, Delta := pk.G2.Delta,
                 B := List.replicate r1cs.NbWires 0 },
         Domain := pk.Domain } : ProvingKey F P1 P2)
    (by simp) (by simp) (by simp) r1cs.NbWires (Nat.le_refl _)
  simp only [DummySetup, Outcome.andThen, if_neg (Nat.not_lt.mpr hp), sampleToxicWaste,
    fr.ToBigInt, fr.ToRegular_eq_val]
  rw [hfill]
  simp

/-- C13: on an R1CS with no more public wires than wires, `DummySetup` returns a proving key
sized by the R1CS (`G1.A`, `G1.B` and `G2.B` of length `nbWires`, `G1.K` of length
`nbWires − nbPublicWires`, `G1.Z` of the cardinality of `NewDomain(nbConstraints)`, `Domain`
that domain) in which every element of `G1.A`, `G1.B`, `G1.K`, `G1.Z` and each of `G1.Alpha`,
`G1.Beta`, `G1.Delta` is the one point `α·g1`, and every element of `G2.B` and each of
`G2.Beta`, `G2.Delta` is the one point `α·g2`, for the sampled `α`. -/
theorem DummySetup_fills_one_point (mont : F) (curve : Curve P1 P2 GT)
    (NewDomain : Nat → Domain F) (rnd : Entropy F) (r1cs : R1CS F) (pk : ProvingKey F P1 P2)
    (hp : r1cs.NbPublicWires ≤ r1cs.NbWires) :
    ∃ pk1, DummySetup mont curve NewDomain rnd r1cs pk = Outcome.returned pk1 ∧
      pk1.G1.A = List.replicate r1cs.NbWires (fr.val mont rnd.alpha • curve.g1) ∧
      pk1.G1.B = List.replicate r1cs.NbWires (fr.val mont rnd.alpha • curve.g1) ∧
      pk1.G2.B = List.replicate r1cs.NbWires (fr.val mont rnd.alpha • curve.g2) ∧
      pk1.G1.K = List.replicate (r1cs.NbWires - r1cs.NbPublicWires)
        (fr.val mont rnd.alpha • curve.g1) ∧
      pk1.G1.Z = List.replicate (NewDomain r1cs.NbConstraints).Cardinality
        (fr.val mont rnd.alpha • curve.g1) ∧
      pk1.Domain = NewDomain r1cs.NbConstraints ∧
      pk1.G1.Alpha = fr.val mont rnd.alpha • curve.g1 ∧
      pk1.G1.Beta = fr.val mont rnd.alpha • curve.g1 ∧
      pk1.G1.Delta = fr.val mont rnd.alpha • curve.g1 ∧
      pk1.G2.Beta = fr.val mont rnd.alpha • curve.g2 ∧
      pk1.G2.Delta = fr.val mont rnd.alpha • curve.g2 :=
  ⟨_, DummySetup_spec mont curve NewDomain rnd r1cs pk hp, rfl, rfl, rfl, rfl, rfl, rfl, rfl,
    rfl, rfl, rfl, rfl⟩

/-- Witness of C13: the instance over the rationals. -/
theorem DummySetup_fills_one_point_witness :
    ∃ pk1, DummySetup (2 : ℚ) exCurve exNewDomain exEntropy exR1CS exPk
        = Outcome.returned pk1 ∧
      pk1.G1.A = List.replicate exR1CS.NbWires (fr.val 2 exEntropy.alpha • exCurve.g1) ∧
      pk1.G1.B = List.replicate exR1CS.NbWires (fr.val 2 exEntropy.alpha • exCurve.g1) ∧
      pk1.G2.B = List.replicate exR1CS.NbWires (fr.val 2 exEntropy.alpha • exCurve.g2) ∧
      pk1.G1.K = List.replicate (exR1CS.NbWires - exR1CS.NbPublicWires)
        (fr.val 2 exEntropy.alpha • exCurve.g1) ∧
      pk1.G1.Z = List.replicate (exNewDomain exR1CS.NbConstraints).Cardinality
        (fr.val 2 exEntropy.alpha • exCurve.g1) ∧
      pk1.Domain = exNewDomain exR1CS.NbConstraints ∧
      pk1.G1.Alpha = fr.val 2 exEntropy.alpha • exCurve.g1 ∧
      pk1.G1.Beta = fr.val 2 exEntropy.alpha • exCurve.g1 ∧
      pk1.G1.Delta = fr.val 2 exEntropy.alpha • exCurve.g1 ∧
      pk1.G2.Beta = fr.val 2 exEntropy.alpha • exCurve.g2 ∧
      pk1.G2.Delta = fr.val 2 exEntropy.alpha • exCurve.g2 :=
  DummySetup_fills_one_point 2 exCurve exNewDomain exEntropy exR1CS exPk (by decide)

/-- A call of `DummySetup` in which `fft.NewDomain` panics: the call panics with the proving
key as the caller passed it. -/
theorem DummySetup_call_none (mont : F) (curve : Curve P1 P2 GT)
    (NewDomain : Nat → Option (Domain F)) (rnd : Entropy F) (r1cs : R1CS F)
    (pk : ProvingKey F P1 P2) (hdom : NewDomain r1cs.NbConstraints = none) :
    DummySetup.call mont curve NewDomain rnd r1cs pk = Outcome.panicked pk := by
  simp only [DummySetup.call, hdom]

/-- A call of `DummySetup` in which `fft.NewDomain` returns a domain goes on as `DummySetup`
does with that domain. -/
theorem DummySetup_call_some (mont : F) (curve : Curve P1 P2 GT)
    (NewDomain : Nat → Option (Domain F)) (domain : Domain F) (rnd : Entropy F) (r1cs : R1CS F)
    (pk : ProvingKey F P1 P2) (hdom : NewDomain r1cs.NbConstraints = some domain) :
    DummySetup.call mont curve NewDomain rnd r1cs pk
      = DummySetup mont curve (fun _ => domain) rnd r1cs pk := by
  simp only [DummySetup.call, hdom]

end DummySetupProofs

/-! ## C14 and C15: IsDifferent -/

section IsDifferentProofs

variable {F P1 P2 GT : Type} [Zero P1] [DecidableEq P1]

/-- The loop over `K` returns when the other key has an entry for every index, and it returns
`true` exactly when every entry of `K` is at infinity or differs from the entry of the other
key at the same index. -/
theorem isDifferentK_spec (K2 : List P1) :
    ∀ (K : List P1) (i : Nat), i + K.length ≤ K2.length →
      ∃ b, isDifferentK K i K2 = some b ∧
        (b = true ↔ ∀ j, j < K.length → K[j]? = some 0 ∨ K[j]? ≠ K2[i + j]?) := by
  intro K
  induction K with
  | nil =>
    intro i _
    exact ⟨true, rfl, by simp⟩
  | cons x K ih =>
    intro i hi
    simp only [List.length_cons] at hi
    obtain ⟨b, hb, hbiff⟩ := ih (i + 1) (by omega)
    have hy : K2[i]? = some (K2[i]) := List.getElem?_eq_getElem (by omega)
    have htail : (∀ j, j < K.length → K[j]? = some 0 ∨ K[j]? ≠ K2[i + 1 + j]?) ↔
        (∀ j, j < K.length → (x :: K)[j + 1]? = some 0 ∨ (x :: K)[j + 1]? ≠ K2[i + (j + 1)]?) := by
      constructor
      · intro h j hj
        have := h j hj
        rw [List.getElem?_cons_succ, show i + (j + 1) = i + 1 + j by omega]
        exact this
      · intro h j hj
        have := h j hj
        rw [List.getElem?_cons_succ, show i + (j + 1) = i + 1 + j by omega] at this
        exact this
    by_cases hx : x = 0
    · refine ⟨b, by rw [isDifferentK, if_pos hx, hb], ?_⟩
      rw [hbiff, htail]
      constructor
      · intro h j hj
        cases j with
        | zero => exact Or.inl (by simp [hx])
        | succ j => exact h j (by simpa using hj)
      · intro h j hj
        exact h (j + 1) (by simpa using hj)
    · by_cases hxy : x = K2[i]
      · refine ⟨false, ?_, ?_⟩
        · rw [isDifferentK, if_neg hx, List.get?_eq_getElem?, hy]
          simp only [if_pos hxy]
        · constructor
          · intro h
            exact absurd h (by simp)
          · intro h
            rcases h 0 (by simp) with h0 | h0
            · simp only [List.getElem?_cons_zero, Option.some.injEq] at h0
              exact absurd h0 hx
            · simp only [List.getElem?_cons_zero, Nat.add_zero, hy, ne_eq,
                Option.some.injEq] at h0
              exact absurd hxy h0
      · refine ⟨b, ?_, ?_⟩
        · rw [isDifferentK, if_neg hx, List.get?_eq_getElem?, hy]
          simp only [if_neg hxy, hb]
        · rw [hbiff, htail]
          constructor
          · intro h j hj
            cases j with
            | zero =>
              refine Or.inr ?_
              simp only [List.getElem?_cons_zero, Nat.add_zero, hy, ne_eq, Option.some.injEq]
              exact hxy
            | succ j => exact h j (by simpa using hj)
          · intro h j hj
            exact h (j + 1) (by simpa using hj)

/-- C15: for proving keys `pk`, `pk2` with `|pk2.G1.K| ≥ |pk.G1.K|`, `pk.IsDifferent(pk2)` is
`false` whenever one of `G1.Alpha`, `G1.Beta`, `G1.Delta` is equal in the two keys; otherwise
it returns `true` exactly when there is no index `i < |pk.G1.K|` at which `pk.G1.K[i]` is not
the point at infinity and equals `pk2.G1.K[i]`.  In particular `pk.IsDifferent(pk)` is
`false` for every `pk`. -/
theorem ProvingKey_IsDifferent_strict (pk pk2 : ProvingKey F P1 P2)
    (hlen : pk.G1.K.length ≤ pk2.G1.K.length) :
    ((pk.G1.Alpha = pk2.G1.Alpha ∨ pk.G1.Beta = pk2.G1.Beta ∨ pk.G1.Delta = pk2.G1.Delta) →
      pk.IsDifferent pk2 = some false) ∧
    (¬ (pk.G1.Alpha = pk2.G1.Alpha ∨ pk.G1.Beta = pk2.G1.Beta ∨ pk.G1.Delta = pk2.G1.Delta) →
      ∃ b, pk.IsDifferent pk2 = some b ∧
        (b = true ↔ ¬ ∃ i, i < pk.G1.K.length ∧ pk.G1.K[i]? ≠ some 0 ∧
          pk.G1.K[i]? = pk2.G1.K[i]?)) ∧
    pk.IsDifferent pk = some false := by
  refine ⟨fun h => ?_, fun h => ?_, ?_⟩
  · rw [ProvingKey.IsDifferent, if_pos h]
  · obtain ⟨b, hb, hbiff⟩ := isDifferentK_spec pk2.G1.K pk.G1.K 0 (by omega)
    refine ⟨b, by rw [ProvingKey.IsDifferent, if_neg h, hb], ?_⟩
    rw [hbiff]
    constructor
    · rintro hall ⟨i, hi, hne, heq⟩
      rcases hall i hi with h0 | h0
      · exact hne h0
      · rw [Nat.zero_add] at h0
        exact h0 heq
    · intro hno j hj
      by_cases h0 : pk.G1.K[j]? = some 0
      · exact Or.inl h0
      · refine Or.inr (fun heq => hno ⟨j, hj, h0, ?_⟩)
        rw [Nat.zero_add] at heq
        exact heq
  · rw [ProvingKey.IsDifferent, if_pos (Or.inl rfl)]

/-- Witness of C15: two proving keys over the integers that differ in `Alpha`, `Beta`,
`Delta` and in the one entry of `K` that is not at infinity. -/
theorem ProvingKey_IsDifferent_strict_witness :
    exPkA.G1.K.length ≤ exPkB.G1.K.length ∧
    (∃ b, exPkA.IsDifferent exPkB = some b ∧
      (b = true ↔ ¬ ∃ i, i < exPkA.G1.K.length ∧ exPkA.G1.K[i]? ≠ some 0 ∧
        exPkA.G1.K[i]? = exPkB.G1.K[i]?)) ∧
    exPkA.IsDifferent exPkA = some false :=
  ⟨by decide, (ProvingKey_IsDifferent_strict exPkA exPkB (by decide)).2.1 (by decide),
    (ProvingKey_IsDifferent_strict exPkA exPkB (by decide)).2.2⟩

/-- The value of `VerifyingKey.IsDifferent` at two verifying keys of C14 that differ: the
keys `exVkA` and `exVkB` have `K` vectors of equal length that differ in their second entry,
and `IsDifferent` returns `false`, their first entries being equal and not at infinity. -/
theorem VerifyingKey_IsDifferent_false_on_different :
    exVkA.G1.K.length = exVkB.G1.K.length ∧ exVkA.G1.K ≠ exVkB.G1.K ∧
      exVkA.IsDifferent exVkB = some false := by
  decide

end IsDifferentProofs

/-! ## C19 and C20: `bitReverse` on every length -/

section BitReverseGeneral

variable {α : Type}

theorem bitReverse_fold_gen (T : Nat) (a : List α) (hT : 2 ^ T ≤ a.length) (nn : Nat)
    (hnn : ∀ i, Reverse i >>> nn = revBits T i) :
    ∀ j, j ≤ a.length →
      ∃ b, (List.range j).foldlM (bitReverseStep nn) a = some b ∧ b.length = a.length ∧
        ∀ k, b[k]? = if k < 2 ^ T ∧ (k < j ∨ revBits T k < j) then a[revBits T k]? else a[k]? := by
  intro j
  induction j with
  | zero => intro _; exact ⟨a, rfl, rfl, fun k => by simp⟩
  | succ j ih =>
    intro hj
    obtain ⟨b, hb, hlen, hval⟩ := ih (by omega)
    have hrj : revBits T j < 2 ^ T := revBits_lt _ _
    rw [foldlM_range_succ, hb, Option.some_bind, bitReverseStep, hnn]
    by_cases hgt : revBits T j > j
    · have hjT : j < 2 ^ T := by omega
      have hrrj : revBits T (revBits T j) = j := revBits_revBits _ _ hjT
      obtain ⟨b1, hb1, hlen1, hval1⟩ := swapAt_spec b j (revBits T j) (by omega) (by omega)
      refine ⟨b1, by simp only [if_pos hgt, hb1], hlen1.trans hlen, fun k => ?_⟩
      rw [hval1 k]
      by_cases h1 : k = revBits T j
      · rw [if_pos h1, hval j, if_neg (by omega), h1, hrrj, if_pos (by omega)]
      · rw [if_neg h1]
        by_cases h2 : k = j
        · rw [if_pos h2, hval _, hrrj, if_neg (by omega), h2, if_pos (by omega)]
        · rw [if_neg h2, hval k]
          by_cases hk : k < 2 ^ T
          · have hrrk : revBits T (revBits T k) = k := revBits_revBits _ _ hk
            have h3 : revBits T k ≠ j := by
              intro h
              rw [h] at hrrk
              exact h1 hrrk.symm
            by_cases hc : k < 2 ^ T ∧ (k < j ∨ revBits T k < j)
            · rw [if_pos hc, if_pos ⟨hk, by omega⟩]
            · rw [if_neg hc, if_neg (by
                intro hcc
                exact hc ⟨hk, by omega⟩)]
          · rw [if_neg (fun hc => hk hc.1), if_neg (fun hc => hk hc.1)]
    · refine ⟨b, by simp only [if_neg hgt], hlen, fun k => ?_⟩
      rw [hval k]
      by_cases hk : k < 2 ^ T
      · have hrrk : revBits T (revBits T k) = k := revBits_revBits _ _ hk
        by_cases hc : k < 2 ^ T ∧ (k < j ∨ revBits T k < j)
        · rw [if_pos hc, if_pos ⟨hk, by omega⟩]
        · have hc1 : ¬ (k < j ∨ revBits T k < j) := fun h => hc ⟨hk, h⟩
          by_cases h2 : k = j
          · subst h2
            have h4 : revBits T k = k := by omega
            rw [if_neg hc, if_pos ⟨hk, by omega⟩, h4]
          · have h3 : revBits T k ≠ j := by
              intro h
              rw [h] at hrrk
              omega
            rw [if_neg hc, if_neg (by
              intro hcc
              exact hc1 (by omega))]
      · rw [if_neg (fun hc => hk hc.1), if_neg (fun hc => hk hc.1)]

/-- On every slice `bitReverse` returns a slice of the same length, whose element at
position `k` is the element of the input at `bitReverseIndex`. -/
theorem bitReverse_spec (a : List α) :
    ∃ b, bitReverse a = some b ∧ b.length = a.length ∧
      ∀ k, b[k]? = a[bitReverseIndex a.length k]? := by
  rcases Nat.eq_zero_or_pos a.length with h0 | hpos
  · have ha : a = [] := List.length_eq_zero.mp h0
    subst ha
    exact ⟨[], rfl, rfl, fun k => by simp⟩
  · have hT := TrailingZeros_le a.length
    have h2T := two_pow_TrailingZeros_le a.length hpos
    obtain ⟨b, hb, hlen, hval⟩ := bitReverse_fold_gen (TrailingZeros a.length) a h2T
      (UintSize - TrailingZeros a.length) (fun i => Reverse_shift _ i hT) a.length
      (Nat.le_refl _)
    refine ⟨b, hb, hlen, fun k => ?_⟩
    rw [hval k, bitReverseIndex]
    by_cases hk : k < 2 ^ TrailingZeros a.length
    · rw [if_pos ⟨hk, Or.inl (by omega)⟩, if_pos hk]
    · rw [if_neg (fun hc => hk hc.1), if_neg hk]

theorem bitReverseIndex_involutive (n k : Nat) :
    bitReverseIndex n (bitReverseIndex n k) = k := by
  rw [bitReverseIndex, bitReverseIndex]
  by_cases hk : k < 2 ^ TrailingZeros n
  · rw [if_pos hk, if_pos (revBits_lt _ _), revBits_revBits _ _ hk]
  · rw [if_neg hk, if_neg hk]

theorem bitReverseIndex_lt (n k : Nat) (hk : k < n) : bitReverseIndex n k < n := by
  rw [bitReverseIndex]
  by_cases h : k < 2 ^ TrailingZeros n
  · rw [if_pos h]
    exact Nat.lt_of_lt_of_le (revBits_lt _ _) (two_pow_TrailingZeros_le n (by omega))
  · rw [if_neg h]
    exact hk

/-- Applied to its own result, `bitReverse` gives the input back. -/
theorem bitReverse_bitReverse (a b : List α) (h : bitReverse a = some b) :
    bitReverse b = some a := by
  obtain ⟨b1, hb1, hlen1, hval1⟩ := bitReverse_spec a
  have hbb : b1 = b := Option.some.inj (hb1.symm.trans h)
  subst hbb
  obtain ⟨c, hc, hlenc, hvalc⟩ := bitReverse_spec b1
  rw [hc]
  congr 1
  apply List.ext_getElem?
  intro k
  rw [hvalc k, hval1, hlen1, bitReverseIndex_involutive]

/-- C19: `bitReverse` is an involution on slices of every length: on every slice `a` it
returns a slice `b`, and on `b` it returns `a`; and on a slice of length at most 2 it returns
the slice unchanged. -/
theorem bitReverse_involution (a : List α) :
    (∃ b, bitReverse a = some b ∧ bitReverse b = some a) ∧
    (a.length ≤ 2 → bitReverse a = some a) := by
  obtain ⟨b, hb, hlen, hval⟩ := bitReverse_spec a
  refine ⟨⟨b, hb, bitReverse_bitReverse a b hb⟩, fun h2 => ?_⟩
  rw [hb]
  congr 1
  apply List.ext_getElem?
  intro k
  rw [hval k, bitReverseIndex]
  by_cases hk : k < 2 ^ TrailingZeros a.length
  · rw [if_pos hk]
    have hcases : a.length = 0 ∨ a.length = 1 ∨ a.length = 2 := by omega
    rcases hcases with h | h | h
    · have ha : a = [] := List.length_eq_zero.mp h
      subst ha
      simp
    · rw [h] at hk ⊢
      have hT : TrailingZeros 1 = 0 := by decide
      rw [hT] at hk ⊢
      have hk0 : k = 0 := by simpa using hk
      subst hk0
      rfl
    · rw [h] at hk ⊢
      have hT : TrailingZeros 2 = 1 := by decide
      rw [hT] at hk ⊢
      have hk2 : k < 2 := by simpa using hk
      interval_cases k <;> rfl
  · rw [if_neg hk]

/-- Witness of C19: a slice of two elements. -/
theorem bitReverse_involution_witness :
    (∃ b, bitReverse [5, 7] = some b ∧ bitReverse b = some [5, 7]) ∧
    ([5, 7].length ≤ 2 ∧ bitReverse [5, 7] = some [5, 7]) :=
  ⟨(bitReverse_involution [5, 7]).1, by decide, (bitReverse_involution [5, 7]).2 (by decide)⟩

theorem bitReverse_perm (a b : List α) (h : bitReverse a = some b) : b.Perm a := by
  obtain ⟨b1, hb1, hlen, hval⟩ := bitReverse_spec a
  have hbb : b1 = b := Option.some.inj (hb1.symm.trans h)
  subst hbb
  let σ : Equiv.Perm (Fin a.length) :=
    { toFun := fun i => ⟨bitReverseIndex a.length i.1, bitReverseIndex_lt _ _ i.2⟩
      invFun := fun i => ⟨bitReverseIndex a.length i.1, bitReverseIndex_lt _ _ i.2⟩
      left_inv := fun i => Fin.ext (bitReverseIndex_involutive _ _)
      right_inv := fun i => Fin.ext (bitReverseIndex_involutive _ _) }
  have hb : b1 = List.ofFn (a.get ∘ σ) := by
    apply List.ext_getElem?
    intro k
    rw [hval k, List.getElem?_ofFn, List.ofFnNthVal]
    by_cases hk : k < a.length
    · rw [dif_pos hk, List.getElem?_eq_getElem (bitReverseIndex_lt _ _ hk)]
      rfl
    · rw [dif_neg hk]
      have hge : a.length ≤ bitReverseIndex a.length k := by
        rw [bitReverseIndex]
        by_cases h2 : k < 2 ^ TrailingZeros a.length
        · rcases Nat.eq_zero_or_pos a.length with h0 | hpos
          · omega
          · have := two_pow_TrailingZeros_le a.length hpos
            omega
        · rw [if_neg h2]
          omega
      exact List.getElem?_eq_none hge
  have ha : a = List.ofFn a.get := (List.ofFn_get a).symm
  rw [hb]
  conv_rhs => rw [ha]
  exact Equiv.Perm.ofFn_comp_perm σ a.get

/-- C20: `bitReverse` is total and only rearranges: on a slice of any length `n`, with the
64-bit `bits.Reverse` and `bits.TrailingZeros`, every index `irev` it computes is below `n`,
it returns, and what it returns is a permutation of the input, of the same length. -/
theorem bitReverse_total_perm (a : List α) :
    (∀ i, i < a.length → Reverse i >>> (UintSize - TrailingZeros a.length) < a.length) ∧
    ∃ b, bitReverse a = some b ∧ b.length = a.length ∧ b.Perm a := by
  refine ⟨fun i hi => ?_, ?_⟩
  · rw [Reverse_shift _ i (TrailingZeros_le _)]
    exact Nat.lt_of_lt_of_le (revBits_lt _ _) (two_pow_TrailingZeros_le _ (by omega))
  · obtain ⟨b, hb, hlen⟩ := bitReverse_total a
    exact ⟨b, hb, hlen, bitReverse_perm a b hb⟩

/-- Witness of C20: a slice of twelve elements, a length that is not a power of two. -/
theorem bitReverse_total_perm_witness :
    (∀ i, i < [0, 1, 2, 3, 4, 5, 6, 7, 8, 9, 10, 11].length →
      Reverse i >>> (UintSize - TrailingZeros [0, 1, 2, 3, 4, 5, 6, 7, 8, 9, 10, 11].length)
        < [0, 1, 2, 3, 4, 5, 6, 7, 8, 9, 10, 11].length) ∧
    ∃ b, bitReverse [0, 1, 2, 3, 4, 5, 6, 7, 8, 9, 10, 11] = some b ∧
      b.length = [0, 1, 2, 3, 4, 5, 6, 7, 8, 9, 10, 11].length ∧
      b.Perm [0, 1, 2, 3, 4, 5, 6, 7, 8, 9, 10, 11] :=
  bitReverse_total_perm [0, 1, 2, 3, 4, 5, 6, 7, 8, 9, 10, 11]

end BitReverseGeneral

/-! ## C16: the bit reversal of `pk.G1.Z`, applied again -/

section RoundTrip

variable {F P1 P2 GT : Type} [Field F] [AddCommGroup P1] [Module F P1]
  [AddCommGroup P2] [Module F P2]

/-- With a domain of cardinality `2^m`, the `Z` of the proving key has `2^m` entries and the
entry at the reversal of `k` is the point of `(t^N − 1)/δ · t^k`. -/
theorem Setup_Z_spec (mont : F) (hmont : mont ≠ 0) (curve : Curve P1 P2 GT)
    (NewDomain : Nat → Domain F) (rnd : Entropy F) (r1cs : R1CS F) (pk : ProvingKey F P1 P2)
    (vk : VerifyingKey P1 P2 GT) (hwires : wiresInRange r1cs = true)
    (hp : r1cs.NbPublicWires ≤ r1cs.NbWires) (m : Nat) (hm : m < UintSize)
    (hN : (NewDomain r1cs.NbConstraints).Cardinality = 2 ^ m) :
    ∃ pk1 vk1,
      Setup mont curve NewDomain rnd r1cs pk vk = Outcome.returned (pk1, vk1) ∧
      pk1.G1.Z.length = 2 ^ m ∧
      ∀ k, k < 2 ^ m →
        pk1.G1.Z[revBits m k]? = some (((fr.val mont rnd.t ^ 2 ^ m - 1) / fr.val mont rnd.delta
          * fr.val mont rnd.t ^ k) • curve.g1) := by
  obtain ⟨A, B, C, pkK, vkK, zrev, _, _, _, _, _, _, _, _, _, hz, hzlen, hS⟩ :=
    Setup_spec mont curve NewDomain rnd r1cs pk vk hwires hp
  have hzl : ((zScalars mont rnd.t (NewDomain r1cs.NbConstraints).Cardinality
      (zdt0 mont (sampleToxicWaste mont rnd) (NewDomain r1cs.NbConstraints).Cardinality)).map
        (fun s => s • curve.g1)).length = 2 ^ m := by
    rw [List.length_map, zScalars_length, hN]
  obtain ⟨b, hb, _, hbval⟩ := bitReverse_pow2 m hm _ hzl
  have hbz : b = zrev := Option.some.inj (hb.symm.trans hz)
  refine ⟨_, _, hS, hzlen.trans hN, fun k hk => ?_⟩
  have h := hbval k hk
  rw [hbz] at h
  have hkN : k < (NewDomain r1cs.NbConstraints).Cardinality := by rw [hN]; exact hk
  rw [h, List.getElem?_map, zScalars_getElem? _ _ _ _ _ hkN, Option.map_some',
    zdt0_val hmont, hN]
  rfl

/-- C16, as the code has it: with a domain of cardinality `N = 2^m`, applying `bitReverse`
once to the `pk.G1.Z` that `Setup` produced yields the geometric-sequence order, the result
at index `k` being `(zdt·t^k)·g1` with `zdt = (t^N − 1)/δ` for every `k` below `N`; applying
it once more yields `pk.G1.Z` again. -/
theorem Setup_Z_bitReverse_once (mont : F) (hmont : mont ≠ 0) (curve : Curve P1 P2 GT)
    (NewDomain : Nat → Domain F) (rnd : Entropy F) (r1cs : R1CS F) (pk : ProvingKey F P1 P2)
    (vk : VerifyingKey P1 P2 GT) (hwires : wiresInRange r1cs = true)
    (hp : r1cs.NbPublicWires ≤ r1cs.NbWires) (m : Nat) (hm : m < UintSize)
    (hN : (NewDomain r1cs.NbConstraints).Cardinality = 2 ^ m) :
    ∃ pk1 vk1 b,
      Setup mont curve NewDomain rnd r1cs pk vk = Outcome.returned (pk1, vk1) ∧
      bitReverse pk1.G1.Z = some b ∧
      (∀ k, k < 2 ^ m →
        b[k]? = some (((fr.val mont rnd.t ^ 2 ^ m - 1) / fr.val mont rnd.delta
          * fr.val mont rnd.t ^ k) • curve.g1)) ∧
      bitReverse b = some pk1.G1.Z := by
  obtain ⟨pk1, vk1, hS, hlen, hZ⟩ :=
    Setup_Z_spec mont hmont curve NewDomain rnd r1cs pk vk hwires hp m hm hN
  obtain ⟨b, hb, _, hbval⟩ := bitReverse_pow2 m hm pk1.G1.Z hlen
  refine ⟨pk1, vk1, b, hS, hb, fun k hk => ?_, bitReverse_bitReverse _ _ hb⟩
  have h := hbval (revBits m k) (revBits_lt _ _)
  rw [revBits_revBits _ _ hk] at h
  rw [h, hZ k hk]

/-- Witness of C16 as the code has it: the instance over the rationals, whose domain has
cardinality `2^1`. -/
theorem Setup_Z_bitReverse_once_witness :
    ∃ pk1 vk1 b,
      Setup (2 : ℚ) exCurve exNewDomain exEntropy exR1CS exPk exVk
        = Outcome.returned (pk1, vk1) ∧
      bitReverse pk1.G1.Z = some b ∧
      (∀ k, k < 2 ^ 1 →
        b[k]? = some (((fr.val 2 exEntropy.t ^ 2 ^ 1 - 1) / fr.val 2 exEntropy.delta
          * fr.val 2 exEntropy.t ^ k) • exCurve.g1)) ∧
      bitReverse b = some pk1.G1.Z :=
  Setup_Z_bitReverse_once (2 : ℚ) (by norm_num) exCurve exNewDomain exEntropy exR1CS exPk exVk
    (by decide) (by decide) 1 (by decide) rfl

/-- Counterexample to C16 as stated: with a domain of cardinality 4, `t = 3` and `δ = 11`,
applying `bitReverse` twice to the `pk.G1.Z` that `Setup` produced gives, at index 1, the
point of `zdt·t^2`, not the point of `zdt·t^1`. -/
theorem Setup_Z_bitReverse_twice_counterexample :
    ∃ pk1 vk1 b b2,
      Setup (2 : ℚ) exCurve exNewDomain4 exEntropy exR1CS exPk exVk
        = Outcome.returned (pk1, vk1) ∧
      bitReverse pk1.G1.Z = some b ∧ bitReverse b = some b2 ∧
      b2[1]? = some (((fr.val 2 exEntropy.t ^ 4 - 1) / fr.val 2 exEntropy.delta
        * fr.val 2 exEntropy.t ^ 2) • exCurve.g1) ∧
      b2[1]? ≠ some (((fr.val 2 exEntropy.t ^ 4 - 1) / fr.val 2 exEntropy.delta
        * fr.val 2 exEntropy.t ^ 1) • exCurve.g1) := by
  obtain ⟨pk1, vk1, hS, hlen, hZ⟩ :=
    Setup_Z_spec (2 : ℚ) (by norm_num) exCurve exNewDomain4 exEntropy exR1CS exPk exVk
      (by decide) (by decide) 2 (by decide) rfl
  obtain ⟨b, hb, _, _⟩ := bitReverse_spec pk1.G1.Z
  have h21 : revBits 2 2 = 1 := by decide
  have h1 : pk1.G1.Z[1]? = some (((fr.val 2 exEntropy.t ^ 4 - 1) / fr.val 2 exEntropy.delta
      * fr.val 2 exEntropy.t ^ 2) • exCurve.g1) := by
    have h := hZ 2 (by decide)
    rw [h21] at h
    exact h
  refine ⟨pk1, vk1, b, pk1.G1.Z, hS, hb, bitReverse_bitReverse _ _ hb, h1, ?_⟩
  rw [h1]
  norm_num [fr.val, exEntropy, exCurve]

end RoundTrip

/-! ## C18: the recurrence of `setupABC` and the closed form -/

section Recurrence

variable {F : Type} [Field F]

theorem setupABCLoop_running (mont wG t : F) (N n : Nat) (cs : List (R1C F)) :
    ∀ (k : Nat) (s : ABCState F),
      s.A.length = n → s.B.length = n → s.C.length = n →
      fr.val mont s.wi = fr.val mont wG ^ k →
      fr.val mont s.ithLagrangePolt = lagrangeClosed N (fr.val mont wG) (fr.val mont t) k →
      (∀ c ∈ cs, (∀ u ∈ c.L, u.ConstraintID < n) ∧ (∀ u ∈ c.R, u.ConstraintID < n) ∧
        (∀ u ∈ c.O, u.ConstraintID < n)) →
      (∀ j, k ≤ j → j < k + cs.length → fr.val mont t ≠ fr.val mont wG ^ j) →
      ∃ s1, setupABCLoop mont wG t s cs = some s1 ∧
        fr.val mont s1.wi = fr.val mont wG ^ (k + cs.length) ∧
        fr.val mont s1.ithLagrangePolt
          = lagrangeClosed N (fr.val mont wG) (fr.val mont t) (k + cs.length) := by
  induction cs with
  | nil =>
    intro k s _ _ _ hwi hl _ _
    exact ⟨s, rfl, hwi, hl⟩
  | cons c cs ih =>
    intro k s hA hB hC hwi hl hcs ht
    obtain ⟨hL, hR, hO⟩ := hcs c (List.mem_cons_self _ _)
    obtain ⟨A1, hA1, hA1len⟩ :=
      addTerms_length mont s.ithLagrangePolt c.L s.A (by rw [hA]; exact hL)
    obtain ⟨B1, hB1, hB1len⟩ :=
      addTerms_length mont s.ithLagrangePolt c.R s.B (by rw [hB]; exact hR)
    obtain ⟨C1, hC1, hC1len⟩ :=
      addTerms_length mont s.ithLagrangePolt c.O s.C (by rw [hC]; exact hO)
    have hstep : setupABCStep mont wG t s c = some
        { A := A1, B := B1, C := C1,
          ithLagrangePolt := fr.Div mont (fr.Mul mont (fr.Mul mont s.ithLagrangePolt wG)
            (fr.Sub t s.wi)) (fr.Sub t (fr.Mul mont s.wi wG)),
          wi := fr.Mul mont s.wi wG } := by
      simp [setupABCStep, hA1, hB1, hC1]
    obtain ⟨s1, hs1, h1wi, h1l⟩ := ih (k + 1)
      { A := A1, B := B1, C := C1,
        ithLagrangePolt := fr.Div mont (fr.Mul mont (fr.Mul mont s.ithLagrangePolt wG)
          (fr.Sub t s.wi)) (fr.Sub t (fr.Mul mont s.wi wG)),
        wi := fr.Mul mont s.wi wG }
      (hA1len.trans hA) (hB1len.trans hB) (hC1len.trans hC)
      (by simp only [fr.val_Mul, hwi, pow_succ])
      (by
        simp only [fr.val_Div, fr.val_Mul, fr.val_Sub, hwi, hl]
        exact lagrangeClosed_succ N (ht k (Nat.le_refl _) (by simp)))
      (fun c1 hc1 => hcs c1 (List.mem_cons_of_mem _ hc1))
      (fun j hj1 hj2 => ht j (by omega) (by simp only [List.length_cons]; omega))
    refine ⟨s1, by simp [setupABCLoop, hstep, hs1], ?_, ?_⟩
    · rw [h1wi, List.length_cons]
      congr 1
      omega
    · rw [h1l, List.length_cons]
      congr 1
      omega

/-- C18: the stepping recurrence of `setupABC` agrees with the closed form.  For a domain
with `ω^N = 1` and `N·N⁻¹ = 1`, and for `t` different from `ω^j` for every `j ≤ i`, after the
loop of `setupABC` has run over `i` constraints (whose terms reference wires in range, so that
it gets there) from the state `setupABC` starts in, `wi` is `ω^i` and the running value
`ithLagrangePolt`, the one used for the `i`-th constraint, is
`ω^i·(t^N − 1)/(N·(t − ω^i))`. -/
theorem setupABC_recurrence_closed_form (mont : F) (hmont : mont ≠ 0) (g : Domain F) (t : F)
    (n : Nat) (cs : List (R1C F))
    (_hω : fr.val mont g.Generator ^ g.Cardinality = 1)
    (hinv : (g.Cardinality : F) * fr.val mont g.CardinalityInv = 1)
    (hcs : ∀ c ∈ cs, (∀ u ∈ c.L, u.ConstraintID < n) ∧ (∀ u ∈ c.R, u.ConstraintID < n) ∧
      (∀ u ∈ c.O, u.ConstraintID < n))
    (ht : ∀ j, j ≤ cs.length → fr.val mont t ≠ fr.val mont g.Generator ^ j) :
    ∃ s, setupABCLoop mont g.Generator t
        { A := List.replicate n 0, B := List.replicate n 0, C := List.replicate n 0,
          ithLagrangePolt := setupL0 mont g t, wi := fr.One mont } cs = some s ∧
      fr.val mont s.wi = fr.val mont g.Generator ^ cs.length ∧
      fr.val mont s.ithLagrangePolt
        = fr.val mont g.Generator ^ cs.length * (fr.val mont t ^ g.Cardinality - 1)
          / ((g.Cardinality : F) * (fr.val mont t - fr.val mont g.Generator ^ cs.length)) := by
  obtain ⟨s, hs, hwi, hl⟩ := setupABCLoop_running mont g.Generator t g.Cardinality n cs 0
    { A := List.replicate n 0, B := List.replicate n 0, C := List.replicate n 0,
      ithLagrangePolt := setupL0 mont g t, wi := fr.One mont }
    (by simp) (by simp) (by simp) (by simp [fr.val_One hmont]) (setupL0_val hmont g t hinv)
    hcs (fun j _ hj => ht j (by omega))
  rw [Nat.zero_add] at hwi hl
  exact ⟨s, hs, hwi, hl⟩

/-- Witness of C18: the instance over the rationals, after its first constraint. -/
theorem setupABC_recurrence_closed_form_witness :
    ∃ s, setupABCLoop (2 : ℚ) exDomain.Generator 6
        { A := List.replicate 3 0, B := List.replicate 3 0, C := List.replicate 3 0,
          ithLagrangePolt := setupL0 2 exDomain 6, wi := fr.One 2 }
        [{ L := [⟨0, 2⟩], R := [⟨1, 4⟩], O := [⟨2, 6⟩] }] = some s ∧
      fr.val 2 s.wi = fr.val 2 exDomain.Generator
        ^ [({ L := [⟨0, 2⟩], R := [⟨1, 4⟩], O := [⟨2, 6⟩] } : R1C ℚ)].length ∧
      fr.val 2 s.ithLagrangePolt
        = fr.val 2 exDomain.Generator
            ^ [({ L := [⟨0, 2⟩], R := [⟨1, 4⟩], O := [⟨2, 6⟩] } : R1C ℚ)].length
          * (fr.val 2 6 ^ exDomain.Cardinality - 1)
          / ((exDomain.Cardinality : ℚ) * (fr.val 2 6 - fr.val 2 exDomain.Generator
            ^ [({ L := [⟨0, 2⟩], R := [⟨1, 4⟩], O := [⟨2, 6⟩] } : R1C ℚ)].length)) :=
  setupABC_recurrence_closed_form (2 : ℚ) (by norm_num) exDomain 6 3
    [{ L := [⟨0, 2⟩], R := [⟨1, 4⟩], O := [⟨2, 6⟩] }]
    (by norm_num [fr.val, exDomain])
    (by norm_num [fr.val, exDomain])
    (by
      intro c hc
      rw [List.mem_singleton] at hc
      subst hc
      refine ⟨?_, ?_, ?_⟩ <;> intro u hu <;> rw [List.mem_singleton] at hu <;> subst hu <;>
        decide)
    (by
      intro j hj
      have hj1 : j ≤ 1 := hj
      interval_cases j <;> norm_num [fr.val, exDomain])

end Recurrence

/-! ## C17: the `div` test circuit -/

section DivCircuitProofs

variable {F : Type} [Field F]

theorem divCircuit_satisfied_iff (circuit : divCircuit F) :
    (circuit.Define { assertions := [] }).satisfied
      ↔ circuit.X * circuit.X / circuit.Y = circuit.Z := by
  simp [ConstraintSystem.satisfied, divCircuit.Define, ConstraintSystem.AssertIsEqual,
    ConstraintSystem.Mul, ConstraintSystem.Div]

/-- C17: the `div` circuit (`m = X·X`, `d = m / Y`, assert `d = Z`) encodes `Z = X·X / Y`:
for every assignment with `Y ≠ 0` it is satisfied exactly when `X·X = Y·Z`; and over a field
in which 14 is not zero the assignment `good` (`X = 6`, `Y = 12`, `Z = 3`) satisfies it and
the assignment `bad` (`X = 4`, `Y = 10`, `Z = 3`) does not. -/
theorem divCircuit_encodes_division :
    (∀ circuit : divCircuit F, circuit.Y ≠ 0 →
      ((circuit.Define { assertions := [] }).satisfied
        ↔ circuit.X * circuit.X = circuit.Y * circuit.Z)) ∧
    ((14 : F) ≠ 0 →
      ((divCircuit.good : divCircuit F).Define { assertions := [] }).satisfied ∧
      ¬ ((divCircuit.bad : divCircuit F).Define { assertions := [] }).satisfied) := by
  refine ⟨fun circuit hY => ?_, fun h14 => ⟨?_, ?_⟩⟩
  · rw [divCircuit_satisfied_iff, div_eq_iff hY, mul_comm circuit.Z]
  · rw [divCircuit_satisfied_iff]
    have h2 : (2 : F) ≠ 0 := by
      intro h
      apply h14
      have : (14 : F) = 2 * 7 := by norm_num
      rw [this, h, zero_mul]
    show (6 : F) * 6 / 12 = 3
    by_cases h12 : (12 : F) = 0
    · have h3 : (3 : F) = 0 := by
        have h : (2 : F) * 2 * 3 = 0 := by
          have : (2 : F) * 2 * 3 = 12 := by norm_num
          rw [this, h12]
        rcases mul_eq_zero.mp h with h | h
        · rcases mul_eq_zero.mp h with h | h <;> exact absurd h h2
        · exact h
      rw [h12, div_zero, h3]
    · rw [div_eq_iff h12]
      norm_num
  · rw [divCircuit_satisfied_iff]
    show ¬ ((4 : F) * 4 / 10 = 3)
    intro h
    by_cases h10 : (10 : F) = 0
    · rw [h10, div_zero] at h
      have h1 : (1 : F) = 0 := by
        have : (1 : F) = 10 - 3 * 3 := by norm_num
        rw [this, h10, ← h]
        norm_num
      exact one_ne_zero h1
    · rw [div_eq_iff h10] at h
      apply h14
      have : (14 : F) = 3 * 10 - 4 * 4 := by norm_num
      rw [this, ← h]
      ring

/-- Witness of C17: over the rationals, the assignment `X = 2`, `Y = 4`, `Z = 1`, whose `Y`
is not zero, and the assignments `good` and `bad`. -/
theorem divCircuit_encodes_division_witness :
    ((({ X := 2, Y := 4, Z := 1 } : divCircuit ℚ).Define { assertions := [] }).satisfied
      ↔ (2 : ℚ) * 2 = 4 * 1) ∧
    (((divCircuit.good : divCircuit ℚ).Define { assertions := [] }).satisfied ∧
      ¬ ((divCircuit.bad : divCircuit ℚ).Define { assertions := [] }).satisfied) :=
  ⟨(divCircuit_encodes_division (F := ℚ)).1 { X := 2, Y := 4, Z := 1 }
      (by show (4 : ℚ) ≠ 0; norm_num),
    (divCircuit_encodes_division (F := ℚ)).2 (by norm_num)⟩

end DivCircuitProofs

end Groth16
